import Mathlib

/-!
# Verification of the stack orchestration core

Shallow embedding of the dependency-graph / topological-sort / execution
engine of the repository (source files `src/core/dependency-graph.ts`,
`src/core/executor.ts`, `src/storage/status-store.ts`, and the CLI `run`
command).  JavaScript `Map`s in insertion order are modelled as lists of
nodes with distinct keys; `Record<string, _>` objects are modelled as
association lists with in-place update; JavaScript timestamps
(`new Date().toISOString()`) are modelled by an abstract clock value
`now : Nat`.  The external worker process (`executePlan`, which spawns a
child process) is modelled as an oracle `worker : String → ExecutePlanResult`,
matching the spec's "Worker collaborator" interface.
-/

/-- `ExecutionStatus` from `src/types/status.ts`. -/
inductive ExecutionStatus where
  | pending
  | running
  | completed
  | failed
  | skipped
deriving Repr, DecidableEq

/-- `PlanExecutionStatus` from `src/types/status.ts` (timestamps as `Option Nat`). -/
structure PlanExecutionStatus where
  planId : String
  executionStatus : ExecutionStatus
  lastExecutedAt : Option Nat
  executionDurationMs : Option Nat
  errorMessage : Option String
  exitCode : Option Int
deriving Repr, DecidableEq

/-- `StackExecutionStatus` from `src/types/status.ts`.  The
`planStatuses : Record<string, PlanExecutionStatus>` object is an
association list in key-insertion order. -/
structure StackExecutionStatus where
  stackName : String
  planStatuses : List (String × PlanExecutionStatus)
  lastRunAt : Option Nat
  isRunning : Bool
deriving Repr, DecidableEq

/-- `StackPlan` from `src/types/stack.ts`. -/
structure StackPlan where
  planId : String
  dependsOnPlanIds : List String
  executionStatus : ExecutionStatus
  lastExecutedAt : Option Nat
  executionDurationMs : Option Nat
deriving Repr, DecidableEq

/-- `Stack` from `src/types/stack.ts` (timestamps as `Nat`). -/
structure Stack where
  stackName : String
  stackDescription : Option String
  plans : List StackPlan
  rootPlanIds : List String
  createdAt : Nat
  updatedAt : Nat
deriving Repr, DecidableEq

/-- `Plan` from `src/types/plan.ts` (the fields the core reads; `planType`
kept as a plain string). -/
structure Plan where
  planId : String
  filePath : String
  title : String
  planType : String
  references : List String
  concepts : List String
  content : String
deriving Repr, DecidableEq

/-- Association-list read, the JS `obj[key]` / `map.get(key)` access. -/
def alistGet {β : Type} (l : List (String × β)) (k : String) : Option β :=
  (l.find? (fun p => p.1 == k)).map (·.2)

/-- Association-list write, the JS `obj[key] = v` / `map.set(k, v)` update:
an existing key keeps its position, a new key is appended. -/
def alistSet {β : Type} (l : List (String × β)) (k : String) (v : β) :
    List (String × β) :=
  if (l.find? (fun p => p.1 == k)).isSome then
    l.map (fun p => if p.1 == k then (k, v) else p)
  else
    l ++ [(k, v)]

/-- JS truthiness of an optional string argument (`undefined` and `""` are falsy). -/
def optTruthy : Option String → Bool
  | none => false
  | some s => s ≠ ""

/-- JS `Array.prototype.indexOf`: index of the first occurrence, `-1` if absent. -/
def jsIndexOf (l : List String) (x : String) : Int :=
  if x ∈ l then (l.indexOf x : Int) else -1

/-- JS `Array.prototype.slice(start)` with a single (possibly negative) argument. -/
def jsSlice {α : Type} (l : List α) (start : Int) : List α :=
  if start < 0 then l.drop (max ((l.length : Int) + start) 0).toNat
  else l.drop start.toNat

/-! ## Dependency graph (`src/core/dependency-graph.ts`) -/

/-- `DependencyNode` from `src/core/dependency-graph.ts`. -/
structure DependencyNode where
  planId : String
  dependsOnPlanIds : List String
  dependentPlanIds : List String
deriving Repr, DecidableEq

/-- A `Map<string, DependencyNode>` in insertion order.  A real `Map` has
distinct keys; theorems that depend on `Map` key-uniqueness carry a
`Nodup` hypothesis on the key list. -/
abbrev Graph := List DependencyNode

/-- `graph.get(id)`. -/
def graphFind (g : Graph) (id : String) : Option DependencyNode :=
  g.find? (fun n => n.planId == id)

/-- The keys of the graph map. -/
def graphKeys (g : Graph) : List String := g.map (·.planId)

/-- Forward edges of `id` (empty when `id` is not in the map). -/
def depsOf (g : Graph) (id : String) : List String :=
  match graphFind g id with
  | some n => n.dependsOnPlanIds
  | none => []

/-- Reverse edges of `id` (empty when `id` is not in the map). -/
def dependentsOf (g : Graph) (id : String) : List String :=
  match graphFind g id with
  | some n => n.dependentPlanIds
  | none => []

/-- The edge relation of the graph: `u` depends on `v`. -/
def Edge (g : Graph) (u v : String) : Prop := v ∈ depsOf g u

instance (g : Graph) (u v : String) : Decidable (Edge g u v) := by
  unfold Edge; infer_instance

/-- The graph has a (directed) cycle: some node reaches itself in at
least one step. -/
def Cyclic (g : Graph) : Prop := ∃ v, Relation.TransGen (Edge g) v v

/-- `l` is a walk along graph edges: consecutive elements are edges. -/
def Walk (g : Graph) : List String → Prop
  | [] => True
  | [_] => True
  | a :: b :: t => Edge g a b ∧ Walk g (b :: t)

instance walkDecidable (g : Graph) : (l : List String) → Decidable (Walk g l)
  | [] => isTrue trivial
  | [_] => isTrue trivial
  | a :: b :: t =>
    haveI : Decidable (Walk g (b :: t)) := walkDecidable g (b :: t)
    decidable_of_iff (Edge g a b ∧ Walk g (b :: t)) Iff.rfl

/-!
### Cycle detection (`detectCycle`)

The source uses a recursive closure `dfs(nodeId, path)` over a shared
mutable `visited` set:

- on entry it adds `nodeId` to `visited` (the `recursionStack` set in the
  source is written but never read — dead code, omitted here);
- it iterates over the node's `dependsOnPlanIds`; an unvisited dep is
  recursed into with `path ++ [dep]`; a visited dep that lies on the
  current `path` closes a cycle, reported as
  `path.slice(path.indexOf(dep)) ++ [dep]`;
- a missing node (`graph.get` fails) contributes nothing.

The embedding threads `visited` explicitly and uses a fuel parameter to
bound the recursion depth; one fuel unit is consumed per nested `dfs`
call, and the depth is bounded by the number of distinct ids, so
`detectCycle` below supplies fuel that is provably never exhausted. -/

/-- One step of the dep-iteration of `dfs`; `path` ends at the node whose
dependency list `deps` is being walked.  Returns the updated visited set
and the discovered cycle, if any.  One fuel unit is consumed per call so
the recursion is structural; the fuel supplied by `detectCycle` is
provably never exhausted. -/
def dfsDeps (g : Graph) : Nat → List String → List String → List String →
    List String × Option (List String)
  | 0, _, _, vis => (vis, none)
  | _ + 1, [], _, vis => (vis, none)
  | fuel + 1, dep :: rest, path, vis =>
    if dep ∈ vis then
      if dep ∈ path then
        (vis, some (path.drop (path.indexOf dep) ++ [dep]))
      else
        dfsDeps g fuel rest path vis
    else
      let vis1 := dep :: vis
      match graphFind g dep with
      | none => dfsDeps g fuel rest path vis1
      | some node =>
        match dfsDeps g fuel node.dependsOnPlanIds (path ++ [dep]) vis1 with
        | (vis2, some c) => (vis2, some c)
        | (vis2, none) => dfsDeps g fuel rest path vis2

/-- The top-level loop of `detectCycle`: `for (const nodeId of graph.keys())
if (!visited.has(nodeId)) dfs(nodeId, [nodeId])`. -/
def detectCycleGo (g : Graph) (fuel : Nat) :
    List DependencyNode → List String → List String × Option (List String)
  | [], vis => (vis, none)
  | n :: rest, vis =>
    if n.planId ∈ vis then detectCycleGo g fuel rest vis
    else
      let vis1 := n.planId :: vis
      let r :=
        match graphFind g n.planId with
        | none => (vis1, none)
        | some node => dfsDeps g fuel node.dependsOnPlanIds [n.planId] vis1
      match r with
      | (vis2, some c) => (vis2, some c)
      | (vis2, none) => detectCycleGo g fuel rest vis2

/-- All ids the traversal can ever visit: the keys plus every id that
occurs in a dependency list. -/
def allIds (g : Graph) : List String :=
  g.map (·.planId) ++ g.flatMap (·.dependsOnPlanIds)

/-- A fuel budget sufficient for the whole traversal (proved below). -/
def detectFuel (g : Graph) : Nat :=
  (g.flatMap (·.dependsOnPlanIds)).length +
    (allIds g).length * (1 + (g.flatMap (·.dependsOnPlanIds)).length) + 1

/-- `detectCycle` from `src/core/dependency-graph.ts`: returns
`{hasCycle, cycleNodes}` (with `cycleNodes = []` when no cycle). -/
def detectCycle (g : Graph) : Bool × List String :=
  match detectCycleGo g (detectFuel g) g [] with
  | (_, some c) => (true, c)
  | (_, none) => (false, [])

/-! ### Topological sort (`topologicalSort`, Kahn's algorithm) -/

/-- `TopologicalSortResult` from `src/core/dependency-graph.ts`
(`cycleNodes` is an optional field). -/
structure TopologicalSortResult where
  sortedPlanIds : List String
  hasCycle : Bool
  cycleNodes : Option (List String)
deriving Repr, DecidableEq

/-- The in-degree map right after the two initialization loops: every key
maps to the length of its dependency list; `inDegree.get(x) ?? 0` yields
`0` for absent keys. -/
def initialDeg (g : Graph) : String → Int := fun id =>
  match graphFind g id with
  | some n => (n.dependsOnPlanIds.length : Int)
  | none => 0

/-- The initial ready queue: the `inDegree.forEach` seeding in map
insertion order pushes every key whose degree is `0`, i.e. whose
dependency list is empty. -/
def seedQueue (g : Graph) : List String :=
  (g.filter (fun n => n.dependsOnPlanIds.length == 0)).map (·.planId)

/-- The inner `node.dependentPlanIds.forEach` of the Kahn loop: decrement
each dependent's degree (`inDegree.get(depId) ?? 0` minus one) and enqueue
it when the new degree is exactly `0`. -/
def processDependents : List String → (String → Int) → List String →
    (String → Int) × List String
  | [], deg, queue => (deg, queue)
  | depId :: rest, deg, queue =>
    let newDegree := deg depId - 1
    let deg' := fun x => if x = depId then newDegree else deg x
    let queue' := if newDegree = 0 then queue ++ [depId] else queue
    processDependents rest deg' queue'

/-- The `while (queue.length > 0)` loop of `topologicalSort`.  The shifted
id is dropped when falsy (`if (!nodeId) continue` — the empty string!);
it is pushed onto the order *before* the node lookup, so an id without a
node still enters the order but decrements nothing.  Fuel bounds the
number of iterations and is provably sufficient for the supplied value. -/
def kahnLoop (g : Graph) : Nat → List String → (String → Int) → List String →
    List String
  | 0, _, _, sorted => sorted
  | _ + 1, [], _, sorted => sorted
  | fuel + 1, nodeId :: queue, deg, sorted =>
    if nodeId = "" then kahnLoop g fuel queue deg sorted
    else
      let sorted1 := sorted ++ [nodeId]
      match graphFind g nodeId with
      | none => kahnLoop g fuel queue deg sorted1
      | some node =>
          let r := processDependents node.dependentPlanIds deg queue
          kahnLoop g fuel r.2 r.1 sorted1

/-- `topologicalSort` from `src/core/dependency-graph.ts`: run
`detectCycle` first; if a cycle exists return `{order: [], hasCycle: true,
cycleNodes}`; otherwise run Kahn's algorithm. -/
def topologicalSort (g : Graph) : TopologicalSortResult :=
  let cycleResult := detectCycle g
  if cycleResult.1 then
    { sortedPlanIds := [], hasCycle := true, cycleNodes := some cycleResult.2 }
  else
    { sortedPlanIds := kahnLoop g (g.length + 1) (seedQueue g) (initialDeg g) []
      hasCycle := false
      cycleNodes := none }

/-! ### Graph builder (`buildDependencyGraph`) -/

/-- A node with one more reverse edge. -/
def nodeAddDependent (n : DependencyNode) (planId : String) : DependencyNode :=
  { planId := n.planId
    dependsOnPlanIds := n.dependsOnPlanIds
    dependentPlanIds := n.dependentPlanIds ++ [planId] }

/-- A node with its forward edges replaced. -/
def nodeWithDeps (n : DependencyNode) (deps : List String) : DependencyNode :=
  { planId := n.planId
    dependsOnPlanIds := deps
    dependentPlanIds := n.dependentPlanIds }

/-- `graph.get(depId)?.dependentPlanIds.push(planId)`: append a reverse
edge on the (unique, for a real `Map`) node with key `depId`; no-op when
the key is absent. -/
def pushDependent (g : Graph) (depId planId : String) : Graph :=
  g.map (fun n => if n.planId == depId then nodeAddDependent n planId else n)

/-- `node.dependsOnPlanIds = validDependencies` on the node with key `id`. -/
def setDeps (g : Graph) (id : String) (deps : List String) : Graph :=
  g.map (fun n => if n.planId == id then nodeWithDeps n deps else n)

/-- The body of the second `plans.forEach` of `buildDependencyGraph`:
filter the plan's references to the available set (silently dropping the
rest), store them as forward edges and push the reverse edges. -/
def buildStep (availablePlanIds : List String) (g : Graph) (p : Plan) : Graph :=
  match graphFind g p.planId with
  | none => g
  | some _ =>
    let validDependencies := p.references.filter (fun r => r ∈ availablePlanIds)
    let g1 := setDeps g p.planId validDependencies
    validDependencies.foldl (fun g' depId => pushDependent g' depId p.planId) g1

/-- `buildDependencyGraph` from `src/core/dependency-graph.ts`: initialize
a node per plan, then run `buildStep` for each plan. -/
def buildDependencyGraph (plans : List Plan) (availablePlanIds : List String) :
    Graph :=
  let g0 : Graph := plans.map (fun p =>
    { planId := p.planId, dependsOnPlanIds := [], dependentPlanIds := [] })
  plans.foldl (buildStep availablePlanIds) g0

/-- `plansToStackPlans` from `src/core/dependency-graph.ts`. -/
def plansToStackPlans (plans : List Plan) : List StackPlan :=
  let availablePlanIds := plans.map (·.planId)
  let graph := buildDependencyGraph plans availablePlanIds
  plans.map (fun plan =>
    { planId := plan.planId
      dependsOnPlanIds :=
        match graphFind graph plan.planId with
        | some node => node.dependsOnPlanIds
        | none => []
      executionStatus := ExecutionStatus.pending
      lastExecutedAt := none
      executionDurationMs := none })

/-- The body of the reverse-edge `forEach` inside `getExecutionOrder`:
push `sp.planId` onto the dependents of each of its dependencies. -/
def execGraphStep (g : Graph) (sp : StackPlan) : Graph :=
  sp.dependsOnPlanIds.foldl (fun g' depId => pushDependent g' depId sp.planId) g

/-- The initial node built for a stack plan (no reverse edges yet). -/
def spNode (sp : StackPlan) : DependencyNode :=
  { planId := sp.planId
    dependsOnPlanIds := sp.dependsOnPlanIds
    dependentPlanIds := [] }

/-- The graph construction inside `getExecutionOrder`: nodes carry the
stored `dependsOnPlanIds`, then reverse edges are pushed. -/
def execGraph (stackPlans : List StackPlan) : Graph :=
  let g0 : Graph := stackPlans.map spNode
  stackPlans.foldl execGraphStep g0

/-- `getExecutionOrder` from `src/core/dependency-graph.ts`. -/
def getExecutionOrder (stackPlans : List StackPlan) : TopologicalSortResult :=
  topologicalSort (execGraph stackPlans)

/-! ## Status store (`src/storage/status-store.ts`) -/

/-- The default (all-pending) entry for a plan id. -/
def pendingEntry (planId : String) : PlanExecutionStatus :=
  { planId := planId
    executionStatus := ExecutionStatus.pending
    lastExecutedAt := none
    executionDurationMs := none
    errorMessage := none
    exitCode := none }

/-- `createDefaultStatus` from `src/storage/status-store.ts`. -/
def createDefaultStatus (stackName : String) (planIds : List String) :
    StackExecutionStatus :=
  { stackName := stackName
    planStatuses := planIds.map (fun planId => (planId, pendingEntry planId))
    lastRunAt := none
    isRunning := false }

/-- `loadStackStatus`: read the stored record (falling back to the default
when absent) and backfill a pending entry for every listed plan id that
has none. -/
def loadStackStatus (stored : Option StackExecutionStatus) (stackName : String)
    (planIds : List String) : StackExecutionStatus :=
  match stored with
  | none => createDefaultStatus stackName planIds
  | some status =>
    { status with
        planStatuses := planIds.foldl (fun ps planId =>
          if (alistGet ps planId).isSome then ps
          else ps ++ [(planId, pendingEntry planId)]) status.planStatuses }

/-- `updatePlanStatus` from `src/storage/status-store.ts`: overwrite one
plan's entry and stamp `lastRunAt`. -/
def updatePlanStatus (stored : Option StackExecutionStatus) (stackName : String)
    (planIds : List String) (planId : String) (executionStatus : ExecutionStatus)
    (errorMessage : Option String) (exitCode : Option Int)
    (executionDurationMs : Option Nat) (now : Nat) : StackExecutionStatus :=
  let status := loadStackStatus stored stackName planIds
  let planStatus : PlanExecutionStatus :=
    { planId := planId
      executionStatus := executionStatus
      lastExecutedAt := some now
      executionDurationMs := executionDurationMs
      errorMessage := errorMessage
      exitCode := exitCode }
  { status with
      planStatuses := alistSet status.planStatuses planId planStatus
      lastRunAt := some now }

/-- `setStackRunning` from `src/storage/status-store.ts`: set the flag;
`lastRunAt` is stamped only when the flag is being set to `true`. -/
def setStackRunning (stored : Option StackExecutionStatus) (stackName : String)
    (planIds : List String) (isRunning : Bool) (now : Nat) :
    StackExecutionStatus :=
  let status := loadStackStatus stored stackName planIds
  { status with
      isRunning := isRunning
      lastRunAt := if isRunning then some now else status.lastRunAt }

/-- `resetStackStatus` from `src/storage/status-store.ts`: save a fresh
default record, discarding whatever was stored before. -/
def resetStackStatus (stackName : String) (planIds : List String) :
    StackExecutionStatus :=
  createDefaultStatus stackName planIds

/-! ## Execution engine (`src/core/executor.ts`) -/

/-- `ExecutePlanResult` from `src/core/executor.ts`. -/
structure ExecutePlanResult where
  planId : String
  executionStatus : ExecutionStatus
  exitCode : Option Int
  errorMessage : Option String
  executionDurationMs : Nat
  output : String
deriving Repr, DecidableEq

/-- The `skipped` result record pushed for a plan with unmet dependencies. -/
def skippedResult (planId : String) : ExecutePlanResult :=
  { planId := planId
    executionStatus := ExecutionStatus.skipped
    exitCode := none
    errorMessage := some "Skipped due to failed dependencies."
    executionDurationMs := 0
    output := "" }

/-- The per-`StackPlan` status update performed by `updateStackPlanStatus`
call sites in the executor (a `Partial<StackPlan>` spread). -/
def applyStackPlanUpdate (sp : StackPlan) (st : ExecutionStatus)
    (lastExecutedAt : Option (Option Nat)) (durationMs : Option (Option Nat)) :
    StackPlan :=
  { planId := sp.planId
    dependsOnPlanIds := sp.dependsOnPlanIds
    executionStatus := st
    lastExecutedAt :=
      match lastExecutedAt with
      | some v => v
      | none => sp.lastExecutedAt
    executionDurationMs :=
      match durationMs with
      | some v => v
      | none => sp.executionDurationMs }

/-- `updateStackPlanStatus` from `src/core/stack-manager.ts`, specialized
to the field sets the executor passes: map the update over the plan with
the matching id. -/
def updateStackPlanStatus (plans : List StackPlan) (planId : String)
    (st : ExecutionStatus) (lastExecutedAt : Option (Option Nat))
    (durationMs : Option (Option Nat)) : List StackPlan :=
  plans.map (fun sp =>
    if sp.planId == planId then applyStackPlanUpdate sp st lastExecutedAt durationMs
    else sp)

/-- The state threaded through one run: the durable status record and the
stack store's plan list, plus the accumulated results and completed set. -/
structure ExecState where
  status : StackExecutionStatus
  stackPlans : List StackPlan
  results : List ExecutePlanResult
  completedPlanIds : List String
deriving Repr, DecidableEq

/-- The `for (const planId of executionOrder)` loop of `executeStack`.
`stack` is the stack object loaded once at the start (the dependency
checks read it, not the store); `worker` abstracts `executePlan`. -/
def execLoop (stack : Stack) (worker : String → ExecutePlanResult)
    (stackName : String) (planIds : List String) (now : Nat) :
    List String → ExecState → ExecState
  | [], s => s
  | planId :: restOrder, s =>
    if planId ∈ s.completedPlanIds then
      execLoop stack worker stackName planIds now restOrder s
    else
      let stackPlan := stack.plans.find? (fun p => p.planId == planId)
      let hasUnmetDependencies :=
        match stackPlan with
        | some sp => sp.dependsOnPlanIds.any (fun depId =>
            !(s.completedPlanIds.contains depId))
        | none => false
      if hasUnmetDependencies then
        let status1 := updatePlanStatus (some s.status) stackName planIds planId
          ExecutionStatus.skipped (some "Skipped due to failed dependencies.")
          none none now
        let plans1 := updateStackPlanStatus s.stackPlans planId
          ExecutionStatus.skipped none none
        execLoop stack worker stackName planIds now restOrder
          { status := status1
            stackPlans := plans1
            results := s.results ++ [skippedResult planId]
            completedPlanIds := s.completedPlanIds }
      else
        let statusR := updatePlanStatus (some s.status) stackName planIds planId
          ExecutionStatus.running none none none now
        let plansR := updateStackPlanStatus s.stackPlans planId
          ExecutionStatus.running none none
        let result := worker planId
        let status2 := updatePlanStatus (some statusR) stackName planIds planId
          result.executionStatus result.errorMessage result.exitCode
          (some result.executionDurationMs) now
        let plans2 := updateStackPlanStatus plansR planId result.executionStatus
          (some (some now)) (some (some result.executionDurationMs))
        execLoop stack worker stackName planIds now restOrder
          { status := status2
            stackPlans := plans2
            results := s.results ++ [result]
            completedPlanIds :=
              if result.executionStatus = ExecutionStatus.completed then
                s.completedPlanIds ++ [planId]
              else s.completedPlanIds }

/-- What a finished (non-dry) run returns, plus the final stores. -/
structure ExecOutcome where
  results : List ExecutePlanResult
  executionOrder : List String
  finalStatus : Option StackExecutionStatus
  finalStackPlans : List StackPlan
deriving Repr, DecidableEq

/-- `executeStack` from `src/core/executor.ts`.  `stackOpt` models
`loadStack` (absent stack throws); a cycle throws before any state is
touched; `fromPlanId` truncation uses JS `indexOf`/`slice` semantics and
JS truthiness (`""` counts as not supplied); dry runs return the order
without touching state. -/
def executeStack (stackOpt : Option Stack) (stored : Option StackExecutionStatus)
    (worker : String → ExecutePlanResult) (dryRun : Bool)
    (fromPlanId : Option String) (now : Nat) : Except String ExecOutcome :=
  match stackOpt with
  | none => Except.error "Stack not found."
  | some stack =>
    let r := getExecutionOrder stack.plans
    if r.hasCycle then
      Except.error ("Dependency cycle detected: " ++
        (match r.cycleNodes with
         | some c => String.intercalate " -> " c
         | none => "unknown"))
    else
      let executionOrder :=
        if optTruthy fromPlanId then
          jsSlice r.sortedPlanIds
            (jsIndexOf r.sortedPlanIds (fromPlanId.getD ""))
        else r.sortedPlanIds
      if dryRun then
        Except.ok
          { results := []
            executionOrder := executionOrder
            finalStatus := stored
            finalStackPlans := stack.plans }
      else
        let planIds := stack.plans.map (·.planId)
        let st1 := setStackRunning stored stack.stackName planIds true now
        let currentStatus := loadStackStatus (some st1) stack.stackName planIds
        let completed0 := stack.plans.filterMap (fun sp =>
          match alistGet currentStatus.planStatuses sp.planId with
          | some ps =>
            if ps.executionStatus = ExecutionStatus.completed then some sp.planId
            else none
          | none => none)
        let sFinal := execLoop stack worker stack.stackName planIds now
          executionOrder
          { status := st1
            stackPlans := stack.plans
            results := []
            completedPlanIds := completed0 }
        let st2 := setStackRunning (some sFinal.status) stack.stackName planIds
          false now
        Except.ok
          { results := sFinal.results
            executionOrder := executionOrder
            finalStatus := some st2
            finalStackPlans := sFinal.stackPlans }

/-- `getStackExecutionStatus` from `src/core/executor.ts`. -/
def getStackExecutionStatus (stackOpt : Option Stack)
    (stored : Option StackExecutionStatus) : Option StackExecutionStatus :=
  match stackOpt with
  | none => none
  | some stack =>
    some (loadStackStatus stored stack.stackName (stack.plans.map (·.planId)))

/-! ## The CLI `run` command (`runCommand`, bundled in `src/cli/commands/init.ts`) -/

/-- The options of `runCommand` (`--dry-run`, `--from`, `--reset`). -/
structure RunOptions where
  dryRun : Bool
  fromPlan : Option String
  reset : Bool
deriving Repr, DecidableEq

/-- The distinct early-return paths of `runCommand`. -/
inductive RunOutcome where
  | stackNotFound
  | alreadyRunning
  | cycleDetected
  | fromNotFound
  | dryRunShown
  | executed
  | threw (msg : String)
deriving Repr, DecidableEq

/-- `runCommand`: look the stack up, apply the single-run guard
(`currentStatus?.isRunning` — this is the only place the guard exists),
optionally reset, check for a cycle and for a missing `--from` plan, then
either show the dry run or call `executeStack`.  Returns the outcome, the
final stored status and the results printed in the summary. -/
def runCommand (stackOpt : Option Stack) (stored : Option StackExecutionStatus)
    (options : RunOptions) (worker : String → ExecutePlanResult) (now : Nat) :
    RunOutcome × Option StackExecutionStatus × List ExecutePlanResult :=
  match stackOpt with
  | none => (RunOutcome.stackNotFound, stored, [])
  | some stack =>
    let currentStatus := getStackExecutionStatus (some stack) stored
    if (currentStatus.map (·.isRunning)).getD false then
      (RunOutcome.alreadyRunning, stored, [])
    else
      let planIds := stack.plans.map (·.planId)
      let stored1 :=
        if options.reset then some (resetStackStatus stack.stackName planIds)
        else stored
      let r := getExecutionOrder stack.plans
      if r.hasCycle then (RunOutcome.cycleDetected, stored1, [])
      else if optTruthy options.fromPlan &&
          !(r.sortedPlanIds.contains (options.fromPlan.getD "")) then
        (RunOutcome.fromNotFound, stored1, [])
      else if options.dryRun then (RunOutcome.dryRunShown, stored1, [])
      else
        match executeStack (some stack) stored1 worker false options.fromPlan now with
        | Except.ok out => (RunOutcome.executed, out.finalStatus, out.results)
        | Except.error e => (RunOutcome.threw e, stored1, [])

/-! ## Semantic accessors -/

/-- The execution status recorded for `p` (a missing entry reads as
`pending`, matching the synthesis on load). -/
def execStatusOf (st : StackExecutionStatus) (p : String) : ExecutionStatus :=
  match alistGet st.planStatuses p with
  | some e => e.executionStatus
  | none => ExecutionStatus.pending

/-- The error message recorded for `p`. -/
def errMsgOf (st : StackExecutionStatus) (p : String) : Option String :=
  match alistGet st.planStatuses p with
  | some e => e.errorMessage
  | none => none

/-! ## Association-list lemmas -/


theorem find?_replace_self {β : Type} (l : List (String × β)) (k : String) (v : β)
    (h : (l.find? (fun p => p.1 == k)).isSome) :
    (l.map (fun p => if p.1 == k then (k, v) else p)).find? (fun p => p.1 == k) =
      some (k, v) := by
  induction l with
  | nil => simp at h
  | cons p t ih =>
    by_cases hp : (p.1 == k) = true
    · simp only [List.map_cons, if_pos hp, List.find?_cons, beq_self_eq_true, cond_true]
    · have hp' : (p.1 == k) = false := by simpa using hp
      simp only [List.find?_cons, hp', cond_false] at h
      rw [List.map_cons, if_neg hp]
      simp only [List.find?_cons, hp', cond_false]
      exact ih h

theorem find?_replace_ne {β : Type} (l : List (String × β)) (k k' : String) (v : β)
    (h : k' ≠ k) :
    (l.map (fun p => if p.1 == k then (k, v) else p)).find? (fun p => p.1 == k') =
      l.find? (fun p => p.1 == k') := by
  induction l with
  | nil => rfl
  | cons p t ih =>
    by_cases hp : (p.1 == k) = true
    · have hp' : p.1 = k := by simpa using hp
      have h2 : (p.1 == k') = false := by
        rw [hp']
        simp only [beq_eq_false_iff_ne, ne_eq]
        exact fun hc => h hc.symm
      have h1 : ((k, v).1 == k') = false := by
        simp only [beq_eq_false_iff_ne, ne_eq]
        exact fun hc => h hc.symm
      simp only [List.map_cons, if_pos hp, List.find?_cons, h1, h2, cond_false]
      exact ih
    · by_cases hq : (p.1 == k') = true
      · simp only [List.map_cons, if_neg hp, List.find?_cons, hq, cond_true]
      · have hq' : (p.1 == k') = false := by simpa using hq
        simp only [List.map_cons, if_neg hp, List.find?_cons, hq', cond_false]
        exact ih

theorem alistGet_set_self {β : Type} (l : List (String × β)) (k : String) (v : β) :
    alistGet (alistSet l k v) k = some v := by
  unfold alistSet
  split
  · next hsome =>
    unfold alistGet
    rw [find?_replace_self l k v hsome]
    rfl
  · next hnone =>
    unfold alistGet
    rw [List.find?_append]
    cases hfind : l.find? (fun p => p.1 == k) with
    | none => simp [List.find?]
    | some q => rw [hfind] at hnone; simp at hnone

theorem alistGet_set_ne {β : Type} (l : List (String × β)) (k k' : String) (v : β)
    (h : k' ≠ k) : alistGet (alistSet l k v) k' = alistGet l k' := by
  unfold alistSet
  split
  · unfold alistGet
    rw [find?_replace_ne l k k' v h]
  · unfold alistGet
    rw [List.find?_append]
    have h1 : ((k, v).1 == k') = false := by
      simp only [beq_eq_false_iff_ne, ne_eq]
      exact fun hc => h hc.symm
    cases hfind : l.find? (fun p => p.1 == k') with
    | none => simp [List.find?, h1]
    | some q => simp

theorem alistGet_map_pending (planIds : List String) (pid : String)
    (h : pid ∈ planIds) :
    alistGet (planIds.map (fun planId => (planId, pendingEntry planId))) pid =
      some (pendingEntry pid) := by
  induction planIds with
  | nil => cases h
  | cons a t ih =>
    by_cases ha : (a == pid) = true
    · have ha' : a = pid := by simpa using ha
      subst ha'
      simp [alistGet, List.find?_cons]
    · have ha' : (a == pid) = false := by simpa using ha
      have hmem : pid ∈ t := by
        cases h with
        | head => simp at ha'
        | tail _ hm => exact hm
      unfold alistGet at ih ⊢
      simp only [List.map_cons, List.find?_cons, ha', cond_false]
      exact ih hmem

/-! ## Graph-builder lemmas -/

theorem setDeps_forall {P : DependencyNode → Prop} (g : Graph) (id : String)
    (deps : List String) (hg : ∀ n ∈ g, P n)
    (hnew : ∀ n ∈ g, P (nodeWithDeps n deps)) :
    ∀ n ∈ setDeps g id deps, P n := by
  intro n hn
  unfold setDeps at hn
  obtain ⟨m, hm, rfl⟩ := List.mem_map.mp hn
  by_cases hc : (m.planId == id) = true
  · simpa [hc] using hnew m hm
  · simpa [hc] using hg m hm

theorem pushDependent_forall {P : DependencyNode → Prop} (g : Graph)
    (depId planId : String) (hg : ∀ n ∈ g, P n)
    (hnew : ∀ n ∈ g, P (nodeAddDependent n planId)) :
    ∀ n ∈ pushDependent g depId planId, P n := by
  intro n hn
  unfold pushDependent at hn
  obtain ⟨m, hm, rfl⟩ := List.mem_map.mp hn
  by_cases hc : (m.planId == depId) = true
  · simpa [hc] using hnew m hm
  · simpa [hc] using hg m hm

/-- Pushing reverse edges for a list of deps preserves a per-node invariant
that is stable under `nodeAddDependent`. -/
theorem pushDependent_foldl_forall {P : DependencyNode → Prop}
    (planId : String) (hstable : ∀ n pid, P n → P (nodeAddDependent n pid)) :
    ∀ (deps : List String) (g : Graph), (∀ n ∈ g, P n) →
      ∀ n ∈ deps.foldl (fun g' depId => pushDependent g' depId planId) g, P n := by
  intro deps
  induction deps with
  | nil => intro g hg; exact hg
  | cons a t ih =>
    intro g hg
    simp only [List.foldl_cons]
    refine ih _ ?_
    refine pushDependent_forall g a planId hg ?_
    intro n hn
    exact hstable n planId (hg n hn)

/-- Every node's forward-edge list in the built graph is contained in the
available id set: dangling references are dropped, silently. -/
theorem buildDependencyGraph_deps_subset (plans : List Plan)
    (avail : List String) :
    ∀ n ∈ buildDependencyGraph plans avail, ∀ d ∈ n.dependsOnPlanIds,
      d ∈ avail := by
  unfold buildDependencyGraph
  have hinit : ∀ n ∈ (plans.map (fun p =>
      ({ planId := p.planId, dependsOnPlanIds := [],
         dependentPlanIds := [] } : DependencyNode))),
      ∀ d ∈ n.dependsOnPlanIds, d ∈ avail := by
    intro n hn d hd
    obtain ⟨m, _, rfl⟩ := List.mem_map.mp hn
    simp at hd
  generalize (plans.map (fun p =>
      ({ planId := p.planId, dependsOnPlanIds := [],
         dependentPlanIds := [] } : DependencyNode))) = g0 at hinit ⊢
  induction plans generalizing g0 with
  | nil => exact hinit
  | cons p t ih =>
    simp only [List.foldl_cons]
    refine ih _ ?_
    unfold buildStep
    cases hfind : graphFind g0 p.planId with
    | none => exact hinit
    | some node =>
      simp only
      refine pushDependent_foldl_forall p.planId ?_ _ _ ?_
      · intro n pid hn
        unfold nodeAddDependent
        exact hn
      · refine setDeps_forall g0 _ _ hinit ?_
        intro n _ d hd
        unfold nodeWithDeps at hd
        simp only at hd
        exact of_decide_eq_true (List.mem_filter.mp hd).2

/-- `p` with its raw reference list filtered to the available set — i.e.
the plan with dangling references already removed. -/
def planWithRefsFiltered (p : Plan) (avail : List String) : Plan :=
  { planId := p.planId
    filePath := p.filePath
    title := p.title
    planType := p.planType
    references := p.references.filter (fun r => r ∈ avail)
    concepts := p.concepts
    content := p.content }

theorem buildStep_filter_eq (avail : List String) (g : Graph) (p : Plan) :
    buildStep avail g (planWithRefsFiltered p avail) = buildStep avail g p := by
  unfold buildStep planWithRefsFiltered
  simp only [List.filter_filter, Bool.and_self]

theorem buildDependencyGraph_filter_eq (plans : List Plan)
    (avail : List String) :
    buildDependencyGraph (plans.map (fun p => planWithRefsFiltered p avail))
        avail = buildDependencyGraph plans avail := by
  simp only [buildDependencyGraph]
  rw [List.map_map]
  have h0 : plans.map ((fun p =>
      ({ planId := p.planId, dependsOnPlanIds := [],
         dependentPlanIds := [] } : DependencyNode)) ∘
        (fun p => planWithRefsFiltered p avail)) =
      plans.map (fun p =>
      ({ planId := p.planId, dependsOnPlanIds := [],
         dependentPlanIds := [] } : DependencyNode)) := by
    refine List.map_congr_left ?_
    intro p _
    rfl
  rw [h0]
  clear h0
  generalize (plans.map (fun p =>
      ({ planId := p.planId, dependsOnPlanIds := [],
         dependentPlanIds := [] } : DependencyNode))) = g0
  induction plans generalizing g0 with
  | nil => rfl
  | cons p t ih =>
    simp only [List.map_cons, List.foldl_cons, buildStep_filter_eq]
    exact ih _

theorem plansToStackPlans_filter_eq (plans : List Plan) :
    plansToStackPlans
        (plans.map (fun p => planWithRefsFiltered p (plans.map (·.planId)))) =
      plansToStackPlans plans := by
  simp only [plansToStackPlans]
  have hids : (plans.map (fun p =>
      planWithRefsFiltered p (plans.map (·.planId)))).map (·.planId) =
      plans.map (·.planId) := by
    rw [List.map_map]
    refine List.map_congr_left ?_
    intro p _
    rfl
  rw [hids, buildDependencyGraph_filter_eq, List.map_map]
  refine List.map_congr_left ?_
  intro p _
  rfl

/-- A graph whose nodes have no forward edges has no cycle. -/
theorem not_cyclic_of_no_deps (g : Graph)
    (h : ∀ n ∈ g, n.dependsOnPlanIds = []) : ¬ Cyclic g := by
  rintro ⟨v, hv⟩
  have hno : ∀ u w, ¬ Edge g u w := by
    intro u w hE
    unfold Edge depsOf at hE
    cases hfind : graphFind g u with
    | none => rw [hfind] at hE; cases hE
    | some n =>
      rw [hfind] at hE
      simp only at hE
      have hmem : n ∈ g := List.mem_of_find?_eq_some hfind
      rw [h n hmem] at hE
      cases hE
  cases hv with
  | single h1 => exact hno _ _ h1
  | tail _ h1 => exact hno _ _ h1

/-! ## Concrete fixtures used by witnesses and counterexamples -/

/-- A stack plan with the given id and dependencies, otherwise fresh. -/
def mkStackPlan (id : String) (deps : List String) : StackPlan :=
  { planId := id
    dependsOnPlanIds := deps
    executionStatus := ExecutionStatus.pending
    lastExecutedAt := none
    executionDurationMs := none }

/-- A stack with the given plans, otherwise fresh. -/
def mkStack (plans : List StackPlan) : Stack :=
  { stackName := "s"
    stackDescription := none
    plans := plans
    rootPlanIds := []
    createdAt := 0
    updatedAt := 0 }

/-- A worker oracle whose every invocation exits 0. -/
def workerOk : String → ExecutePlanResult := fun p =>
  { planId := p
    executionStatus := ExecutionStatus.completed
    exitCode := some 0
    errorMessage := none
    executionDurationMs := 1
    output := "" }

/-- Two independent plans `a`, `b` inserted in that order. -/
def stkAB : Stack := mkStack [mkStackPlan "a" [], mkStackPlan "b" []]

/-- A single plan that depends on itself. -/
def stkSelfCycle : Stack := mkStack [mkStackPlan "a" ["a"]]

/-- A stored status record whose run flag is already `true`. -/
def stBusy : StackExecutionStatus :=
  { stackName := "s", planStatuses := [], lastRunAt := none, isRunning := true }

/-- Nodes `b` then `a`, no edges: two nodes ready simultaneously at seeding. -/
def gBA : Graph :=
  [{ planId := "b", dependsOnPlanIds := [], dependentPlanIds := [] },
   { planId := "a", dependsOnPlanIds := [], dependentPlanIds := [] }]

/-- The same two edgeless nodes inserted in the opposite order. -/
def gAB : Graph :=
  [{ planId := "a", dependsOnPlanIds := [], dependentPlanIds := [] },
   { planId := "b", dependsOnPlanIds := [], dependentPlanIds := [] }]

/-- A single node whose id is the empty string (a falsy id in JS). -/
def gEmptyId : Graph :=
  [{ planId := "", dependsOnPlanIds := [], dependentPlanIds := [] }]

/-! ## Claim C8 -/

/-- C8: `resetStackStatus` returns every listed task's status to `pending`
with `lastExecutedAt`, `durationMs`, `errorMessage` and `exitCode` all
cleared to null, sets `lastRunAt` to null and `isRunning` to false,
regardless of any prior persisted state (the stored record is rebuilt from
scratch, so the result does not depend on what was persisted before). -/
theorem c8_reset_clears_everything (stackName : String) (planIds : List String)
    (pid : String) (hmem : pid ∈ planIds) :
    (resetStackStatus stackName planIds).isRunning = false ∧
    (resetStackStatus stackName planIds).lastRunAt = none ∧
    alistGet (resetStackStatus stackName planIds).planStatuses pid =
      some { planId := pid
             executionStatus := ExecutionStatus.pending
             lastExecutedAt := none
             executionDurationMs := none
             errorMessage := none
             exitCode := none } := by
  refine ⟨rfl, rfl, ?_⟩
  unfold resetStackStatus createDefaultStatus
  simpa [pendingEntry] using alistGet_map_pending planIds pid hmem

/-- Witness for C8 at a concrete store. -/
theorem c8_reset_clears_everything_witness :
    ("a" ∈ ["a", "b"]) ∧
    ((resetStackStatus "s" ["a", "b"]).isRunning = false ∧
     (resetStackStatus "s" ["a", "b"]).lastRunAt = none ∧
     alistGet (resetStackStatus "s" ["a", "b"]).planStatuses "a" =
       some { planId := "a"
              executionStatus := ExecutionStatus.pending
              lastExecutedAt := none
              executionDurationMs := none
              errorMessage := none
              exitCode := none }) :=
  ⟨by decide, c8_reset_clears_everything "s" ["a", "b"] "a" (by decide)⟩

/-! ## Claim C9 -/

/-- C9: a reference to an id absent from the available set is dropped
without error: every edge of the built graph stays inside the available
set, and building from the plans with the dangling references already
removed yields the *same* graph — and the same `StackPlan` list, so the
executor later treats the referencing task exactly as if the dangling
dependency never existed (the dangling reference alone can never cause a
skip or a failure). -/
theorem c9_dangling_reference_dropped (plans : List Plan) :
    (∀ avail : List String, ∀ n ∈ buildDependencyGraph plans avail,
      ∀ d ∈ n.dependsOnPlanIds, d ∈ avail) ∧
    (∀ avail : List String,
      buildDependencyGraph (plans.map (fun p => planWithRefsFiltered p avail))
        avail = buildDependencyGraph plans avail) ∧
    plansToStackPlans
        (plans.map (fun p => planWithRefsFiltered p (plans.map (·.planId)))) =
      plansToStackPlans plans :=
  ⟨fun avail => buildDependencyGraph_deps_subset plans avail,
   fun avail => buildDependencyGraph_filter_eq plans avail,
   plansToStackPlans_filter_eq plans⟩

/-- A one-plan list whose plan carries a dangling reference `zz`. -/
def plansDangling : List Plan :=
  [{ planId := "b"
     filePath := ""
     title := ""
     planType := "plan"
     references := ["zz"]
     concepts := []
     content := "" }]

/-- Witness for C9: with the dangling reference `zz` the built stack plans
equal the ones built from the cleaned plan, and the built edge list is
empty. -/
theorem c9_dangling_reference_dropped_witness :
    plansToStackPlans
        (plansDangling.map (fun p =>
          planWithRefsFiltered p (plansDangling.map (·.planId)))) =
      plansToStackPlans plansDangling ∧
    (plansToStackPlans plansDangling).map (·.dependsOnPlanIds) = [[]] :=
  ⟨(c9_dangling_reference_dropped plansDangling).2.2, by decide⟩

/-! ## Counterexamples for C1, C2, C3, C4, C10 -/

/-- C1 counterexample: with nodes `b`, `a` both ready at seeding, the
sorter emits `b` first — insertion order, not the ascending-lexicographic
order the claim requires — and inserting the same two edgeless nodes in
the opposite order yields the opposite output, so the produced order is
*not* independent of map insertion order. -/
theorem c1_counterexample :
    (topologicalSort gBA).sortedPlanIds = ["b", "a"] ∧
    (topologicalSort gAB).sortedPlanIds = ["a", "b"] ∧
    (topologicalSort gBA).sortedPlanIds ≠ ["a", "b"] := by
  refine ⟨by decide, by decide, by decide⟩

/-- C2 counterexample: with the persisted `isRunning` flag already `true`,
`executeStack` (non-dry) is *not* rejected: it runs both tasks (two
results) and mutates their statuses to `completed`. -/
theorem c2_counterexample :
    (executeStack (some stkAB) (some stBusy) workerOk false none 3).toOption.map
        (fun out => (out.results.length,
          out.finalStatus.map (fun st => execStatusOf st "a"))) =
      some (2, some ExecutionStatus.completed) := by
  decide

/-- C3 counterexample: a run aborted by cycle detection throws before any
status write, so the stored record is untouched: `lastRunAt` is *not*
recorded at that run end (here it stays `none`). -/
theorem c3_counterexample :
    executeStack (some stkSelfCycle)
        (some (createDefaultStatus "s" ["a"])) workerOk false none 5 =
      Except.error "Dependency cycle detected: a -> a" ∧
    (createDefaultStatus "s" ["a"]).lastRunAt = none := by
  refine ⟨rfl, rfl⟩

/-- C4 counterexample: the acyclic one-node graph whose node id is the
empty string is reported cycle-free, yet the produced order is empty — the
`if (!nodeId) continue` guard drops the falsy id — so the order does not
contain every node. -/
theorem c4_counterexample :
    (topologicalSort gEmptyId).hasCycle = false ∧
    (topologicalSort gEmptyId).sortedPlanIds = [] ∧
    graphKeys gEmptyId = [""] ∧
    ¬ Cyclic gEmptyId := by
  refine ⟨by decide, by decide, by decide, ?_⟩
  refine not_cyclic_of_no_deps gEmptyId ?_
  intro n hn
  cases hn with
  | head => rfl
  | tail _ h => cases h

/-- C10 counterexample: `fromPlanId = ""` does not occur in the sorted
order `["a", "b"]`, yet the executed order is the whole order, not the
final task only — the empty string is falsy, so the truncation branch is
skipped entirely. -/
theorem c10_counterexample :
    (executeStack (some stkAB) none workerOk false (some "") 0).toOption.map
        (·.executionOrder) = some ["a", "b"] ∧
    ¬ ("" ∈ ["a", "b"]) ∧
    (["a", "b"] : List String) ≠ ["b"] := by
  refine ⟨by decide, by decide, by decide⟩

/-! ## Walk lemmas -/

theorem walk_tail (g : Graph) (a : String) (l : List String)
    (h : Walk g (a :: l)) : Walk g l := by
  cases l with
  | nil => trivial
  | cons b t => exact h.2

theorem walk_drop (g : Graph) : ∀ (i : Nat) (l : List String),
    Walk g l → Walk g (l.drop i) := by
  intro i
  induction i with
  | zero => intro l h; exact h
  | succ n ih =>
    intro l h
    cases l with
    | nil => trivial
    | cons a t =>
      rw [List.drop_succ_cons]
      exact ih t (walk_tail g a t h)

theorem walk_append_last (g : Graph) : ∀ (l : List String) (x u : String),
    Walk g l → l.getLast? = some u → Edge g u x → Walk g (l ++ [x]) := by
  intro l
  induction l with
  | nil => intro x u _ hlast; cases hlast
  | cons a t ih =>
    intro x u hw hlast hE
    cases t with
    | nil =>
      simp only [List.getLast?_singleton, Option.some.injEq] at hlast
      subst hlast
      exact ⟨hE, trivial⟩
    | cons b t' =>
      have hlast' : (b :: t').getLast? = some u := by
        rwa [List.getLast?_cons_cons] at hlast
      exact ⟨hw.1, ih x u hw.2 hlast' hE⟩

theorem walk_transGen (g : Graph) : ∀ (l : List String) (a b : String),
    Walk g (a :: l) → l ≠ [] → (a :: l).getLast? = some b →
    Relation.TransGen (Edge g) a b := by
  intro l
  induction l with
  | nil => intro a b _ hne; cases hne rfl
  | cons c t ih =>
    intro a b hw _ hlast
    rw [List.getLast?_cons_cons] at hlast
    cases t with
    | nil =>
      simp only [List.getLast?_singleton, Option.some.injEq] at hlast
      subst hlast
      exact Relation.TransGen.single hw.1
    | cons d t' =>
      exact Relation.TransGen.head hw.1
        (ih c b hw.2 (by simp) hlast)

theorem head?_drop_indexOf (x : String) : ∀ (l : List String), x ∈ l →
    (l.drop (l.indexOf x)).head? = some x := by
  intro l
  induction l with
  | nil => intro h; cases h
  | cons a t ih =>
    intro h
    by_cases ha : a = x
    · subst ha
      simp [List.indexOf_cons_self]
    · have hmem : x ∈ t := by
        cases h with
        | head => exact absurd rfl ha
        | tail _ hm => exact hm
      rw [List.indexOf_cons_ne t (fun hc => ha hc), List.drop_succ_cons]
      exact ih hmem

theorem getLast?_drop_indexOf (x : String) : ∀ (l : List String), x ∈ l →
    (l.drop (l.indexOf x)).getLast? = l.getLast? := by
  intro l
  induction l with
  | nil => intro h; cases h
  | cons a t ih =>
    intro h
    by_cases ha : a = x
    · subst ha
      simp [List.indexOf_cons_self]
    · have hmem : x ∈ t := by
        cases h with
        | head => exact absurd rfl ha
        | tail _ hm => exact hm
      rw [List.indexOf_cons_ne t (fun hc => ha hc), List.drop_succ_cons]
      rw [ih hmem]
      cases t with
      | nil => cases hmem
      | cons b t' => rw [List.getLast?_cons_cons]

/-- A closed nonempty edge walk: the cycle-report format of `detectCycle`. -/
def ClosedWalk (g : Graph) (c : List String) : Prop :=
  Walk g c ∧ c.head? = c.getLast? ∧ 2 ≤ c.length

theorem cyclic_of_closedWalk (g : Graph) (c : List String)
    (h : ClosedWalk g c) : Cyclic g := by
  obtain ⟨hw, hhl, hlen⟩ := h
  cases c with
  | nil => simp at hlen
  | cons a l =>
    cases l with
    | nil => simp at hlen
    | cons b t =>
      refine ⟨a, walk_transGen g (b :: t) a a hw (by simp) ?_⟩
      rw [← hhl]
      rfl

theorem closedWalk_construct (g : Graph) (path : List String) (dep u : String)
    (hw : Walk g path) (hlast : path.getLast? = some u) (hE : Edge g u dep)
    (hmem : dep ∈ path) :
    ClosedWalk g (path.drop (path.indexOf dep) ++ [dep]) := by
  have hh := head?_drop_indexOf dep path hmem
  have hg := getLast?_drop_indexOf dep path hmem
  cases hdrop : path.drop (path.indexOf dep) with
  | nil => rw [hdrop] at hh; cases hh
  | cons d r =>
    rw [hdrop] at hh hg
    have hd : d = dep := by
      simp only [List.head?_cons, Option.some.injEq] at hh
      exact hh
    subst hd
    refine ⟨?_, ?_, ?_⟩
    · have hwd : Walk g (d :: r) := by
        rw [← hdrop]
        exact walk_drop g _ _ hw
      refine walk_append_last g (d :: r) d u hwd ?_ hE
      rw [hg]
      exact hlast
    · rw [List.getLast?_concat]
      rfl
    · simp only [List.length_append, List.length_cons, List.length_singleton]
      omega

/-- Whenever `dfsDeps` reports a cycle, the reported node sequence is a
closed edge walk of the graph. -/
theorem dfsDeps_some_closedWalk (g : Graph) : ∀ (fuel : Nat)
    (deps path vis vis' c : List String) (u : String),
    dfsDeps g fuel deps path vis = (vis', some c) →
    Walk g path → path.getLast? = some u → (∀ x ∈ deps, Edge g u x) →
    ClosedWalk g c := by
  intro fuel
  induction fuel with
  | zero =>
    intro deps path vis vis' c u heq
    simp [dfsDeps] at heq
  | succ f ih =>
    intro deps path vis vis' c u heq hw hlast hE
    cases deps with
    | nil => simp [dfsDeps] at heq
    | cons dep rest =>
      simp only [dfsDeps] at heq
      by_cases hvis : dep ∈ vis
      · rw [if_pos hvis] at heq
        by_cases hpath : dep ∈ path
        · rw [if_pos hpath] at heq
          have hc : path.drop (path.indexOf dep) ++ [dep] = c := by
            have := congrArg Prod.snd heq
            simpa using this
          rw [← hc]
          exact closedWalk_construct g path dep u hw hlast
            (hE dep (by simp)) hpath
        · rw [if_neg hpath] at heq
          exact ih rest path vis vis' c u heq hw hlast
            (fun x hx => hE x (List.mem_cons_of_mem dep hx))
      · rw [if_neg hvis] at heq
        cases hfind : graphFind g dep with
        | none =>
          rw [hfind] at heq
          simp only at heq
          exact ih rest path (dep :: vis) vis' c u heq hw hlast
            (fun x hx => hE x (List.mem_cons_of_mem dep hx))
        | some node =>
          rw [hfind] at heq
          simp only at heq
          cases hsub : dfsDeps g f node.dependsOnPlanIds (path ++ [dep])
              (dep :: vis) with
          | mk vis2 osub =>
            rw [hsub] at heq
            cases osub with
            | some c2 =>
              simp only at heq
              have hc : c2 = c := by
                have := congrArg Prod.snd heq
                simpa using this
              subst hc
              refine ih node.dependsOnPlanIds (path ++ [dep]) (dep :: vis)
                vis2 c2 dep hsub ?_ ?_ ?_
              · exact walk_append_last g path dep u hw hlast (hE dep (by simp))
              · exact List.getLast?_concat path
              · intro x hx
                unfold Edge depsOf
                rw [hfind]
                exact hx
            | none =>
              simp only at heq
              exact ih rest path vis2 vis' c u heq hw hlast
                (fun x hx => hE x (List.mem_cons_of_mem dep hx))

/-- Whenever the top-level traversal reports a cycle, it is a closed edge
walk of the graph. -/
theorem detectCycleGo_some_closedWalk (g : Graph) (fuel : Nat) :
    ∀ (nodes : List DependencyNode) (vis vis' c : List String),
    detectCycleGo g fuel nodes vis = (vis', some c) → ClosedWalk g c := by
  intro nodes
  induction nodes with
  | nil =>
    intro vis vis' c heq
    simp [detectCycleGo] at heq
  | cons n rest ih =>
    intro vis vis' c heq
    simp only [detectCycleGo] at heq
    by_cases hvis : n.planId ∈ vis
    · rw [if_pos hvis] at heq
      exact ih vis vis' c heq
    · rw [if_neg hvis] at heq
      cases hfind : graphFind g n.planId with
      | none =>
        rw [hfind] at heq
        simp only at heq
        exact ih (n.planId :: vis) vis' c heq
      | some node =>
        rw [hfind] at heq
        simp only at heq
        cases hsub : dfsDeps g fuel node.dependsOnPlanIds [n.planId]
            (n.planId :: vis) with
        | mk vis2 osub =>
          rw [hsub] at heq
          cases osub with
          | some c2 =>
            simp only at heq
            have hc : c2 = c := by
              have := congrArg Prod.snd heq
              simpa using this
            subst hc
            refine dfsDeps_some_closedWalk g fuel node.dependsOnPlanIds
              [n.planId] (n.planId :: vis) vis2 c2 n.planId hsub trivial rfl ?_
            intro x hx
            unfold Edge depsOf
            rw [hfind]
            exact hx
          | none =>
            simp only at heq
            exact ih vis2 vis' c heq

/-- Soundness of `detectCycle`: a reported cycle is a closed edge walk (so
the graph really is cyclic). -/
theorem detectCycle_sound (g : Graph) (c : List String)
    (h : detectCycle g = (true, c)) : ClosedWalk g c ∧ Cyclic g := by
  unfold detectCycle at h
  cases hgo : detectCycleGo g (detectFuel g) g [] with
  | mk visF o =>
    rw [hgo] at h
    cases o with
    | none => simp at h
    | some c2 =>
      simp only at h
      have hc : c2 = c := by
        have := congrArg Prod.snd h
        simpa using this
      subst hc
      have hcw := detectCycleGo_some_closedWalk g (detectFuel g) g [] visF c2 hgo
      exact ⟨hcw, cyclic_of_closedWalk g c2 hcw⟩

/-- Contrapositive of soundness: an acyclic graph is never flagged. -/
theorem detectCycle_acyclic_false (g : Graph) (h : ¬ Cyclic g) :
    detectCycle g = (false, []) := by
  cases hdc : detectCycle g with
  | mk b c =>
    cases b with
    | true => exact absurd (detectCycle_sound g c hdc).2 h
    | false =>
      unfold detectCycle at hdc
      cases hgo : detectCycleGo g (detectFuel g) g [] with
      | mk visF o =>
        rw [hgo] at hdc
        cases o with
        | none => simpa using hdc.symm
        | some c2 => simp at hdc

/-! ## Invariants for cycle-detection completeness -/

/-- The finished region of a traversal: closed under edges and containing
no node that lies on a cycle. -/
def ClosedAcyc (g : Graph) (S : String → Prop) : Prop :=
  (∀ u v, S u → Edge g u v → S v) ∧
  ∀ v, S v → ¬ Relation.TransGen (Edge g) v v

theorem closed_reach (g : Graph) (S : String → Prop)
    (hcl : ∀ u v, S u → Edge g u v → S v) {a b : String}
    (h : Relation.ReflTransGen (Edge g) a b) (ha : S a) : S b := by
  induction h with
  | refl => exact ha
  | tail _ hstep ih => exact hcl _ _ ih hstep

theorem closedAcyc_congr (g : Graph) (S T : String → Prop)
    (hiff : ∀ x, S x ↔ T x) (h : ClosedAcyc g S) : ClosedAcyc g T := by
  constructor
  · intro u v hu hE
    exact (hiff v).mp (h.1 u v ((hiff u).mpr hu) hE)
  · intro v hv
    exact h.2 v ((hiff v).mpr hv)

theorem closedAcyc_insert (g : Graph) (S : String → Prop) (u : String)
    (hS : ClosedAcyc g S) (hu : ¬ S u) (hdeps : ∀ v, Edge g u v → S v) :
    ClosedAcyc g (fun x => S x ∨ x = u) := by
  constructor
  · rintro a v (ha | rfl) hE
    · exact Or.inl (hS.1 a v ha hE)
    · exact Or.inl (hdeps v hE)
  · rintro v (hv | rfl) hcyc
    · exact hS.2 v hv hcyc
    · obtain ⟨d, hEd, hrt⟩ := (Relation.TransGen.head'_iff).mp hcyc
      exact hu (closed_reach g S hS.1 hrt (hdeps d hEd))

/-- The fuel potential of the unvisited part of the id universe. -/
def remBound (g : Graph) (vis : List String) : Nat :=
  (((allIds g).dedup.filter (fun x => x ∉ vis)).map
    (fun x => 1 + (depsOf g x).length)).sum

theorem sum_filter_extract (f : String → Nat) : ∀ (L : List String)
    (dep : String) (vis : List String), L.Nodup → dep ∈ L → dep ∉ vis →
    ((L.filter (fun x => x ∉ vis)).map f).sum =
      f dep + ((L.filter (fun x => x ∉ dep :: vis)).map f).sum := by
  intro L
  induction L with
  | nil => intro dep vis _ h; cases h
  | cons a t ih =>
    intro dep vis hnd hmem hnv
    by_cases ha : a = dep
    · subst ha
      have hat : a ∉ t := (List.nodup_cons.mp hnd).1
      have hfa : t.filter (fun x => x ∉ vis) =
          t.filter (fun x => x ∉ a :: vis) := by
        refine List.filter_congr ?_
        intro x hx
        have hxa : x ≠ a := fun hc => hat (hc ▸ hx)
        simp [List.mem_cons, hxa]
      have h1 : (decide (a ∉ vis)) = true := by simpa using hnv
      have h2 : (decide (a ∉ a :: vis)) = false := by simp
      simp only [List.filter_cons, h1, h2, if_true, if_false, List.map_cons,
        List.sum_cons, hfa]
      simp
    · have hmem2 : dep ∈ t := by
        cases hmem with
        | head => exact absurd rfl ha
        | tail _ hm => exact hm
      by_cases hav : a ∈ vis
      · have h1 : (decide (a ∉ vis)) = false := by simpa using hav
        have h2 : (decide (a ∉ dep :: vis)) = false := by
          simp [List.mem_cons, hav]
        simp only [List.filter_cons, h1, h2, if_false]
        exact ih dep vis (List.nodup_cons.mp hnd).2 hmem2 hnv
      · have h1 : (decide (a ∉ vis)) = true := by simpa using hav
        have h2 : (decide (a ∉ dep :: vis)) = true := by
          simp only [decide_eq_true_eq, List.mem_cons]
          rintro (hc | hc)
          · exact ha hc
          · exact hav hc
        simp only [List.filter_cons, h1, h2, if_true, List.map_cons,
          List.sum_cons]
        rw [ih dep vis (List.nodup_cons.mp hnd).2 hmem2 hnv]
        omega

/-- Visiting an unvisited id from the universe decreases the potential by
exactly that id's contribution. -/
theorem remBound_cons (g : Graph) (vis : List String) (dep : String)
    (hmem : dep ∈ allIds g) (hnv : dep ∉ vis) :
    remBound g vis = 1 + (depsOf g dep).length + remBound g (dep :: vis) := by
  unfold remBound
  rw [sum_filter_extract (fun x => 1 + (depsOf g x).length) (allIds g).dedup
    dep vis (List.nodup_dedup _) (List.mem_dedup.mpr hmem) hnv]

theorem sublist_filter_imp {p q : String → Bool} :
    ∀ (l : List String), (∀ x, q x = true → p x = true) →
    List.Sublist (l.filter q) (l.filter p) := by
  intro l himp
  induction l with
  | nil => exact List.Sublist.refl _
  | cons a t ih =>
    by_cases hq : q a = true
    · simp only [List.filter_cons, hq, himp a hq]
      exact List.Sublist.cons₂ a ih
    · have hq' : q a = false := by simpa using hq
      simp only [List.filter_cons, hq']
      by_cases hp : p a = true
      · simp only [hp]
        exact List.Sublist.cons a ih
      · have hp' : p a = false := by simpa using hp
        simp only [hp']
        exact ih

theorem sublist_sum_le : ∀ (l₁ l₂ : List Nat), List.Sublist l₁ l₂ →
    l₁.sum ≤ l₂.sum := by
  intro l₁ l₂ h
  induction h with
  | slnil => exact Nat.le_refl _
  | cons a _ ih => simp only [List.sum_cons]; omega
  | cons₂ a _ ih => simp only [List.sum_cons]; omega

theorem remBound_mono (g : Graph) (vis vis2 : List String)
    (h : ∀ x ∈ vis, x ∈ vis2) : remBound g vis2 ≤ remBound g vis := by
  unfold remBound
  refine sublist_sum_le _ _ ?_
  refine List.Sublist.map _ ?_
  refine sublist_filter_imp _ ?_
  intro x hx
  simp only [decide_eq_true_eq] at hx ⊢
  exact fun hc => hx (h x hc)

theorem deps_length_le_flat (g : Graph) : ∀ (n : DependencyNode), n ∈ g →
    n.dependsOnPlanIds.length ≤ (g.flatMap (·.dependsOnPlanIds)).length := by
  induction g with
  | nil => intro n h; cases h
  | cons m t ih =>
    intro n h
    simp only [List.flatMap_cons, List.length_append]
    cases h with
    | head => omega
    | tail _ hm => have := ih n hm; omega

theorem depsOf_length_le_flat (g : Graph) (x : String) :
    (depsOf g x).length ≤ (g.flatMap (·.dependsOnPlanIds)).length := by
  unfold depsOf
  cases hfind : graphFind g x with
  | none => simp
  | some n =>
    simp only
    exact deps_length_le_flat g n (List.mem_of_find?_eq_some hfind)

theorem depsOf_subset_allIds (g : Graph) (x : String) :
    ∀ d ∈ depsOf g x, d ∈ allIds g := by
  intro d hd
  unfold depsOf at hd
  cases hfind : graphFind g x with
  | none => rw [hfind] at hd; cases hd
  | some n =>
    rw [hfind] at hd
    simp only at hd
    unfold allIds
    refine List.mem_append.mpr (Or.inr ?_)
    exact List.mem_flatMap.mpr ⟨n, List.mem_of_find?_eq_some hfind, hd⟩

theorem remBound_le (g : Graph) (vis : List String) :
    remBound g vis ≤
      (allIds g).length * (1 + (g.flatMap (·.dependsOnPlanIds)).length) := by
  unfold remBound
  set L := ((allIds g).dedup.filter (fun x => x ∉ vis)) with hL
  have hbound : ∀ y ∈ L.map (fun x => 1 + (depsOf g x).length),
      y ≤ 1 + (g.flatMap (·.dependsOnPlanIds)).length := by
    intro y hy
    obtain ⟨x, _, rfl⟩ := List.mem_map.mp hy
    have := depsOf_length_le_flat g x
    omega
  have hlen : (L.map (fun x => 1 + (depsOf g x).length)).length ≤
      (allIds g).length := by
    rw [List.length_map]
    calc L.length ≤ (allIds g).dedup.length := List.length_filter_le _ _
    _ ≤ (allIds g).length := (List.dedup_sublist _).length_le
  have hs := List.sum_le_card_nsmul (L.map (fun x => 1 + (depsOf g x).length))
    (1 + (g.flatMap (·.dependsOnPlanIds)).length) hbound
  rw [smul_eq_mul] at hs
  exact hs.trans (Nat.mul_le_mul_right _ hlen)

/-- The completeness invariant of the dep-iteration: when no cycle is
reported, the visited set grows, stays closed-and-acyclic off the current
path, and every processed dep ends up visited and off the path. -/
theorem dfsDeps_none_inv (g : Graph) : ∀ (fuel : Nat)
    (deps path vis vis' : List String),
    dfsDeps g fuel deps path vis = (vis', none) →
    deps.length + remBound g vis < fuel →
    (∀ x ∈ deps, x ∈ allIds g) →
    (∀ x ∈ path, x ∈ vis) →
    ClosedAcyc g (fun x => x ∈ vis ∧ x ∉ path) →
    (∀ x ∈ vis, x ∈ vis') ∧
    ClosedAcyc g (fun x => x ∈ vis' ∧ x ∉ path) ∧
    (∀ x ∈ deps, x ∈ vis' ∧ x ∉ path) := by
  intro fuel
  induction fuel with
  | zero =>
    intro deps path vis vis' heq hfuel
    omega
  | succ f ih =>
    intro deps path vis vis' heq hfuel hall hpvis hS
    cases deps with
    | nil =>
      have hv : vis = vis' := by
        have := congrArg Prod.fst heq
        simpa [dfsDeps] using this
      subst hv
      exact ⟨fun x hx => hx, hS, by intro x hx; cases hx⟩
    | cons dep rest =>
      simp only [List.length_cons] at hfuel
      simp only [dfsDeps] at heq
      by_cases hvis : dep ∈ vis
      · rw [if_pos hvis] at heq
        by_cases hpath : dep ∈ path
        · rw [if_pos hpath] at heq
          have := congrArg Prod.snd heq
          simp at this
        · rw [if_neg hpath] at heq
          have hfuel2 : rest.length + remBound g vis < f := by omega
          obtain ⟨hm, hca, hd⟩ := ih rest path vis vis' heq hfuel2
            (fun x hx => hall x (List.mem_cons_of_mem dep hx)) hpvis hS
          refine ⟨hm, hca, ?_⟩
          intro x hx
          cases hx with
          | head => exact ⟨hm dep hvis, hpath⟩
          | tail _ h => exact hd x h
      · rw [if_neg hvis] at heq
        have hdepAll : dep ∈ allIds g := hall dep (List.mem_cons_self dep rest)
        have hdpath : dep ∉ path := fun hc => hvis (hpvis dep hc)
        have hrb := remBound_cons g vis dep hdepAll hvis
        cases hfind : graphFind g dep with
        | none =>
          rw [hfind] at heq
          simp only at heq
          have hdeps0 : depsOf g dep = [] := by
            unfold depsOf
            rw [hfind]
          rw [hdeps0] at hrb
          simp only [List.length_nil] at hrb
          have hfuel2 : rest.length + remBound g (dep :: vis) < f := by omega
          have hS1 : ClosedAcyc g (fun x => x ∈ dep :: vis ∧ x ∉ path) := by
            refine closedAcyc_congr g _ _ ?_ (closedAcyc_insert g _ dep hS ?_ ?_)
            · intro x
              constructor
              · rintro (⟨hx1, hx2⟩ | rfl)
                · exact ⟨List.mem_cons_of_mem dep hx1, hx2⟩
                · exact ⟨List.mem_cons_self _ _, hdpath⟩
              · rintro ⟨hx1, hx2⟩
                cases hx1 with
                | head => exact Or.inr rfl
                | tail _ h => exact Or.inl ⟨h, hx2⟩
            · rintro ⟨h1, _⟩
              exact hvis h1
            · intro v hE
              unfold Edge at hE
              rw [hdeps0] at hE
              cases hE
          obtain ⟨hm, hca, hd⟩ := ih rest path (dep :: vis) vis' heq hfuel2
            (fun x hx => hall x (List.mem_cons_of_mem dep hx))
            (fun x hx => List.mem_cons_of_mem dep (hpvis x hx)) hS1
          refine ⟨fun x hx => hm x (List.mem_cons_of_mem dep hx), hca, ?_⟩
          intro x hx
          cases hx with
          | head => exact ⟨hm dep (List.mem_cons_self _ _), hdpath⟩
          | tail _ h => exact hd x h
        | some node =>
          rw [hfind] at heq
          simp only at heq
          have hdeps0 : depsOf g dep = node.dependsOnPlanIds := by
            unfold depsOf
            rw [hfind]
          cases hsub : dfsDeps g f node.dependsOnPlanIds (path ++ [dep])
              (dep :: vis) with
          | mk vis2 osub =>
            rw [hsub] at heq
            cases osub with
            | some c2 =>
              simp only at heq
              have := congrArg Prod.snd heq
              simp at this
            | none =>
              simp only at heq
              rw [hdeps0] at hrb
              have hfnest : node.dependsOnPlanIds.length +
                  remBound g (dep :: vis) < f := by omega
              have hSnest : ClosedAcyc g
                  (fun x => x ∈ dep :: vis ∧ x ∉ path ++ [dep]) := by
                refine closedAcyc_congr g _ _ ?_ hS
                intro x
                constructor
                · rintro ⟨hx1, hx2⟩
                  refine ⟨List.mem_cons_of_mem dep hx1, ?_⟩
                  intro hc
                  cases List.mem_append.mp hc with
                  | inl h => exact hx2 h
                  | inr h =>
                    have : x = dep := by simpa using h
                    exact hvis (this ▸ hx1)
                · rintro ⟨hx1, hx2⟩
                  have hxd : x ≠ dep := by
                    intro hc
                    exact hx2 (List.mem_append.mpr (Or.inr (by simp [hc])))
                  cases hx1 with
                  | head => exact absurd rfl hxd
                  | tail _ h =>
                    refine ⟨h, ?_⟩
                    intro hc
                    exact hx2 (List.mem_append.mpr (Or.inl hc))
              obtain ⟨hm1, hca1, hd1⟩ := ih node.dependsOnPlanIds
                (path ++ [dep]) (dep :: vis) vis2 hsub hfnest
                (fun x hx => depsOf_subset_allIds g dep x (hdeps0 ▸ hx))
                (fun x hx => by
                  cases List.mem_append.mp hx with
                  | inl h => exact List.mem_cons_of_mem dep (hpvis x h)
                  | inr h =>
                    have : x = dep := by simpa using h
                    exact this ▸ List.mem_cons_self _ _) hSnest
              have hdepvis2 : dep ∈ vis2 := hm1 dep (List.mem_cons_self _ _)
              have hS2 : ClosedAcyc g (fun x => x ∈ vis2 ∧ x ∉ path) := by
                refine closedAcyc_congr g _ _ ?_
                  (closedAcyc_insert g _ dep hca1 ?_ ?_)
                · intro x
                  constructor
                  · rintro (⟨hx1, hx2⟩ | rfl)
                    · exact ⟨hx1, fun hc =>
                        hx2 (List.mem_append.mpr (Or.inl hc))⟩
                    · exact ⟨hdepvis2, hdpath⟩
                  · rintro ⟨hx1, hx2⟩
                    by_cases hxd : x = dep
                    · exact Or.inr hxd
                    · refine Or.inl ⟨hx1, ?_⟩
                      intro hc
                      cases List.mem_append.mp hc with
                      | inl h => exact hx2 h
                      | inr h => exact hxd (by simpa using h)
                · rintro ⟨_, hc⟩
                  exact hc (List.mem_append.mpr (Or.inr (by simp)))
                · intro v hE
                  unfold Edge at hE
                  rw [hdeps0] at hE
                  exact hd1 v hE
              have hfrest : rest.length + remBound g vis2 < f := by
                have hmono : remBound g vis2 ≤ remBound g (dep :: vis) :=
                  remBound_mono g (dep :: vis) vis2 hm1
                omega
              obtain ⟨hm2, hca2, hd2⟩ := ih rest path vis2 vis' heq hfrest
                (fun x hx => hall x (List.mem_cons_of_mem dep hx))
                (fun x hx => hm1 x (List.mem_cons_of_mem dep (hpvis x hx)))
                hS2
              refine ⟨?_, hca2, ?_⟩
              · intro x hx
                exact hm2 x (hm1 x (List.mem_cons_of_mem dep hx))
              · intro x hx
                cases hx with
                | head => exact ⟨hm2 dep hdepvis2, hdpath⟩
                | tail _ h => exact hd2 x h

/-- The completeness invariant of the top-level traversal loop. -/
theorem detectCycleGo_none_inv (g : Graph) :
    ∀ (nodes : List DependencyNode) (vis vis' : List String),
    detectCycleGo g (detectFuel g) nodes vis = (vis', none) →
    (∀ n ∈ nodes, n ∈ g) →
    ClosedAcyc g (fun x => x ∈ vis) →
    (∀ x ∈ vis, x ∈ vis') ∧ ClosedAcyc g (fun x => x ∈ vis') ∧
    (∀ n ∈ nodes, n.planId ∈ vis') := by
  intro nodes
  induction nodes with
  | nil =>
    intro vis vis' heq _ hS
    have hv : vis = vis' := by
      have := congrArg Prod.fst heq
      simpa [detectCycleGo] using this
    subst hv
    exact ⟨fun x hx => hx, hS, by intro n hn; cases hn⟩
  | cons n rest ih =>
    intro vis vis' heq hmem hS
    simp only [detectCycleGo] at heq
    by_cases hvis : n.planId ∈ vis
    · rw [if_pos hvis] at heq
      obtain ⟨hm, hca, hk⟩ := ih vis vis' heq
        (fun m hm' => hmem m (List.mem_cons_of_mem n hm')) hS
      refine ⟨hm, hca, ?_⟩
      intro m hm'
      cases hm' with
      | head => exact hm n.planId hvis
      | tail _ h => exact hk m h
    · rw [if_neg hvis] at heq
      have hng : n ∈ g := hmem n (List.mem_cons_self n rest)
      have hfind : ∃ node, graphFind g n.planId = some node := by
        have : (graphFind g n.planId).isSome := by
          unfold graphFind
          rw [List.find?_isSome]
          exact ⟨n, hng, by simp⟩
        exact Option.isSome_iff_exists.mp this
      obtain ⟨node, hfind⟩ := hfind
      rw [hfind] at heq
      simp only at heq
      have hnodeg : node ∈ g := List.mem_of_find?_eq_some hfind
      have hdeps0 : depsOf g n.planId = node.dependsOnPlanIds := by
        unfold depsOf
        rw [hfind]
      cases hsub : dfsDeps g (detectFuel g) node.dependsOnPlanIds [n.planId]
          (n.planId :: vis) with
      | mk vis2 osub =>
        rw [hsub] at heq
        cases osub with
        | some c2 =>
          simp only at heq
          have := congrArg Prod.snd heq
          simp at this
        | none =>
          simp only at heq
          have hfuelok : node.dependsOnPlanIds.length +
              remBound g (n.planId :: vis) < detectFuel g := by
            have h1 : node.dependsOnPlanIds.length ≤
                (g.flatMap (·.dependsOnPlanIds)).length :=
              deps_length_le_flat g node hnodeg
            have h2 : remBound g (n.planId :: vis) ≤
                (allIds g).length *
                  (1 + (g.flatMap (·.dependsOnPlanIds)).length) :=
              remBound_le g _
            unfold detectFuel
            omega
          have hSdfs : ClosedAcyc g
              (fun x => x ∈ n.planId :: vis ∧ x ∉ [n.planId]) := by
            refine closedAcyc_congr g _ _ ?_ hS
            intro x
            constructor
            · intro hx
              refine ⟨List.mem_cons_of_mem _ hx, ?_⟩
              intro hc
              have : x = n.planId := by simpa using hc
              exact hvis (this ▸ hx)
            · rintro ⟨hx1, hx2⟩
              cases hx1 with
              | head => exact absurd (List.mem_singleton.mpr rfl) hx2
              | tail _ h => exact h
          obtain ⟨hm1, hca1, hd1⟩ := dfsDeps_none_inv g (detectFuel g)
            node.dependsOnPlanIds [n.planId] (n.planId :: vis) vis2 hsub
            hfuelok
            (fun x hx => depsOf_subset_allIds g n.planId x (hdeps0 ▸ hx))
            (fun x hx => by
              have : x = n.planId := by simpa using hx
              exact this ▸ List.mem_cons_self _ _) hSdfs
          have hnvis2 : n.planId ∈ vis2 := hm1 n.planId (List.mem_cons_self _ _)
          have hS2 : ClosedAcyc g (fun x => x ∈ vis2) := by
            refine closedAcyc_congr g _ _ ?_
              (closedAcyc_insert g _ n.planId hca1 ?_ ?_)
            · intro x
              constructor
              · rintro (⟨hx1, _⟩ | rfl)
                · exact hx1
                · exact hnvis2
              · intro hx
                by_cases hxn : x = n.planId
                · exact Or.inr hxn
                · exact Or.inl ⟨hx, fun hc => hxn (by simpa using hc)⟩
            · rintro ⟨_, hc⟩
              exact hc (List.mem_singleton.mpr rfl)
            · intro v hE
              unfold Edge at hE
              rw [hdeps0] at hE
              exact hd1 v hE
          obtain ⟨hm2, hca2, hk2⟩ := ih vis2 vis' heq
            (fun m hm' => hmem m (List.mem_cons_of_mem n hm')) hS2
          refine ⟨?_, hca2, ?_⟩
          · intro x hx
            exact hm2 x (hm1 x (List.mem_cons_of_mem _ hx))
          · intro m hm'
            cases hm' with
            | head => exact hm2 n.planId hnvis2
            | tail _ h => exact hk2 m h

/-- Completeness of `detectCycle`: every cyclic graph is flagged. -/
theorem detectCycle_complete (g : Graph) (hcyc : Cyclic g) :
    (detectCycle g).1 = true := by
  by_contra hfalse
  unfold detectCycle at hfalse
  cases hgo : detectCycleGo g (detectFuel g) g [] with
  | mk visF o =>
    rw [hgo] at hfalse
    cases o with
    | some c => simp at hfalse
    | none =>
      have hS0 : ClosedAcyc g (fun x => x ∈ ([] : List String)) := by
        constructor
        · intro u v hu
          cases hu
        · intro v hv
          cases hv
      obtain ⟨_, hca, hkeys⟩ := detectCycleGo_none_inv g g [] visF hgo
        (fun m hm => hm) hS0
      obtain ⟨v, hv⟩ := hcyc
      obtain ⟨d, hEd, _⟩ := (Relation.TransGen.head'_iff).mp hv
      have hvkey : v ∈ visF := by
        unfold Edge depsOf at hEd
        cases hfind : graphFind g v with
        | none =>
          rw [hfind] at hEd
          cases hEd
        | some m =>
          have hmg : m ∈ g := List.mem_of_find?_eq_some hfind
          have hpred := List.find?_some hfind
          have hmv : m.planId = v := by simpa using hpred
          exact hmv ▸ hkeys m hmg
      exact hca.2 v hvkey hv

/-! ## Claim C5 -/

/-- C5: for every graph containing a cycle — including a self-dependency,
which is reported as a cycle of length one (the two-entry closed walk
`[a, a]`, one edge) — the sorter returns `hasCycle = true` with an empty
order, and the reported `cycleNodes`, read as consecutive edges, are all
contained in the graph's edge set and end at the node they start from. -/
theorem c5_cycle_reported (g : Graph) (hcyc : Cyclic g) :
    (topologicalSort g).hasCycle = true ∧
    (topologicalSort g).sortedPlanIds = [] ∧
    ∃ c, (topologicalSort g).cycleNodes = some c ∧ Walk g c ∧
      c.head? = c.getLast? ∧ 2 ≤ c.length := by
  have hflag := detectCycle_complete g hcyc
  cases hdc : detectCycle g with
  | mk b cyc =>
    rw [hdc] at hflag
    simp only at hflag
    subst hflag
    have hsound := (detectCycle_sound g cyc hdc).1
    unfold topologicalSort
    rw [hdc]
    simp only [if_true]
    exact ⟨by trivial, by trivial, cyc, by trivial,
      hsound.1, hsound.2.1, hsound.2.2⟩

/-- A self-referencing node (with its self reverse edge, as built). -/
def gSelf : Graph :=
  [{ planId := "a", dependsOnPlanIds := ["a"], dependentPlanIds := ["a"] }]

/-- Witness for C5 at the self-loop graph; the reported cycle is exactly
`["a", "a"]`, the length-one cycle. -/
theorem c5_cycle_reported_witness :
    Cyclic gSelf ∧
    ((topologicalSort gSelf).hasCycle = true ∧
     (topologicalSort gSelf).sortedPlanIds = [] ∧
     ∃ c, (topologicalSort gSelf).cycleNodes = some c ∧ Walk gSelf c ∧
       c.head? = c.getLast? ∧ 2 ≤ c.length) ∧
    (topologicalSort gSelf).cycleNodes = some ["a", "a"] :=
  ⟨⟨"a", Relation.TransGen.single (by decide)⟩,
   c5_cycle_reported gSelf ⟨"a", Relation.TransGen.single (by decide)⟩,
   by decide⟩

/-! ## Well-formed graphs and Kahn's algorithm -/

/-- Well-formedness of a built dependency graph, as the graph builder
guarantees: unique keys (a real `Map`), reverse edges that agree with
forward edges with multiplicity (so edges never point outside the key
set), and no empty-string id. -/
def GraphWF (g : Graph) : Prop :=
  (graphKeys g).Nodup ∧
  (∀ u w, (dependentsOf g u).count w = (depsOf g w).count u) ∧
  "" ∉ graphKeys g

theorem mem_graphKeys_of_find (g : Graph) (id : String)
    (n : DependencyNode) (h : graphFind g id = some n) : id ∈ graphKeys g := by
  have hpred := List.find?_some h
  have hn : n.planId = id := by simpa using hpred
  exact hn ▸ List.mem_map.mpr ⟨n, List.mem_of_find?_eq_some h, rfl⟩

theorem graphFind_isSome_of_mem (g : Graph) (id : String)
    (h : id ∈ graphKeys g) : ∃ n, graphFind g id = some n ∧ n.planId = id := by
  obtain ⟨m, hm, hid⟩ := List.mem_map.mp h
  have hsome : (graphFind g id).isSome := by
    unfold graphFind
    rw [List.find?_isSome]
    exact ⟨m, hm, by simp [hid]⟩
  obtain ⟨n, hn⟩ := Option.isSome_iff_exists.mp hsome
  refine ⟨n, hn, ?_⟩
  have := List.find?_some hn
  simpa using this

theorem wf_deps_subset (g : Graph) (hwf : GraphWF g) (w : String) :
    ∀ d ∈ depsOf g w, d ∈ graphKeys g := by
  intro d hd
  have hcount : 0 < (depsOf g w).count d := List.count_pos_iff.mpr hd
  have h := hwf.2.1 d w
  rw [← h] at hcount
  have hne : dependentsOf g d ≠ [] := by
    intro hc
    rw [hc] at hcount
    simp at hcount
  unfold dependentsOf at hne
  cases hfind : graphFind g d with
  | none => rw [hfind] at hne; simp at hne
  | some n => exact mem_graphKeys_of_find g d n hfind

theorem wf_dependents_subset (g : Graph) (hwf : GraphWF g) (u : String) :
    ∀ w ∈ dependentsOf g u, w ∈ graphKeys g := by
  intro w hw
  have hcount : 0 < (dependentsOf g u).count w := List.count_pos_iff.mpr hw
  rw [hwf.2.1 u w] at hcount
  have hne : depsOf g w ≠ [] := by
    intro hc
    rw [hc] at hcount
    simp at hcount
  unfold depsOf at hne
  cases hfind : graphFind g w with
  | none => rw [hfind] at hne; simp at hne
  | some n => exact mem_graphKeys_of_find g w n hfind

/-- Splitting a not-yet-sorted filter at a newly sorted element. -/
theorem filter_length_split (S : List String) (a : String) (ha : a ∉ S) :
    ∀ (l : List String),
    (l.filter (fun d => d ∉ S)).length =
      (l.filter (fun d => d ∉ S ++ [a])).length + l.count a := by
  intro l
  induction l with
  | nil => simp
  | cons d t ih =>
    by_cases hda : d = a
    · subst hda
      have h1 : (decide (d ∉ S)) = true := by simpa using ha
      have h2 : (decide (d ∉ S ++ [d])) = false := by simp
      rw [List.filter_cons, List.filter_cons, h1, h2, if_pos rfl,
        if_neg (by simp), List.length_cons, List.count_cons_self]
      omega
    · have hsame : (decide (d ∉ S ++ [a])) = (decide (d ∉ S)) := by
        simp only [List.mem_append, List.mem_singleton, decide_eq_decide]
        constructor
        · intro h hc
          exact h (Or.inl hc)
        · rintro h (hc | hc)
          · exact h hc
          · exact hda hc
      rw [List.filter_cons, List.filter_cons, hsame,
        List.count_cons_of_ne (fun hc => hda hc.symm)]
      by_cases hdS : d ∈ S
      · have h1 : (decide (d ∉ S)) = false := by simpa using hdS
        rw [h1, if_neg (by simp), if_neg (by simp)]
        exact ih
      · have h1 : (decide (d ∉ S)) = true := by simpa using hdS
        rw [h1, if_pos rfl, if_pos rfl, List.length_cons, List.length_cons]
        omega

/-- A nonempty set of ids in which every member has an edge to another
member contains a cycle. -/
theorem cyclic_of_stuck (g : Graph) (M : List String) (hne : M ≠ [])
    (hstep : ∀ w ∈ M, ∃ d, d ∈ M ∧ Edge g w d) : Cyclic g := by
  classical
  obtain ⟨w0, hw0⟩ : ∃ w, w ∈ M := by
    cases M with
    | nil => exact absurd rfl hne
    | cons a t => exact ⟨a, List.mem_cons_self _ _⟩
  have htotal : ∀ w, ∃ d, w ∈ M → (d ∈ M ∧ Edge g w d) := by
    intro w
    by_cases hw : w ∈ M
    · obtain ⟨d, hd⟩ := hstep w hw
      exact ⟨d, fun _ => hd⟩
    · exact ⟨w0, fun hc => absurd hc hw⟩
  choose f hf using htotal
  have hseqM : ∀ n, f^[n] w0 ∈ M := by
    intro n
    induction n with
    | zero => simpa using hw0
    | succ k ih =>
      rw [Function.iterate_succ_apply']
      exact (hf (f^[k] w0) ih).1
  have hstep2 : ∀ n, Edge g (f^[n] w0) (f^[n + 1] w0) := by
    intro n
    rw [Function.iterate_succ_apply']
    exact (hf (f^[n] w0) (hseqM n)).2
  have htrans : ∀ n m, n < m →
      Relation.TransGen (Edge g) (f^[n] w0) (f^[m] w0) := by
    intro n m hnm
    induction m with
    | zero => omega
    | succ k ih =>
      by_cases hk : n < k
      · exact Relation.TransGen.tail (ih hk) (hstep2 k)
      · have hnk : n = k := by omega
        subst hnk
        exact Relation.TransGen.single (hstep2 n)
  have hmap : ∀ a ∈ Finset.range (M.length + 1), f^[a] w0 ∈ M.toFinset := by
    intro a _
    exact List.mem_toFinset.mpr (hseqM a)
  have hcard : M.toFinset.card < (Finset.range (M.length + 1)).card := by
    rw [Finset.card_range]
    have := M.toFinset_card_le
    omega
  obtain ⟨i, hi, j, hj, hij, heq⟩ :=
    Finset.exists_ne_map_eq_of_card_lt_of_maps_to hcard hmap
  rcases Nat.lt_or_ge i j with hlt | hge
  · exact ⟨f^[i] w0, heq ▸ htrans i j hlt⟩
  · have hlt : j < i := by omega
    exact ⟨f^[j] w0, heq ▸ htrans j i hlt⟩

/-- What one pass of `processDependents` does: every id is decremented
once per occurrence in the dependent list, and the ids appended to the
queue are exactly those whose running degree hits zero — those with
`1 ≤ deg x ≤ count`. -/
theorem processDependents_spec : ∀ (ds : List String) (deg : String → Int)
    (queue : List String),
    (∀ x, (processDependents ds deg queue).1 x = deg x - ds.count x) ∧
    ∃ newly, (processDependents ds deg queue).2 = queue ++ newly ∧
      newly.Nodup ∧
      (∀ x, x ∈ newly ↔ (1 ≤ deg x ∧ deg x ≤ (ds.count x : Int))) := by
  intro ds
  induction ds with
  | nil =>
    intro deg queue
    refine ⟨fun x => by simp [processDependents], [], by
      simp [processDependents], List.nodup_nil, ?_⟩
    intro x
    simp only [List.not_mem_nil, false_iff, List.count_nil]
    omega
  | cons d rest ih =>
    intro deg queue
    simp only [processDependents]
    set deg1 : String → Int :=
      fun x => if x = d then deg d - 1 else deg x with hdeg1
    set queue1 := if deg d - 1 = 0 then queue ++ [d] else queue with hqueue1
    obtain ⟨ih1, newly', hq', hnd', hchar'⟩ := ih deg1 queue1
    constructor
    · intro x
      rw [ih1 x]
      by_cases hxd : x = d
      · subst hxd
        simp only [hdeg1, if_pos rfl, List.count_cons_self]
        push_cast
        omega
      · simp only [hdeg1, if_neg hxd, List.count_cons_of_ne hxd]
    · by_cases hz : deg d - 1 = 0
      · refine ⟨d :: newly', ?_, ?_, ?_⟩
        · rw [hq', hqueue1, if_pos hz]
          simp
        · refine List.nodup_cons.mpr ⟨?_, hnd'⟩
          intro hc
          have := (hchar' d).mp hc
          simp only [hdeg1, if_pos rfl] at this
          omega
        · intro x
          by_cases hxd : x = d
          · subst hxd
            simp only [List.mem_cons, true_or, true_iff,
              List.count_cons_self]
            push_cast
            omega
          · simp only [List.mem_cons, hxd, false_or]
            rw [hchar' x]
            simp only [hdeg1, if_neg hxd, List.count_cons_of_ne hxd]
      · refine ⟨newly', ?_, hnd', ?_⟩
        · rw [hq', hqueue1, if_neg hz]
        · intro x
          by_cases hxd : x = d
          · subst hxd
            rw [hchar' x]
            simp only [hdeg1, if_pos rfl, List.count_cons_self]
            push_cast
            omega
          · rw [hchar' x]
            simp only [hdeg1, if_neg hxd, List.count_cons_of_ne hxd]

/-- Every dependency of every emitted id appears strictly earlier in the
emitted order. -/
def DepsBefore (g : Graph) (l : List String) : Prop :=
  ∀ p d, p ∈ l → d ∈ depsOf g p → ∃ pre post, l = pre ++ p :: post ∧ d ∈ pre

theorem deps_all_sorted_of_deg_zero (g : Graph) (sorted : List String)
    (x : String)
    (h : ((depsOf g x).filter (fun d => d ∉ sorted)).length = 0) :
    ∀ d ∈ depsOf g x, d ∈ sorted := by
  intro d hd
  rw [List.length_eq_zero] at h
  by_contra hns
  have hmem : d ∈ (depsOf g x).filter (fun d => d ∉ sorted) :=
    List.mem_filter.mpr ⟨hd, by simpa using hns⟩
  rw [h] at hmem
  cases hmem

theorem sorted_deg_zero (g : Graph) (sorted : List String) (x : String)
    (hdb : DepsBefore g sorted) (hx : x ∈ sorted) :
    ((depsOf g x).filter (fun d => d ∉ sorted)).length = 0 := by
  rw [List.length_eq_zero, List.filter_eq_nil_iff]
  intro d hd
  obtain ⟨pre, post, hsplit, hdpre⟩ := hdb x d hx hd
  have : d ∈ sorted := by
    rw [hsplit]
    exact List.mem_append.mpr (Or.inl hdpre)
  simpa using this

theorem depsBefore_append (g : Graph) (sorted : List String) (nodeId : String)
    (hdb : DepsBefore g sorted)
    (hdeps : ∀ d ∈ depsOf g nodeId, d ∈ sorted) :
    DepsBefore g (sorted ++ [nodeId]) := by
  intro p d hp hd
  rcases List.mem_append.mp hp with hp | hp
  · obtain ⟨pre, post, hsplit, hdpre⟩ := hdb p d hp hd
    exact ⟨pre, post ++ [nodeId], by rw [hsplit]; simp, hdpre⟩
  · have hpn : p = nodeId := by simpa using hp
    subst hpn
    exact ⟨sorted, [], rfl, hdeps d hd⟩

/-- The master invariant of the Kahn loop: under well-formedness and
acyclicity, the loop emits a duplicate-free order over the keys that
contains every key, with every dependency emitted before its dependent. -/
theorem kahnLoop_inv (g : Graph) (hwf : GraphWF g) (hacyc : ¬ Cyclic g) :
    ∀ (fuel : Nat) (queue : List String) (deg : String → Int)
      (sorted : List String),
    ((graphKeys g).filter (fun x => x ∉ sorted)).length < fuel →
    (sorted ++ queue).Nodup →
    (∀ x ∈ sorted, x ∈ graphKeys g) →
    (∀ x ∈ queue, x ∈ graphKeys g) →
    (∀ x ∈ graphKeys g, deg x =
      (((depsOf g x).filter (fun d => d ∉ sorted)).length : Int)) →
    (∀ x ∈ graphKeys g, x ∈ queue ↔ (deg x = 0 ∧ x ∉ sorted)) →
    DepsBefore g sorted →
    (kahnLoop g fuel queue deg sorted).Nodup ∧
    (∀ x ∈ kahnLoop g fuel queue deg sorted, x ∈ graphKeys g) ∧
    (∀ x ∈ graphKeys g, x ∈ kahnLoop g fuel queue deg sorted) ∧
    DepsBefore g (kahnLoop g fuel queue deg sorted) := by
  intro fuel
  induction fuel with
  | zero =>
    intro queue deg sorted hf
    omega
  | succ f ih =>
    intro queue deg sorted hf hnodup hsk hqk hK2 hK3 hdb
    cases queue with
    | nil =>
      simp only [kahnLoop]
      have hcomplete : ∀ x ∈ graphKeys g, x ∈ sorted := by
        by_contra hnc
        push_neg at hnc
        obtain ⟨x0, hx0k, hx0s⟩ := hnc
        have hM : ∀ w ∈ (graphKeys g).filter (fun y => y ∉ sorted),
            ∃ d, d ∈ (graphKeys g).filter (fun y => y ∉ sorted) ∧
              Edge g w d := by
          intro w hw
          obtain ⟨hwk, hws⟩ := List.mem_filter.mp hw
          have hws' : w ∉ sorted := by simpa using hws
          have hdegne : deg w ≠ 0 := by
            intro hc
            have hmem := (hK3 w hwk).mpr ⟨hc, hws'⟩
            cases hmem
          have hlen : ((depsOf g w).filter (fun d => d ∉ sorted)).length ≠
              0 := by
            intro hc
            apply hdegne
            rw [hK2 w hwk, hc]
            rfl
          have hne : (depsOf g w).filter (fun d => d ∉ sorted) ≠ [] := by
            intro hc
            exact hlen (by rw [hc]; rfl)
          obtain ⟨d, hd⟩ := List.exists_mem_of_ne_nil _ hne
          obtain ⟨hd1, hd2⟩ := List.mem_filter.mp hd
          have hd2' : d ∉ sorted := by simpa using hd2
          refine ⟨d, List.mem_filter.mpr ⟨wf_deps_subset g hwf w d hd1,
            by simpa using hd2'⟩, hd1⟩
        have hMne : (graphKeys g).filter (fun y => y ∉ sorted) ≠ [] := by
          intro hc
          have : x0 ∈ (graphKeys g).filter (fun y => y ∉ sorted) :=
            List.mem_filter.mpr ⟨hx0k, by simpa using hx0s⟩
          rw [hc] at this
          cases this
        exact hacyc (cyclic_of_stuck g _ hMne hM)
      refine ⟨by simpa using hnodup, hsk, hcomplete, hdb⟩
    | cons nodeId rest =>
      have hnk : nodeId ∈ graphKeys g := hqk nodeId (List.mem_cons_self _ _)
      have hne : ¬ nodeId = "" := fun hc => hwf.2.2 (hc ▸ hnk)
      obtain ⟨node, hfind, hnid⟩ := graphFind_isSome_of_mem g nodeId hnk
      have hdept : dependentsOf g nodeId = node.dependentPlanIds := by
        unfold dependentsOf
        rw [hfind]
      simp only [kahnLoop, if_neg hne, hfind]
      obtain ⟨hPD1, newly, hPDq, hPDnd, hPDchar⟩ :=
        processDependents_spec node.dependentPlanIds deg rest
      -- decompose the nodup hypothesis
      rw [List.nodup_append] at hnodup
      obtain ⟨hnds, hndq, hdisj⟩ := hnodup
      have hnodrest : nodeId ∉ rest := (List.nodup_cons.mp hndq).1
      have hndrest : rest.Nodup := (List.nodup_cons.mp hndq).2
      have hnodsorted : nodeId ∉ sorted := fun hc =>
        hdisj hc (List.mem_cons_self _ _)
      have hdisjsr : ∀ x ∈ sorted, x ∉ rest := fun x hx hc =>
        hdisj hx (List.mem_cons_of_mem _ hc)
      -- facts about nodeId
      have hdeg0 : deg nodeId = 0 := ((hK3 nodeId hnk).mp
        (List.mem_cons_self _ _)).1
      have hdeps_sorted : ∀ d ∈ depsOf g nodeId, d ∈ sorted := by
        refine deps_all_sorted_of_deg_zero g sorted nodeId ?_
        have := hK2 nodeId hnk
        rw [hdeg0] at this
        exact_mod_cast this.symm
      -- membership in newly: characterization facts
      have hnewly_facts : ∀ x ∈ newly, x ∈ graphKeys g ∧ x ∉ sorted ∧
          x ≠ nodeId ∧ x ∉ rest := by
        intro x hx
        obtain ⟨hx1, hx2⟩ := (hPDchar x).mp hx
        have hcpos : 0 < node.dependentPlanIds.count x := by
          have h1 : (1:Int) ≤ (node.dependentPlanIds.count x : Int) :=
            le_trans hx1 hx2
          exact_mod_cast h1
        have hxdep : x ∈ dependentsOf g nodeId := by
          rw [hdept]
          exact List.count_pos_iff.mp hcpos
        have hxk : x ∈ graphKeys g := wf_dependents_subset g hwf nodeId x hxdep
        have hxs : x ∉ sorted := by
          intro hc
          have h0 := sorted_deg_zero g sorted x hdb hc
          have hk2 := hK2 x hxk
          rw [h0] at hk2
          simp only [Nat.cast_zero] at hk2
          omega
        have hxnod : x ≠ nodeId := by
          intro hc
          rw [hc] at hx1
          omega
        have hxrest : x ∉ rest := by
          intro hc
          have := ((hK3 x hxk).mp (List.mem_cons_of_mem _ hc)).1
          omega
        exact ⟨hxk, hxs, hxnod, hxrest⟩
      -- the new degree equation
      have hK2' : ∀ x ∈ graphKeys g, (processDependents
          node.dependentPlanIds deg rest).1 x =
          (((depsOf g x).filter
            (fun d => d ∉ sorted ++ [nodeId])).length : Int) := by
        intro x hxk
        rw [hPD1 x, hK2 x hxk]
        have hswap : node.dependentPlanIds.count x =
            (depsOf g x).count nodeId := by
          rw [← hdept]
          exact hwf.2.1 nodeId x
        rw [hswap]
        have hsplit := filter_length_split sorted nodeId hnodsorted (depsOf g x)
        omega
      -- the new queue characterization
      have hK3' : ∀ x ∈ graphKeys g, x ∈ rest ++ newly ↔
          ((processDependents node.dependentPlanIds deg rest).1 x = 0 ∧
           x ∉ sorted ++ [nodeId]) := by
        intro x hxk
        constructor
        · intro hx
          rcases List.mem_append.mp hx with hx | hx
          · obtain ⟨hdeg, hxs⟩ := (hK3 x hxk).mp (List.mem_cons_of_mem _ hx)
            have hxnod : x ≠ nodeId := fun hc => hnodrest (hc ▸ hx)
            have hcnt : (depsOf g x).count nodeId = 0 := by
              rw [List.count_eq_zero]
              intro hc
              exact hnodsorted (deps_all_sorted_of_deg_zero g sorted x
                (by
                  have := hK2 x hxk
                  rw [hdeg] at this
                  exact_mod_cast this.symm) nodeId hc)
            refine ⟨?_, ?_⟩
            · rw [hPD1 x, hdeg]
              have hswap : node.dependentPlanIds.count x =
                  (depsOf g x).count nodeId := by
                rw [← hdept]
                exact hwf.2.1 nodeId x
              rw [hswap, hcnt]
              simp
            · intro hc
              rcases List.mem_append.mp hc with hc | hc
              · exact hxs hc
              · exact hxnod (by simpa using hc)
          · obtain ⟨hxk2, hxs, hxnod, _⟩ := hnewly_facts x hx
            refine ⟨?_, ?_⟩
            · have h1 := hK2' x hxk
              obtain ⟨ha, hb⟩ := (hPDchar x).mp hx
              have h2 := hPD1 x
              have h3 : (0:Int) ≤ (((depsOf g x).filter
                  (fun d => d ∉ sorted ++ [nodeId])).length : Int) :=
                Int.natCast_nonneg _
              omega
            · intro hc
              rcases List.mem_append.mp hc with hc | hc
              · exact hxs hc
              · exact hxnod (by simpa using hc)
        · rintro ⟨hdeg', hxs1⟩
          have hxs : x ∉ sorted := fun hc =>
            hxs1 (List.mem_append.mpr (Or.inl hc))
          have hxnod : x ≠ nodeId := fun hc =>
            hxs1 (List.mem_append.mpr (Or.inr (by simp [hc])))
          have hswap : node.dependentPlanIds.count x =
              (depsOf g x).count nodeId := by
            rw [← hdept]
            exact hwf.2.1 nodeId x
          have hPDx := hPD1 x
          by_cases hc0 : node.dependentPlanIds.count x = 0
          · have hdeg : deg x = 0 := by
              rw [hPDx, hc0] at hdeg'
              simpa using hdeg'
            have := (hK3 x hxk).mpr ⟨hdeg, hxs⟩
            cases this with
            | head => exact absurd rfl hxnod
            | tail _ h => exact List.mem_append.mpr (Or.inl h)
          · have hcpos : 1 ≤ (node.dependentPlanIds.count x : Int) := by
              have : 0 < node.dependentPlanIds.count x :=
                Nat.pos_of_ne_zero hc0
              exact_mod_cast this
            refine List.mem_append.mpr (Or.inr ((hPDchar x).mpr ⟨?_, ?_⟩))
            · omega
            · omega
      -- the assembled nodup for the recursive call
      have hnd1 : ((sorted ++ [nodeId]) ++ (rest ++ newly)).Nodup := by
        rw [List.nodup_append]
        refine ⟨?_, ?_, ?_⟩
        · rw [List.nodup_append]
          refine ⟨hnds, List.nodup_singleton _, ?_⟩
          intro x hx hc
          have hxn : x = nodeId := by simpa using hc
          exact hnodsorted (hxn ▸ hx)
        · rw [List.nodup_append]
          refine ⟨hndrest, hPDnd, ?_⟩
          intro x hx hc
          exact (hnewly_facts x hc).2.2.2 hx
        · intro x hx hc
          rcases List.mem_append.mp hx with hx | hx
          · rcases List.mem_append.mp hc with hc | hc
            · exact hdisjsr x hx hc
            · exact (hnewly_facts x hc).2.1 hx
          · have hxn : x = nodeId := by simpa using hx
            subst hxn
            rcases List.mem_append.mp hc with hc | hc
            · exact hnodrest hc
            · exact (hnewly_facts x hc).2.2.1 rfl
      have hf' : ((graphKeys g).filter
          (fun x => x ∉ sorted ++ [nodeId])).length < f := by
        have hsplit := filter_length_split sorted nodeId hnodsorted (graphKeys g)
        have hcpos : 0 < (graphKeys g).count nodeId :=
          List.count_pos_iff.mpr hnk
        omega
      have hsk' : ∀ x ∈ sorted ++ [nodeId], x ∈ graphKeys g := by
        intro x hx
        rcases List.mem_append.mp hx with hx | hx
        · exact hsk x hx
        · exact (by simpa using hx : x = nodeId) ▸ hnk
      have hqk' : ∀ x ∈ rest ++ newly, x ∈ graphKeys g := by
        intro x hx
        rcases List.mem_append.mp hx with hx | hx
        · exact hqk x (List.mem_cons_of_mem _ hx)
        · exact (hnewly_facts x hx).1
      have hdb' : DepsBefore g (sorted ++ [nodeId]) :=
        depsBefore_append g sorted nodeId hdb hdeps_sorted
      rw [hPDq]
      exact ih (rest ++ newly)
        (processDependents node.dependentPlanIds deg rest).1
        (sorted ++ [nodeId]) hf' hnd1 hsk' hqk' hK2' hK3' hdb'

/-- With unique keys, lookup of a member node's id returns that node. -/
theorem graphFind_eq_of_nodup (g : Graph) (hnd : (graphKeys g).Nodup) :
    ∀ (m : DependencyNode), m ∈ g → graphFind g m.planId = some m := by
  induction g with
  | nil => intro m hm; cases hm
  | cons n t ih =>
    intro m hm
    have hnd' : (graphKeys t).Nodup ∧ n.planId ∉ graphKeys t := by
      unfold graphKeys at hnd ⊢
      rw [List.map_cons, List.nodup_cons] at hnd
      exact ⟨hnd.2, hnd.1⟩
    cases hm with
    | head =>
      unfold graphFind
      rw [List.find?_cons_of_pos _ (by simp)]
    | tail _ hm' =>
      have hne : (n.planId == m.planId) = false := by
        simp only [beq_eq_false_iff_ne, ne_eq]
        intro hc
        exact hnd'.2 (hc ▸ List.mem_map.mpr ⟨m, hm', rfl⟩)
      unfold graphFind at ih ⊢
      rw [List.find?_cons_of_neg _ (by simp [hne])]
      exact ih hnd'.1 m hm'

/-- Full correctness of `topologicalSort` on well-formed acyclic graphs:
not flagged, duplicate-free, containing exactly the keys, dependencies
first. -/
theorem topologicalSort_correct (g : Graph) (hwf : GraphWF g)
    (hacyc : ¬ Cyclic g) :
    (topologicalSort g).hasCycle = false ∧
    (topologicalSort g).sortedPlanIds.Nodup ∧
    (∀ x, x ∈ (topologicalSort g).sortedPlanIds ↔ x ∈ graphKeys g) ∧
    DepsBefore g (topologicalSort g).sortedPlanIds := by
  have hdc := detectCycle_acyclic_false g hacyc
  unfold topologicalSort
  rw [hdc]
  simp only [Bool.false_eq_true, if_false]
  have hf0 : ((graphKeys g).filter (fun x => x ∉ ([] : List String))).length <
      g.length + 1 := by
    have h1 : ((graphKeys g).filter
        (fun x => x ∉ ([] : List String))).length ≤ (graphKeys g).length :=
      List.length_filter_le _ _
    have h2 : (graphKeys g).length = g.length := List.length_map _ _
    omega
  have hseedk : ∀ x ∈ seedQueue g, x ∈ graphKeys g := by
    intro x hx
    obtain ⟨n, hn, rfl⟩ := List.mem_map.mp hx
    exact List.mem_map.mpr ⟨n, List.mem_of_mem_filter hn, rfl⟩
  have hnodup0 : (([] : List String) ++ seedQueue g).Nodup := by
    simp only [List.nil_append]
    unfold seedQueue
    have hsub : List.Sublist ((g.filter
        (fun n => n.dependsOnPlanIds.length == 0)).map (·.planId))
        (g.map (·.planId)) :=
      List.Sublist.map _ (List.filter_sublist _)
    exact List.Nodup.sublist hsub hwf.1
  have hK20 : ∀ x ∈ graphKeys g, initialDeg g x =
      (((depsOf g x).filter
        (fun d => d ∉ ([] : List String))).length : Int) := by
    intro x hxk
    obtain ⟨n, hfind, _⟩ := graphFind_isSome_of_mem g x hxk
    unfold initialDeg depsOf
    rw [hfind]
    simp
  have hK30 : ∀ x ∈ graphKeys g, x ∈ seedQueue g ↔
      (initialDeg g x = 0 ∧ x ∉ ([] : List String)) := by
    intro x hxk
    obtain ⟨n, hfind, hnid⟩ := graphFind_isSome_of_mem g x hxk
    have hdeg : initialDeg g x = (n.dependsOnPlanIds.length : Int) := by
      unfold initialDeg
      rw [hfind]
    constructor
    · intro hx
      obtain ⟨m, hm, hmx⟩ := List.mem_map.mp hx
      obtain ⟨hmg, hmlen⟩ := List.mem_filter.mp hm
      have hmlen' : m.dependsOnPlanIds.length = 0 := by simpa using hmlen
      have hfindm : graphFind g m.planId = some m :=
        graphFind_eq_of_nodup g hwf.1 m hmg
      rw [hmx, hfind] at hfindm
      have hmn : n = m := by injection hfindm
      refine ⟨?_, by simp⟩
      rw [hdeg, hmn, hmlen']
      rfl
    · rintro ⟨hz, _⟩
      rw [hdeg] at hz
      have hlen : n.dependsOnPlanIds.length = 0 := by exact_mod_cast hz
      unfold seedQueue
      refine List.mem_map.mpr ⟨n, ?_, hnid⟩
      refine List.mem_filter.mpr ⟨List.mem_of_find?_eq_some hfind, ?_⟩
      simp [hlen]
  have hdb0 : DepsBefore g ([] : List String) := by
    intro p d hp
    cases hp
  obtain ⟨hn, hk, hc, hd⟩ := kahnLoop_inv g hwf hacyc (g.length + 1)
    (seedQueue g) (initialDeg g) [] hf0 hnodup0 (by intro x hx; cases hx)
    hseedk hK20 hK30 hdb0
  exact ⟨by trivial, hn, fun x => ⟨fun hx => hk x hx, fun hx => hc x hx⟩, hd⟩

/-! ## Well-formedness of the executor's graph construction -/

theorem graphFind_map_preserve (f : DependencyNode → DependencyNode)
    (hf : ∀ n, (f n).planId = n.planId) :
    ∀ (g : Graph) (id : String),
    graphFind (g.map f) id = (graphFind g id).map f := by
  intro g id
  induction g with
  | nil => rfl
  | cons n t ih =>
    unfold graphFind at ih ⊢
    by_cases hp : (n.planId == id) = true
    · have hp2 : ((f n).planId == id) = true := by rw [hf]; exact hp
      simp only [List.map_cons, List.find?_cons, hp, hp2, cond_true,
        Option.map_some]
      rfl
    · have hp' : (n.planId == id) = false := by simpa using hp
      have hp2 : ((f n).planId == id) = false := by rw [hf]; exact hp'
      simp only [List.map_cons, List.find?_cons, hp', hp2, cond_false]
      exact ih

theorem pushDependent_keys (g : Graph) (d p : String) :
    graphKeys (pushDependent g d p) = graphKeys g := by
  unfold graphKeys pushDependent
  rw [List.map_map]
  refine List.map_congr_left ?_
  intro n _
  by_cases hc : (n.planId == d) = true
  · simp [Function.comp, hc, nodeAddDependent]
  · simp only [Bool.not_eq_true] at hc
    simp [Function.comp, hc]

theorem graphFind_pushDependent (g : Graph) (d p id : String) :
    graphFind (pushDependent g d p) id =
      (graphFind g id).map
        (fun n => if n.planId == d then nodeAddDependent n p else n) :=
  graphFind_map_preserve _ (fun n => by
    by_cases hc : (n.planId == d) = true
    · simp [hc, nodeAddDependent]
    · simp only [Bool.not_eq_true] at hc
      simp [hc]) g id

theorem depsOf_pushDependent (g : Graph) (d p id : String) :
    depsOf (pushDependent g d p) id = depsOf g id := by
  unfold depsOf
  rw [graphFind_pushDependent]
  cases hfind : graphFind g id with
  | none => rfl
  | some n =>
    by_cases hc : (n.planId == d) = true
    · have hc2 : n.planId = d := by simpa using hc
      simp [hc2, nodeAddDependent]
    · have hc2 : ¬ n.planId = d := by simpa using hc
      simp [hc2]

theorem dependentsOf_pushDependent (g : Graph) (d p id : String) :
    dependentsOf (pushDependent g d p) id =
      if id = d ∧ (graphFind g id).isSome then dependentsOf g id ++ [p]
      else dependentsOf g id := by
  unfold dependentsOf
  rw [graphFind_pushDependent]
  cases hfind : graphFind g id with
  | none =>
    simp only [Option.map_none, Option.isSome_none]
    rw [if_neg (by simp)]
    simp
  | some n =>
    have hnid : n.planId = id := by simpa using List.find?_some hfind
    by_cases hd : id = d
    · rw [if_pos ⟨hd, by simp⟩]
      simp [hnid, hd, nodeAddDependent]
    · rw [if_neg (by rintro ⟨hc, _⟩; exact hd hc)]
      simp [hnid, hd]

theorem graphFind_isSome_iff (g : Graph) (id : String) :
    (graphFind g id).isSome ↔ id ∈ graphKeys g := by
  constructor
  · intro h
    obtain ⟨n, hn⟩ := Option.isSome_iff_exists.mp h
    exact mem_graphKeys_of_find g id n hn
  · intro h
    obtain ⟨n, hn, _⟩ := graphFind_isSome_of_mem g id h
    rw [hn]
    rfl

/-- What the inner reverse-edge fold of `execGraphStep` does to keys,
forward edges and reverse-edge counts. -/
theorem push_foldl_facts (p : String) : ∀ (ds : List String) (g : Graph),
    (graphKeys (ds.foldl (fun g' d => pushDependent g' d p) g) =
      graphKeys g) ∧
    (∀ id, depsOf (ds.foldl (fun g' d => pushDependent g' d p) g) id =
      depsOf g id) ∧
    (∀ id w, (dependentsOf
        (ds.foldl (fun g' d => pushDependent g' d p) g) id).count w =
      (dependentsOf g id).count w +
        (if id ∈ graphKeys g ∧ w = p then ds.count id else 0)) := by
  intro ds
  induction ds with
  | nil =>
    intro g
    refine ⟨rfl, fun id => rfl, fun id w => ?_⟩
    simp
  | cons d rest ih =>
    intro g
    simp only [List.foldl_cons]
    obtain ⟨ihk, ihd, ihc⟩ := ih (pushDependent g d p)
    refine ⟨?_, ?_, ?_⟩
    · rw [ihk, pushDependent_keys]
    · intro id
      rw [ihd, depsOf_pushDependent]
    · intro id w
      rw [ihc, dependentsOf_pushDependent, pushDependent_keys]
      by_cases hin : id ∈ graphKeys g
      · have hsome : (graphFind g id).isSome :=
          (graphFind_isSome_iff g id).mpr hin
        by_cases hwp : w = p
        · by_cases hid : id = d
          · rw [if_pos ⟨hid, hsome⟩, if_pos ⟨hin, hwp⟩, if_pos ⟨hin, hwp⟩]
            subst hid hwp
            have h1 : (id :: rest).count id = rest.count id + 1 :=
              List.count_cons_self _ _
            have h2 : (dependentsOf g id ++ [w]).count w =
                (dependentsOf g id).count w + 1 := by
              rw [List.count_append]
              simp
            omega
          · rw [if_neg (by rintro ⟨hc, _⟩; exact hid hc),
              if_pos ⟨hin, hwp⟩, if_pos ⟨hin, hwp⟩,
              List.count_cons_of_ne (fun hc => hid hc)]
        · by_cases hid : id = d
          · rw [if_pos ⟨hid, hsome⟩, if_neg (by rintro ⟨_, hc⟩; exact hwp hc),
              if_neg (by rintro ⟨_, hc⟩; exact hwp hc), List.count_append]
            have hzero : [p].count w = 0 := by
              rw [List.count_eq_zero]
              simp only [List.mem_singleton]
              exact fun hc => hwp hc
            omega
          · rw [if_neg (by rintro ⟨hc, _⟩; exact hid hc),
              if_neg (by rintro ⟨_, hc⟩; exact hwp hc),
              if_neg (by rintro ⟨_, hc⟩; exact hwp hc)]
      · have hnone : ¬ (graphFind g id).isSome := fun hc =>
          hin ((graphFind_isSome_iff g id).mp hc)
        rw [if_neg (by rintro ⟨_, hc⟩; exact hnone hc),
          if_neg (by rintro ⟨hc, _⟩; exact hin hc),
          if_neg (by rintro ⟨hc, _⟩; exact hin hc)]

/-- Well-formedness of a stack's stored plan list: unique ids, stored
dependencies inside the id set, no empty-string id. -/
def StackPlansWF (sps : List StackPlan) : Prop :=
  (sps.map (·.planId)).Nodup ∧
  (∀ sp ∈ sps, ∀ d ∈ sp.dependsOnPlanIds, d ∈ sps.map (·.planId)) ∧
  "" ∉ sps.map (·.planId)

instance (sps : List StackPlan) : Decidable (StackPlansWF sps) := by
  unfold StackPlansWF
  infer_instance

theorem execGraph_fold_facts : ∀ (todo : List StackPlan) (g : Graph),
    (graphKeys (todo.foldl execGraphStep g) = graphKeys g) ∧
    (∀ id, depsOf (todo.foldl execGraphStep g) id = depsOf g id) ∧
    (∀ id w, (dependentsOf (todo.foldl execGraphStep g) id).count w =
      (dependentsOf g id).count w +
        (if id ∈ graphKeys g then
          (todo.map (fun sp => if w = sp.planId then
            sp.dependsOnPlanIds.count id else 0)).sum
         else 0)) := by
  intro todo
  induction todo with
  | nil =>
    intro g
    refine ⟨rfl, fun id => rfl, fun id w => by simp⟩
  | cons sp rest ih =>
    intro g
    simp only [List.foldl_cons]
    have hstep : execGraphStep g sp =
        sp.dependsOnPlanIds.foldl
          (fun g' d => pushDependent g' d sp.planId) g := rfl
    obtain ⟨pk, pd, pc⟩ := push_foldl_facts sp.planId sp.dependsOnPlanIds g
    obtain ⟨ihk, ihd, ihc⟩ := ih (execGraphStep g sp)
    refine ⟨?_, ?_, ?_⟩
    · rw [ihk, hstep, pk]
    · intro id
      rw [ihd id, hstep, pd id]
    · intro id w
      rw [ihc id w, hstep, pc id w, pk]
      by_cases hin : id ∈ graphKeys g
      · simp only [List.map_cons, List.sum_cons, if_pos hin]
        by_cases hwp : w = sp.planId
        · rw [if_pos ⟨hin, hwp⟩, if_pos hwp]
          omega
        · rw [if_neg (by rintro ⟨_, hc⟩; exact hwp hc), if_neg hwp]
          omega
      · rw [if_neg (by rintro ⟨hc, _⟩; exact hin hc), if_neg hin, if_neg hin]

theorem execGraph_keys (sps : List StackPlan) :
    graphKeys (execGraph sps) = sps.map (·.planId) := by
  unfold execGraph
  rw [(execGraph_fold_facts sps _).1]
  unfold graphKeys
  rw [List.map_map]
  rfl

theorem dependentsOf_spNodes (sps : List StackPlan) (u : String) :
    dependentsOf (sps.map spNode) u = [] := by
  unfold dependentsOf
  cases hfind : graphFind (sps.map spNode) u with
  | none => rfl
  | some n =>
    obtain ⟨sp, _, rfl⟩ := List.mem_map.mp (List.mem_of_find?_eq_some hfind)
    rfl

theorem graphFind_spNode (sps : List StackPlan) (id : String) :
    graphFind (sps.map spNode) id =
      (sps.find? (fun sp => sp.planId == id)).map spNode := by
  induction sps with
  | nil => rfl
  | cons sp t ih =>
    unfold graphFind at ih ⊢
    by_cases hp : (sp.planId == id) = true
    · have hp2 : ((spNode sp).planId == id) = true := hp
      simp only [List.map_cons, List.find?_cons, hp, hp2, cond_true]
      rfl
    · have hp' : (sp.planId == id) = false := by simpa using hp
      have hp2 : ((spNode sp).planId == id) = false := hp'
      simp only [List.map_cons, List.find?_cons, hp', hp2, cond_false]
      exact ih

theorem execGraph_depsOf_eq (sps : List StackPlan) (id : String) :
    depsOf (execGraph sps) id =
      (match sps.find? (fun sp => sp.planId == id) with
       | some sp => sp.dependsOnPlanIds
       | none => []) := by
  have hG : execGraph sps = sps.foldl execGraphStep (sps.map spNode) := rfl
  rw [hG, (execGraph_fold_facts sps (sps.map spNode)).2.1 id]
  unfold depsOf
  rw [graphFind_spNode]
  cases sps.find? (fun sp => sp.planId == id) with
  | none => rfl
  | some sp => rfl

theorem stackPlan_find_of_nodup (sps : List StackPlan)
    (hnd : (sps.map (·.planId)).Nodup) :
    ∀ sp ∈ sps, sps.find? (fun q => q.planId == sp.planId) = some sp := by
  induction sps with
  | nil => intro sp h; cases h
  | cons q t ih =>
    intro sp hsp
    rw [List.map_cons, List.nodup_cons] at hnd
    cases hsp with
    | head =>
      rw [List.find?_cons_of_pos _ (by simp)]
    | tail _ hm =>
      have hne : (q.planId == sp.planId) = false := by
        simp only [beq_eq_false_iff_ne, ne_eq]
        intro hc
        exact hnd.1 (hc ▸ List.mem_map.mpr ⟨sp, hm, rfl⟩)
      rw [List.find?_cons_of_neg _ (by simp [hne])]
      exact ih hnd.2 sp hm

theorem execGraph_depsOf (sps : List StackPlan)
    (hnd : (sps.map (·.planId)).Nodup) (sp : StackPlan) (hsp : sp ∈ sps) :
    depsOf (execGraph sps) sp.planId = sp.dependsOnPlanIds := by
  rw [execGraph_depsOf_eq, stackPlan_find_of_nodup sps hnd sp hsp]

theorem sum_unique_contrib (u : String) : ∀ (sps : List StackPlan)
    (w : String), (sps.map (·.planId)).Nodup →
    (sps.map (fun sp => if w = sp.planId then
      sp.dependsOnPlanIds.count u else 0)).sum =
    (match sps.find? (fun sp => sp.planId == w) with
     | some sp => sp.dependsOnPlanIds.count u
     | none => 0) := by
  intro sps
  induction sps with
  | nil => intro w _; rfl
  | cons sp t ih =>
    intro w hnd
    rw [List.map_cons, List.nodup_cons] at hnd
    by_cases hp : (sp.planId == w) = true
    · have hp2 : w = sp.planId := by
        have h : sp.planId = w := by simpa using hp
        exact h.symm
      simp only [List.find?_cons, hp, cond_true, List.map_cons,
        List.sum_cons, if_pos hp2]
      have hzero : (t.map (fun q => if w = q.planId then
          q.dependsOnPlanIds.count u else 0)).sum = 0 := by
        refine List.sum_eq_zero ?_
        intro x hx
        obtain ⟨q, hq, rfl⟩ := List.mem_map.mp hx
        rw [if_neg ?_]
        intro hc
        exact hnd.1 (hp2 ▸ hc ▸ List.mem_map.mpr ⟨q, hq, rfl⟩)
      omega
    · have hp' : (sp.planId == w) = false := by simpa using hp
      have hp2 : ¬ w = sp.planId := by
        intro hc
        rw [hc] at hp
        simp at hp
      simp only [List.find?_cons, hp', cond_false, List.map_cons,
        List.sum_cons, if_neg hp2]
      rw [ih w hnd.2]
      omega

theorem execGraph_count (sps : List StackPlan) (hwf : StackPlansWF sps)
    (u w : String) :
    (dependentsOf (execGraph sps) u).count w =
      (depsOf (execGraph sps) w).count u := by
  have hfold := (execGraph_fold_facts sps (sps.map spNode)).2.2 u w
  have hkeys0 : graphKeys (sps.map spNode) = sps.map (·.planId) := by
    unfold graphKeys
    rw [List.map_map]
    rfl
  have hG : execGraph sps = sps.foldl execGraphStep (sps.map spNode) := rfl
  rw [hG, hfold, dependentsOf_spNodes]
  simp only [List.count_nil, Nat.zero_add, hkeys0]
  rw [← hG, execGraph_depsOf_eq]
  by_cases hin : u ∈ sps.map (·.planId)
  · rw [if_pos hin, sum_unique_contrib u sps w hwf.1]
    cases hfind : sps.find? (fun sp => sp.planId == w) with
    | none => simp
    | some sp => simp
  · rw [if_neg hin]
    cases hfind : sps.find? (fun sp => sp.planId == w) with
    | none => simp
    | some sp =>
      have hsp : sp ∈ sps := List.mem_of_find?_eq_some hfind
      simp only
      rw [eq_comm, List.count_eq_zero]
      intro hc
      exact hin (hwf.2.1 sp hsp u hc)

/-- The executor's graph construction yields a well-formed graph. -/
theorem execGraph_wf (sps : List StackPlan) (hwf : StackPlansWF sps) :
    GraphWF (execGraph sps) := by
  refine ⟨?_, ?_, ?_⟩
  · rw [execGraph_keys]
    exact hwf.1
  · intro u w
    exact execGraph_count sps hwf u w
  · rw [execGraph_keys]
    exact hwf.2.2

theorem not_cyclic_of_flag_false (g : Graph) (h : (detectCycle g).1 = false) :
    ¬ Cyclic g := fun hcyc => by
  rw [detectCycle_complete g hcyc] at h
  cases h

/-! ## Claim C4 -/

/-- C4 (amended): for every acyclic well-formed stack-plan list with
nonempty ids, `getExecutionOrder` is not flagged cyclic and returns a
duplicate-free order containing exactly the plan ids, in which every
stored dependency of every plan appears strictly before the plan. -/
theorem c4_valid_linearization (sps : List StackPlan)
    (hwf : StackPlansWF sps) (hacyc : ¬ Cyclic (execGraph sps)) :
    (getExecutionOrder sps).hasCycle = false ∧
    (getExecutionOrder sps).sortedPlanIds.Nodup ∧
    (∀ x, x ∈ (getExecutionOrder sps).sortedPlanIds ↔
      x ∈ sps.map (·.planId)) ∧
    (∀ sp ∈ sps, ∀ d ∈ sp.dependsOnPlanIds, ∃ pre post,
      (getExecutionOrder sps).sortedPlanIds = pre ++ sp.planId :: post ∧
      d ∈ pre) := by
  have hgwf := execGraph_wf sps hwf
  obtain ⟨h1, h2, h3, h4⟩ := topologicalSort_correct (execGraph sps) hgwf hacyc
  have hge : getExecutionOrder sps = topologicalSort (execGraph sps) := rfl
  rw [hge]
  refine ⟨h1, h2, ?_, ?_⟩
  · intro x
    rw [h3 x, execGraph_keys]
  · intro sp hsp d hd
    refine h4 sp.planId d ?_ ?_
    · rw [h3 sp.planId, execGraph_keys]
      exact List.mem_map.mpr ⟨sp, hsp, rfl⟩
    · rw [execGraph_depsOf sps hwf.1 sp hsp]
      exact hd

/-- The diamond example of the spec: `A`, `B ← A`, `C ← A`, `D ← B, C`. -/
def diamondPlans : List StackPlan :=
  [mkStackPlan "A" [], mkStackPlan "B" ["A"], mkStackPlan "C" ["A"],
   mkStackPlan "D" ["B", "C"]]

/-- Witness for C4 at the diamond graph. -/
theorem c4_valid_linearization_witness :
    StackPlansWF diamondPlans ∧ ¬ Cyclic (execGraph diamondPlans) ∧
    ((getExecutionOrder diamondPlans).hasCycle = false ∧
     (getExecutionOrder diamondPlans).sortedPlanIds.Nodup ∧
     (∀ x, x ∈ (getExecutionOrder diamondPlans).sortedPlanIds ↔
       x ∈ diamondPlans.map (·.planId)) ∧
     (∀ sp ∈ diamondPlans, ∀ d ∈ sp.dependsOnPlanIds, ∃ pre post,
       (getExecutionOrder diamondPlans).sortedPlanIds =
         pre ++ sp.planId :: post ∧ d ∈ pre)) :=
  ⟨by decide, not_cyclic_of_flag_false _ (by decide),
   c4_valid_linearization diamondPlans (by decide)
     (not_cyclic_of_flag_false _ (by decide))⟩

/-! ## Claim C1 (amended part) -/

theorem kahnLoop_no_dependents (g : Graph) :
    ∀ (fuel : Nat) (queue : List String) (deg : String → Int)
      (sorted : List String),
    queue.length < fuel →
    (∀ x ∈ queue, ¬ x = "" ∧ ∃ n, graphFind g x = some n ∧
      n.dependentPlanIds = []) →
    kahnLoop g fuel queue deg sorted = sorted ++ queue := by
  intro fuel
  induction fuel with
  | zero =>
    intro queue deg sorted hf
    omega
  | succ f ih =>
    intro queue deg sorted hf hq
    cases queue with
    | nil => simp [kahnLoop]
    | cons nodeId rest =>
      obtain ⟨hne, n, hfind, hdep⟩ := hq nodeId (List.mem_cons_self _ _)
      simp only [kahnLoop, if_neg hne, hfind, hdep]
      simp only [processDependents]
      rw [ih rest deg (sorted ++ [nodeId])
        (by simp only [List.length_cons] at hf; omega)
        (fun x hx => hq x (List.mem_cons_of_mem _ hx))]
      simp

/-- C1 (amended): ready-node ties follow map insertion order, not
lexicographic order — for an edgeless well-formed graph the output is
exactly the node insertion order. -/
theorem c1_insertion_order_ties (g : Graph) (hwf : GraphWF g)
    (hnodeps : ∀ n ∈ g, n.dependsOnPlanIds = []) :
    (topologicalSort g).sortedPlanIds = graphKeys g := by
  have hacyc := not_cyclic_of_no_deps g hnodeps
  have hdc := detectCycle_acyclic_false g hacyc
  unfold topologicalSort
  rw [hdc]
  simp only [Bool.false_eq_true, if_false]
  have hseed : seedQueue g = graphKeys g := by
    unfold seedQueue graphKeys
    congr 1
    refine List.filter_eq_self.mpr ?_
    intro n hn
    simp [hnodeps n hn]
  rw [hseed]
  rw [kahnLoop_no_dependents g (g.length + 1) (graphKeys g) (initialDeg g) []
    (by unfold graphKeys; rw [List.length_map]; omega) ?_]
  · simp
  · intro x hx
    refine ⟨fun hc => hwf.2.2 (hc ▸ hx), ?_⟩
    obtain ⟨n, hfind, hnid⟩ := graphFind_isSome_of_mem g x hx
    refine ⟨n, hfind, ?_⟩
    rw [List.eq_nil_iff_forall_not_mem]
    intro w hw
    have hw' : w ∈ dependentsOf g x := by
      unfold dependentsOf
      rw [hfind]
      exact hw
    have hpos : 0 < (dependentsOf g x).count w := List.count_pos_iff.mpr hw'
    rw [hwf.2.1 x w] at hpos
    have hmem : x ∈ depsOf g w := List.count_pos_iff.mp hpos
    have hdeps_w : depsOf g w = [] := by
      unfold depsOf
      cases hfw : graphFind g w with
      | none => rfl
      | some m =>
        simp only
        exact hnodeps m (List.mem_of_find?_eq_some hfw)
    rw [hdeps_w] at hmem
    cases hmem

/-- The edgeless two-plan list `b`, `a`, in that insertion order. -/
def plansBA : List StackPlan := [mkStackPlan "b" [], mkStackPlan "a" []]

/-- Witness for the amended C1: with `b` inserted before `a` the output is
`["b", "a"]` — insertion order, not lexicographic order. -/
theorem c1_insertion_order_ties_witness :
    GraphWF (execGraph plansBA) ∧
    (∀ n ∈ execGraph plansBA, n.dependsOnPlanIds = []) ∧
    (topologicalSort (execGraph plansBA)).sortedPlanIds =
      graphKeys (execGraph plansBA) ∧
    (topologicalSort (execGraph plansBA)).sortedPlanIds = ["b", "a"] :=
  ⟨execGraph_wf plansBA (by decide), by decide,
   c1_insertion_order_ties _ (execGraph_wf plansBA (by decide)) (by decide),
   by decide⟩

/-! ## Status-store lemmas -/

theorem backfill_get_some {e : PlanExecutionStatus} (x : String) :
    ∀ (pids : List String) (ps : List (String × PlanExecutionStatus)),
    alistGet ps x = some e →
    alistGet (pids.foldl (fun ps pid =>
      if (alistGet ps pid).isSome then ps
      else ps ++ [(pid, pendingEntry pid)]) ps) x = some e := by
  intro pids
  induction pids with
  | nil => intro ps h; exact h
  | cons pid rest ih =>
    intro ps h
    simp only [List.foldl_cons]
    by_cases hc : (alistGet ps pid).isSome
    · rw [if_pos hc]
      exact ih ps h
    · rw [if_neg hc]
      refine ih _ ?_
      unfold alistGet at h ⊢
      rw [List.find?_append]
      cases hfind : ps.find? (fun p => p.1 == x) with
      | none => rw [hfind] at h; simp at h
      | some q => rw [hfind] at h; simpa using h

theorem backfill_get_none (x : String) :
    ∀ (pids : List String) (ps : List (String × PlanExecutionStatus)),
    alistGet ps x = none →
    (alistGet (pids.foldl (fun ps pid =>
      if (alistGet ps pid).isSome then ps
      else ps ++ [(pid, pendingEntry pid)]) ps) x = none ∨
     alistGet (pids.foldl (fun ps pid =>
      if (alistGet ps pid).isSome then ps
      else ps ++ [(pid, pendingEntry pid)]) ps) x = some (pendingEntry x)) := by
  intro pids
  induction pids with
  | nil => intro ps h; exact Or.inl h
  | cons pid rest ih =>
    intro ps h
    simp only [List.foldl_cons]
    by_cases hc : (alistGet ps pid).isSome
    · rw [if_pos hc]
      exact ih ps h
    · rw [if_neg hc]
      by_cases hpx : pid = x
      · refine Or.inr (backfill_get_some x rest _ ?_)
        rw [hpx]
        unfold alistGet at h ⊢
        rw [List.find?_append]
        cases hfind : ps.find? (fun p => p.1 == x) with
        | none => simp [List.find?]
        | some q => rw [hfind] at h; simp at h
      · refine ih _ ?_
        unfold alistGet at h ⊢
        rw [List.find?_append]
        cases hfind : ps.find? (fun p => p.1 == x) with
        | none =>
          have hne : ((pid, pendingEntry pid).1 == x) = false := by
            simpa using hpx
          simp [List.find?, hne]
        | some q => rw [hfind] at h; simp at h

theorem get_load_some (st : StackExecutionStatus) (sn : String)
    (pids : List String) (x : String) (e : PlanExecutionStatus)
    (h : alistGet st.planStatuses x = some e) :
    alistGet (loadStackStatus (some st) sn pids).planStatuses x = some e := by
  unfold loadStackStatus
  exact backfill_get_some x pids st.planStatuses h

theorem execStatusOf_load (st : StackExecutionStatus) (sn : String)
    (pids : List String) (x : String) :
    execStatusOf (loadStackStatus (some st) sn pids) x = execStatusOf st x := by
  unfold execStatusOf
  cases hget : alistGet st.planStatuses x with
  | some e => rw [get_load_some st sn pids x e hget]
  | none =>
    cases backfill_get_none x pids st.planStatuses hget with
    | inl hc => unfold loadStackStatus; rw [hc]
    | inr hc => unfold loadStackStatus; rw [hc]; rfl

theorem errMsgOf_load (st : StackExecutionStatus) (sn : String)
    (pids : List String) (x : String) :
    errMsgOf (loadStackStatus (some st) sn pids) x = errMsgOf st x := by
  unfold errMsgOf
  cases hget : alistGet st.planStatuses x with
  | some e => rw [get_load_some st sn pids x e hget]
  | none =>
    cases backfill_get_none x pids st.planStatuses hget with
    | inl hc => unfold loadStackStatus; rw [hc]
    | inr hc => unfold loadStackStatus; rw [hc]; rfl

theorem load_fields (st : StackExecutionStatus) (sn : String)
    (pids : List String) :
    (loadStackStatus (some st) sn pids).lastRunAt = st.lastRunAt ∧
    (loadStackStatus (some st) sn pids).isRunning = st.isRunning := ⟨rfl, rfl⟩

theorem get_update_self (st : StackExecutionStatus) (sn : String)
    (pids : List String) (p : String) (est : ExecutionStatus)
    (em : Option String) (ec : Option Int) (dur : Option Nat) (now : Nat) :
    alistGet (updatePlanStatus (some st) sn pids p est em ec dur
      now).planStatuses p =
      some { planId := p, executionStatus := est, lastExecutedAt := some now
             executionDurationMs := dur, errorMessage := em, exitCode := ec } := by
  unfold updatePlanStatus
  exact alistGet_set_self _ _ _

theorem get_update_ne (st : StackExecutionStatus) (sn : String)
    (pids : List String) (p : String) (est : ExecutionStatus)
    (em : Option String) (ec : Option Int) (dur : Option Nat) (now : Nat)
    (x : String) (hx : x ≠ p) :
    alistGet (updatePlanStatus (some st) sn pids p est em ec dur
      now).planStatuses x =
      alistGet (loadStackStatus (some st) sn pids).planStatuses x := by
  unfold updatePlanStatus
  exact alistGet_set_ne _ _ _ _ hx

theorem execStatusOf_update (st : StackExecutionStatus) (sn : String)
    (pids : List String) (p : String) (est : ExecutionStatus)
    (em : Option String) (ec : Option Int) (dur : Option Nat) (now : Nat)
    (x : String) :
    execStatusOf (updatePlanStatus (some st) sn pids p est em ec dur now) x =
      if x = p then est else execStatusOf st x := by
  by_cases hx : x = p
  · subst hx
    unfold execStatusOf
    rw [get_update_self]
    simp
  · rw [if_neg hx]
    unfold execStatusOf
    rw [get_update_ne st sn pids p est em ec dur now x hx]
    have := execStatusOf_load st sn pids x
    unfold execStatusOf at this
    exact this

theorem errMsgOf_update (st : StackExecutionStatus) (sn : String)
    (pids : List String) (p : String) (est : ExecutionStatus)
    (em : Option String) (ec : Option Int) (dur : Option Nat) (now : Nat)
    (x : String) :
    errMsgOf (updatePlanStatus (some st) sn pids p est em ec dur now) x =
      if x = p then em else errMsgOf st x := by
  by_cases hx : x = p
  · subst hx
    unfold errMsgOf
    rw [get_update_self]
    simp
  · rw [if_neg hx]
    unfold errMsgOf
    rw [get_update_ne st sn pids p est em ec dur now x hx]
    have := errMsgOf_load st sn pids x
    unfold errMsgOf at this
    exact this

theorem updatePlanStatus_fields (st : StackExecutionStatus) (sn : String)
    (pids : List String) (p : String) (est : ExecutionStatus)
    (em : Option String) (ec : Option Int) (dur : Option Nat) (now : Nat) :
    (updatePlanStatus (some st) sn pids p est em ec dur now).lastRunAt =
      some now ∧
    (updatePlanStatus (some st) sn pids p est em ec dur now).isRunning =
      st.isRunning := ⟨rfl, rfl⟩

theorem setStackRunning_fields (st : StackExecutionStatus) (sn : String)
    (pids : List String) (b : Bool) (now : Nat) :
    (setStackRunning (some st) sn pids b now).isRunning = b ∧
    (setStackRunning (some st) sn pids b now).lastRunAt =
      (if b then some now else st.lastRunAt) ∧
    (∀ x, execStatusOf (setStackRunning (some st) sn pids b now) x =
      execStatusOf st x) := by
  refine ⟨rfl, rfl, ?_⟩
  intro x
  have h1 : execStatusOf (setStackRunning (some st) sn pids b now) x =
      execStatusOf (loadStackStatus (some st) sn pids) x := rfl
  rw [h1, execStatusOf_load]

/-! ## Executor loop lemmas -/

theorem execLoop_completed_mono (stack : Stack)
    (worker : String → ExecutePlanResult) (stackName : String)
    (planIds : List String) (now : Nat) :
    ∀ (order : List String) (s : ExecState) (x : String),
    x ∈ s.completedPlanIds →
    x ∈ (execLoop stack worker stackName planIds now order
      s).completedPlanIds := by
  intro order
  induction order with
  | nil => intro s x hx; exact hx
  | cons p rest ih =>
    intro s x hx
    simp only [execLoop]
    by_cases hp : p ∈ s.completedPlanIds
    · rw [if_pos hp]
      exact ih s x hx
    · rw [if_neg hp]
      by_cases hu : (match stack.plans.find? (fun q => q.planId == p) with
        | some sp => sp.dependsOnPlanIds.any (fun depId =>
            !(s.completedPlanIds.contains depId))
        | none => false) = true
      · rw [if_pos hu]
        exact ih _ x hx
      · rw [if_neg hu]
        refine ih _ x ?_
        by_cases hc : (worker p).executionStatus = ExecutionStatus.completed
        · simp only [if_pos hc]
          exact List.mem_append.mpr (Or.inl hx)
        · simp only [if_neg hc]
          exact hx

theorem execLoop_completed_settle (stack : Stack)
    (worker : String → ExecutePlanResult) (stackName : String)
    (planIds : List String) (now : Nat) :
    ∀ (order : List String) (s : ExecState) (x : String),
    x ∉ order →
    (x ∈ (execLoop stack worker stackName planIds now order
      s).completedPlanIds ↔ x ∈ s.completedPlanIds) := by
  intro order
  induction order with
  | nil => intro s x _; exact Iff.rfl
  | cons p rest ih =>
    intro s x hx
    have hxp : x ≠ p := fun hc => hx (hc ▸ List.mem_cons_self _ _)
    have hxr : x ∉ rest := fun hc => hx (List.mem_cons_of_mem _ hc)
    simp only [execLoop]
    by_cases hp : p ∈ s.completedPlanIds
    · rw [if_pos hp]
      exact ih s x hxr
    · rw [if_neg hp]
      by_cases hu : (match stack.plans.find? (fun q => q.planId == p) with
        | some sp => sp.dependsOnPlanIds.any (fun depId =>
            !(s.completedPlanIds.contains depId))
        | none => false) = true
      · rw [if_pos hu]
        exact ih _ x hxr
      · rw [if_neg hu]
        rw [ih _ x hxr]
        by_cases hc : (worker p).executionStatus = ExecutionStatus.completed
        · simp only [if_pos hc]
          constructor
          · intro h
            rcases List.mem_append.mp h with h | h
            · exact h
            · exact absurd (by simpa using h) hxp
          · intro h
            exact List.mem_append.mpr (Or.inl h)
        · simp only [if_neg hc]

theorem execLoop_status_other (stack : Stack)
    (worker : String → ExecutePlanResult) (stackName : String)
    (planIds : List String) (now : Nat) :
    ∀ (order : List String) (s : ExecState) (x : String),
    x ∉ order →
    execStatusOf (execLoop stack worker stackName planIds now order
      s).status x = execStatusOf s.status x ∧
    errMsgOf (execLoop stack worker stackName planIds now order
      s).status x = errMsgOf s.status x := by
  intro order
  induction order with
  | nil => intro s x _; exact ⟨rfl, rfl⟩
  | cons p rest ih =>
    intro s x hx
    have hxp : x ≠ p := fun hc => hx (hc ▸ List.mem_cons_self _ _)
    have hxr : x ∉ rest := fun hc => hx (List.mem_cons_of_mem _ hc)
    simp only [execLoop]
    by_cases hp : p ∈ s.completedPlanIds
    · rw [if_pos hp]
      exact ih s x hxr
    · rw [if_neg hp]
      by_cases hu : (match stack.plans.find? (fun q => q.planId == p) with
        | some sp => sp.dependsOnPlanIds.any (fun depId =>
            !(s.completedPlanIds.contains depId))
        | none => false) = true
      · rw [if_pos hu]
        obtain ⟨h1, h2⟩ := ih _ x hxr
        rw [h1, h2]
        constructor
        · rw [execStatusOf_update]
          rw [if_neg hxp]
        · rw [errMsgOf_update]
          rw [if_neg hxp]
      · rw [if_neg hu]
        obtain ⟨h1, h2⟩ := ih _ x hxr
        rw [h1, h2]
        constructor
        · rw [execStatusOf_update, if_neg hxp, execStatusOf_update, if_neg hxp]
        · rw [errMsgOf_update, if_neg hxp, errMsgOf_update, if_neg hxp]

theorem execLoop_results_mono (stack : Stack)
    (worker : String → ExecutePlanResult) (stackName : String)
    (planIds : List String) (now : Nat) :
    ∀ (order : List String) (s : ExecState) (r : ExecutePlanResult),
    r ∈ s.results →
    r ∈ (execLoop stack worker stackName planIds now order s).results := by
  intro order
  induction order with
  | nil => intro s r hr; exact hr
  | cons p rest ih =>
    intro s r hr
    simp only [execLoop]
    by_cases hp : p ∈ s.completedPlanIds
    · rw [if_pos hp]
      exact ih s r hr
    · rw [if_neg hp]
      by_cases hu : (match stack.plans.find? (fun q => q.planId == p) with
        | some sp => sp.dependsOnPlanIds.any (fun depId =>
            !(s.completedPlanIds.contains depId))
        | none => false) = true
      · rw [if_pos hu]
        exact ih _ r (List.mem_append.mpr (Or.inl hr))
      · rw [if_neg hu]
        exact ih _ r (List.mem_append.mpr (Or.inl hr))

theorem execLoop_lastRunAt (stack : Stack)
    (worker : String → ExecutePlanResult) (stackName : String)
    (planIds : List String) (now : Nat) :
    ∀ (order : List String) (s : ExecState),
    s.status.lastRunAt = some now →
    (execLoop stack worker stackName planIds now order s).status.lastRunAt =
      some now := by
  intro order
  induction order with
  | nil => intro s h; exact h
  | cons p rest ih =>
    intro s h
    simp only [execLoop]
    by_cases hp : p ∈ s.completedPlanIds
    · rw [if_pos hp]; exact ih s h
    · rw [if_neg hp]
      by_cases hu : (match stack.plans.find? (fun q => q.planId == p) with
        | some sp => sp.dependsOnPlanIds.any (fun depId =>
            !(s.completedPlanIds.contains depId))
        | none => false) = true
      · rw [if_pos hu]
        exact ih _ (updatePlanStatus_fields _ _ _ _ _ _ _ _ _).1
      · rw [if_neg hu]
        exact ih _ (updatePlanStatus_fields _ _ _ _ _ _ _ _ _).1

theorem execLoop_isRunning (stack : Stack)
    (worker : String → ExecutePlanResult) (stackName : String)
    (planIds : List String) (now : Nat) :
    ∀ (order : List String) (s : ExecState),
    (execLoop stack worker stackName planIds now order s).status.isRunning =
      s.status.isRunning := by
  intro order
  induction order with
  | nil => intro s; rfl
  | cons p rest ih =>
    intro s
    simp only [execLoop]
    by_cases hp : p ∈ s.completedPlanIds
    · rw [if_pos hp]; exact ih s
    · rw [if_neg hp]
      by_cases hu : (match stack.plans.find? (fun q => q.planId == p) with
        | some sp => sp.dependsOnPlanIds.any (fun depId =>
            !(s.completedPlanIds.contains depId))
        | none => false) = true
      · rw [if_pos hu]
        rw [ih _]
        exact (updatePlanStatus_fields _ _ _ _ _ _ _ _ _).2
      · rw [if_neg hu]
        rw [ih _]
        rw [(updatePlanStatus_fields _ _ _ _ _ _ _ _ _).2,
          (updatePlanStatus_fields _ _ _ _ _ _ _ _ _).2]

theorem execLoop_inv (stack : Stack)
    (worker : String → ExecutePlanResult) (stackName : String)
    (planIds : List String) (now : Nat) :
    ∀ (order : List String) (s : ExecState) (x : String),
    (x ∈ s.completedPlanIds ↔
      execStatusOf s.status x = ExecutionStatus.completed) →
    (x ∈ (execLoop stack worker stackName planIds now order
        s).completedPlanIds ↔
      execStatusOf (execLoop stack worker stackName planIds now order
        s).status x = ExecutionStatus.completed) := by
  intro order
  induction order with
  | nil => intro s x h; exact h
  | cons p rest ih =>
    intro s x h
    simp only [execLoop]
    by_cases hp : p ∈ s.completedPlanIds
    · rw [if_pos hp]; exact ih s x h
    · rw [if_neg hp]
      by_cases hu : (match stack.plans.find? (fun q => q.planId == p) with
        | some sp => sp.dependsOnPlanIds.any (fun depId =>
            !(s.completedPlanIds.contains depId))
        | none => false) = true
      · rw [if_pos hu]
        refine ih _ x ?_
        by_cases hxp : x = p
        · subst hxp
          simp only [execStatusOf_update, if_pos rfl]
          constructor
          · intro hc; exact absurd hc hp
          · intro hc; cases hc
        · simp only [execStatusOf_update, if_neg hxp]
          exact h
      · rw [if_neg hu]
        refine ih _ x ?_
        by_cases hxp : x = p
        · subst hxp
          simp only [execStatusOf_update, if_pos rfl]
          by_cases hc : (worker x).executionStatus = ExecutionStatus.completed
          · simp only [if_pos hc]
            constructor
            · intro _; exact hc
            · intro _; exact List.mem_append.mpr (Or.inr (List.mem_singleton.mpr rfl))
          · simp only [if_neg hc]
            constructor
            · intro hx; exact absurd hx hp
            · intro hx; exact absurd hx hc
        · simp only [execStatusOf_update, if_neg hxp]
          by_cases hc : (worker p).executionStatus = ExecutionStatus.completed
          · simp only [if_pos hc]
            rw [← h]
            constructor
            · intro hx
              rcases List.mem_append.mp hx with hx | hx
              · exact hx
              · exact absurd (by simpa using hx) hxp
            · intro hx; exact List.mem_append.mpr (Or.inl hx)
          · simp only [if_neg hc]
            exact h

theorem execLoop_entry_keep (stack : Stack)
    (worker : String → ExecutePlanResult) (stackName : String)
    (planIds : List String) (now : Nat) :
    ∀ (order : List String) (s : ExecState) (t : String)
      (e : PlanExecutionStatus),
    t ∈ s.completedPlanIds →
    alistGet s.status.planStatuses t = some e →
    alistGet (execLoop stack worker stackName planIds now order
      s).status.planStatuses t = some e := by
  intro order
  induction order with
  | nil => intro s t e _ he; exact he
  | cons p rest ih =>
    intro s t e ht he
    simp only [execLoop]
    by_cases hp : p ∈ s.completedPlanIds
    · rw [if_pos hp]; exact ih s t e ht he
    · rw [if_neg hp]
      have htp : t ≠ p := fun hc => hp (hc ▸ ht)
      by_cases hu : (match stack.plans.find? (fun q => q.planId == p) with
        | some sp => sp.dependsOnPlanIds.any (fun depId =>
            !(s.completedPlanIds.contains depId))
        | none => false) = true
      · rw [if_pos hu]
        refine ih _ t e ht ?_
        rw [get_update_ne _ _ _ _ _ _ _ _ _ _ htp]
        exact get_load_some _ _ _ _ _ he
      · rw [if_neg hu]
        refine ih _ t e ?_ ?_
        · by_cases hc : (worker p).executionStatus = ExecutionStatus.completed
          · simp only [if_pos hc]
            exact List.mem_append.mpr (Or.inl ht)
          · simp only [if_neg hc]
            exact ht
        · rw [get_update_ne _ _ _ _ _ _ _ _ _ _ htp]
          refine get_load_some _ _ _ _ _ ?_
          rw [get_update_ne _ _ _ _ _ _ _ _ _ _ htp]
          exact get_load_some _ _ _ _ _ he

theorem execLoop_not_reinvoked (stack : Stack)
    (worker : String → ExecutePlanResult) (stackName : String)
    (planIds : List String) (now : Nat)
    (hw : ∀ p, (worker p).planId = p) :
    ∀ (order : List String) (s : ExecState) (t : String),
    t ∈ s.completedPlanIds →
    ∀ r ∈ (execLoop stack worker stackName planIds now order s).results,
    r ∈ s.results ∨ r.planId ≠ t := by
  intro order
  induction order with
  | nil => intro s t _ r hr; exact Or.inl hr
  | cons p rest ih =>
    intro s t ht r hr
    simp only [execLoop] at hr
    by_cases hp : p ∈ s.completedPlanIds
    · rw [if_pos hp] at hr
      exact ih s t ht r hr
    · rw [if_neg hp] at hr
      have htp : p ≠ t := fun hc => hp (hc ▸ ht)
      by_cases hu : (match stack.plans.find? (fun q => q.planId == p) with
        | some sp => sp.dependsOnPlanIds.any (fun depId =>
            !(s.completedPlanIds.contains depId))
        | none => false) = true
      · rw [if_pos hu] at hr
        rcases ih _ t (by exact ht) r hr with hin | hne
        · rcases List.mem_append.mp hin with hin | hin
          · exact Or.inl hin
          · refine Or.inr ?_
            have hre : r = skippedResult p := by simpa using hin
            rw [hre]
            exact htp
        · exact Or.inr hne
      · rw [if_neg hu] at hr
        have ht2 : t ∈ (if (worker p).executionStatus =
            ExecutionStatus.completed then
            s.completedPlanIds ++ [p] else s.completedPlanIds) := by
          by_cases hc : (worker p).executionStatus = ExecutionStatus.completed
          · simp only [if_pos hc]
            exact List.mem_append.mpr (Or.inl ht)
          · simp only [if_neg hc]
            exact ht
        rcases ih _ t (by exact ht2) r hr with hin | hne
        · rcases List.mem_append.mp hin with hin | hin
          · exact Or.inl hin
          · refine Or.inr ?_
            have hre : r = worker p := by simpa using hin
            rw [hre, hw p]
            exact htp
        · exact Or.inr hne

theorem execLoop_cons_done (stack : Stack)
    (worker : String → ExecutePlanResult) (stackName : String)
    (planIds : List String) (now : Nat) (p : String) (rest : List String)
    (s : ExecState) (hp : p ∈ s.completedPlanIds) :
    execLoop stack worker stackName planIds now (p :: rest) s =
      execLoop stack worker stackName planIds now rest s := by
  simp only [execLoop]
  rw [if_pos hp]

theorem execLoop_cons_skip (stack : Stack)
    (worker : String → ExecutePlanResult) (stackName : String)
    (planIds : List String) (now : Nat) (p : String) (rest : List String)
    (s : ExecState) (hp : p ∉ s.completedPlanIds)
    (hu : (match stack.plans.find? (fun q => q.planId == p) with
      | some sp => sp.dependsOnPlanIds.any (fun depId =>
          !(s.completedPlanIds.contains depId))
      | none => false) = true) :
    execLoop stack worker stackName planIds now (p :: rest) s =
      execLoop stack worker stackName planIds now rest
        { status := updatePlanStatus (some s.status) stackName planIds p
            ExecutionStatus.skipped
            (some "Skipped due to failed dependencies.") none none now
          stackPlans := updateStackPlanStatus s.stackPlans p
            ExecutionStatus.skipped none none
          results := s.results ++ [skippedResult p]
          completedPlanIds := s.completedPlanIds } := by
  simp only [execLoop]
  rw [if_neg hp, if_pos hu]

theorem execLoop_cons_invoke (stack : Stack)
    (worker : String → ExecutePlanResult) (stackName : String)
    (planIds : List String) (now : Nat) (p : String) (rest : List String)
    (s : ExecState) (hp : p ∉ s.completedPlanIds)
    (hu : ¬ (match stack.plans.find? (fun q => q.planId == p) with
      | some sp => sp.dependsOnPlanIds.any (fun depId =>
          !(s.completedPlanIds.contains depId))
      | none => false) = true) :
    execLoop stack worker stackName planIds now (p :: rest) s =
      execLoop stack worker stackName planIds now rest
        { status := updatePlanStatus
            (some (updatePlanStatus (some s.status) stackName planIds p
              ExecutionStatus.running none none none now))
            stackName planIds p
            (worker p).executionStatus (worker p).errorMessage
            (worker p).exitCode (some (worker p).executionDurationMs) now
          stackPlans := updateStackPlanStatus
            (updateStackPlanStatus s.stackPlans p ExecutionStatus.running
              none none) p (worker p).executionStatus
            (some (some now)) (some (some (worker p).executionDurationMs))
          results := s.results ++ [worker p]
          completedPlanIds :=
            if (worker p).executionStatus = ExecutionStatus.completed then
              s.completedPlanIds ++ [p]
            else s.completedPlanIds } := by
  simp only [execLoop]
  rw [if_neg hp, if_neg hu]

theorem execLoop_skip (stack : Stack)
    (worker : String → ExecutePlanResult) (stackName : String)
    (planIds : List String) (now : Nat) :
    ∀ (order : List String) (s : ExecState) (t : String) (spT : StackPlan),
    order.Nodup → t ∈ order → t ∉ s.completedPlanIds →
    stack.plans.find? (fun q => q.planId == t) = some spT →
    (∃ d ∈ spT.dependsOnPlanIds,
      d ∉ (execLoop stack worker stackName planIds now order
        s).completedPlanIds) →
    execStatusOf (execLoop stack worker stackName planIds now order
        s).status t = ExecutionStatus.skipped ∧
    errMsgOf (execLoop stack worker stackName planIds now order
        s).status t = some "Skipped due to failed dependencies." ∧
    t ∉ (execLoop stack worker stackName planIds now order
        s).completedPlanIds := by
  intro order
  induction order with
  | nil => intro s t spT _ ht; cases ht
  | cons p rest ih =>
    intro s t spT hnodup ht ht0 hfind hd
    have hnodup' : rest.Nodup := hnodup.of_cons
    by_cases htp : t = p
    · subst htp
      have hp : t ∉ s.completedPlanIds := ht0
      have htr : t ∉ rest := (List.nodup_cons.mp hnodup).1
      have hmatch : (match stack.plans.find? (fun q => q.planId == t) with
        | some sp => sp.dependsOnPlanIds.any (fun depId =>
            !(s.completedPlanIds.contains depId))
        | none => false) =
          spT.dependsOnPlanIds.any (fun depId =>
            !(s.completedPlanIds.contains depId)) := by rw [hfind]
      by_cases hu : spT.dependsOnPlanIds.any (fun depId =>
          !(s.completedPlanIds.contains depId)) = true
      · have hu' : (match stack.plans.find? (fun q => q.planId == t) with
          | some sp => sp.dependsOnPlanIds.any (fun depId =>
              !(s.completedPlanIds.contains depId))
          | none => false) = true := by rw [hmatch]; exact hu
        rw [execLoop_cons_skip stack worker stackName planIds now t rest s hp hu']
        obtain ⟨h1, h2⟩ := execLoop_status_other stack worker stackName planIds
          now rest _ t htr
        refine ⟨?_, ?_, ?_⟩
        · rw [h1]
          rw [execStatusOf_update]
          simp
        · rw [h2]
          rw [errMsgOf_update]
          simp
        · rw [execLoop_completed_settle stack worker stackName planIds now
            rest _ t htr]
          exact hp
      · exfalso
        have hall : ∀ d ∈ spT.dependsOnPlanIds, d ∈ s.completedPlanIds := by
          intro d hdm
          by_contra hdn
          apply hu
          refine List.any_eq_true.mpr ⟨d, hdm, ?_⟩
          simp [hdn]
        obtain ⟨d, hdm, hdn⟩ := hd
        apply hdn
        have hu' : ¬ (match stack.plans.find? (fun q => q.planId == t) with
          | some sp => sp.dependsOnPlanIds.any (fun depId =>
              !(s.completedPlanIds.contains depId))
          | none => false) = true := by rw [hmatch]; exact hu
        rw [execLoop_cons_invoke stack worker stackName planIds now t rest s
          hp hu']
        apply execLoop_completed_mono
        show d ∈ (if (worker t).executionStatus = ExecutionStatus.completed
          then s.completedPlanIds ++ [t] else s.completedPlanIds)
        by_cases hc : (worker t).executionStatus = ExecutionStatus.completed
        · rw [if_pos hc]
          exact List.mem_append.mpr (Or.inl (hall d hdm))
        · rw [if_neg hc]
          exact hall d hdm
    · have htr : t ∈ rest := by
        rcases List.mem_cons.mp ht with h | h
        · exact absurd h htp
        · exact h
      by_cases hp : p ∈ s.completedPlanIds
      · rw [execLoop_cons_done stack worker stackName planIds now p rest s hp]
          at hd ⊢
        exact ih s t spT hnodup' htr ht0 hfind hd
      · by_cases hu : (match stack.plans.find? (fun q => q.planId == p) with
          | some sp => sp.dependsOnPlanIds.any (fun depId =>
              !(s.completedPlanIds.contains depId))
          | none => false) = true
        · rw [execLoop_cons_skip stack worker stackName planIds now p rest s
            hp hu] at hd ⊢
          exact ih _ t spT hnodup' htr (by exact ht0) hfind hd
        · rw [execLoop_cons_invoke stack worker stackName planIds now p rest s
            hp hu] at hd ⊢
          refine ih _ t spT hnodup' htr ?_ hfind hd
          show t ∉ (if (worker p).executionStatus = ExecutionStatus.completed
            then s.completedPlanIds ++ [p] else s.completedPlanIds)
          by_cases hc : (worker p).executionStatus = ExecutionStatus.completed
          · rw [if_pos hc]
            intro hmem
            rcases List.mem_append.mp hmem with hmem | hmem
            · exact ht0 hmem
            · exact htp (by simpa using hmem)
          · rw [if_neg hc]
            exact ht0

theorem execLoop_invoke (stack : Stack)
    (worker : String → ExecutePlanResult) (stackName : String)
    (planIds : List String) (now : Nat) :
    ∀ (order : List String) (s : ExecState) (t : String) (spT : StackPlan),
    order.Nodup → t ∈ order → t ∉ s.completedPlanIds →
    stack.plans.find? (fun q => q.planId == t) = some spT →
    (∀ d ∈ spT.dependsOnPlanIds, d ∈ s.completedPlanIds) →
    worker t ∈ (execLoop stack worker stackName planIds now order
      s).results ∧
    execStatusOf (execLoop stack worker stackName planIds now order
      s).status t = (worker t).executionStatus ∧
    errMsgOf (execLoop stack worker stackName planIds now order
      s).status t = (worker t).errorMessage ∧
    (t ∈ (execLoop stack worker stackName planIds now order
        s).completedPlanIds ↔
      (worker t).executionStatus = ExecutionStatus.completed) := by
  intro order
  induction order with
  | nil => intro s t spT _ ht; cases ht
  | cons p rest ih =>
    intro s t spT hnodup ht ht0 hfind hdeps
    have hnodup' : rest.Nodup := hnodup.of_cons
    by_cases htp : t = p
    · subst htp
      have hp : t ∉ s.completedPlanIds := ht0
      have htr : t ∉ rest := (List.nodup_cons.mp hnodup).1
      have hmatch : (match stack.plans.find? (fun q => q.planId == t) with
        | some sp => sp.dependsOnPlanIds.any (fun depId =>
            !(s.completedPlanIds.contains depId))
        | none => false) =
          spT.dependsOnPlanIds.any (fun depId =>
            !(s.completedPlanIds.contains depId)) := by rw [hfind]
      have hu : ¬ (match stack.plans.find? (fun q => q.planId == t) with
        | some sp => sp.dependsOnPlanIds.any (fun depId =>
            !(s.completedPlanIds.contains depId))
        | none => false) = true := by
        rw [hmatch]
        intro hc
        obtain ⟨d, hdm, hdc⟩ := List.any_eq_true.mp hc
        have : d ∉ s.completedPlanIds := by simpa using hdc
        exact this (hdeps d hdm)
      rw [execLoop_cons_invoke stack worker stackName planIds now t rest s
        hp hu]
      obtain ⟨h1, h2⟩ := execLoop_status_other stack worker stackName planIds
        now rest _ t htr
      refine ⟨?_, ?_, ?_, ?_⟩
      · apply execLoop_results_mono
        show worker t ∈ s.results ++ [worker t]
        exact List.mem_append.mpr (Or.inr (List.mem_singleton.mpr rfl))
      · rw [h1]
        rw [execStatusOf_update]
        simp
      · rw [h2]
        rw [errMsgOf_update]
        simp
      · rw [execLoop_completed_settle stack worker stackName planIds now
          rest _ t htr]
        show t ∈ (if (worker t).executionStatus = ExecutionStatus.completed
          then s.completedPlanIds ++ [t] else s.completedPlanIds) ↔ _
        by_cases hc : (worker t).executionStatus = ExecutionStatus.completed
        · rw [if_pos hc]
          constructor
          · intro _; exact hc
          · intro _
            exact List.mem_append.mpr (Or.inr (List.mem_singleton.mpr rfl))
        · rw [if_neg hc]
          constructor
          · intro hmem; exact absurd hmem hp
          · intro hmem; exact absurd hmem hc
    · have htr : t ∈ rest := by
        rcases List.mem_cons.mp ht with h | h
        · exact absurd h htp
        · exact h
      by_cases hp : p ∈ s.completedPlanIds
      · rw [execLoop_cons_done stack worker stackName planIds now p rest s hp]
        exact ih s t spT hnodup' htr ht0 hfind hdeps
      · by_cases hu : (match stack.plans.find? (fun q => q.planId == p) with
          | some sp => sp.dependsOnPlanIds.any (fun depId =>
              !(s.completedPlanIds.contains depId))
          | none => false) = true
        · rw [execLoop_cons_skip stack worker stackName planIds now p rest s
            hp hu]
          exact ih _ t spT hnodup' htr (by exact ht0) hfind (by exact hdeps)
        · rw [execLoop_cons_invoke stack worker stackName planIds now p rest s
            hp hu]
          refine ih _ t spT hnodup' htr ?_ hfind ?_
          · show t ∉ (if (worker p).executionStatus = ExecutionStatus.completed
              then s.completedPlanIds ++ [p] else s.completedPlanIds)
            by_cases hc : (worker p).executionStatus = ExecutionStatus.completed
            · rw [if_pos hc]
              intro hmem
              rcases List.mem_append.mp hmem with hmem | hmem
              · exact ht0 hmem
              · exact htp (by simpa using hmem)
            · rw [if_neg hc]
              exact ht0
          · intro d hdm
            show d ∈ (if (worker p).executionStatus = ExecutionStatus.completed
              then s.completedPlanIds ++ [p] else s.completedPlanIds)
            by_cases hc : (worker p).executionStatus = ExecutionStatus.completed
            · rw [if_pos hc]
              exact List.mem_append.mpr (Or.inl (hdeps d hdm))
            · rw [if_neg hc]
              exact hdeps d hdm

/-! ## The non-dry run of `executeStack`, named for reuse -/

/-- The status record persisted by the run-start write
(`setStackRunning(..., true)`) inside `executeStack`. -/
def runStartStatus (stack : Stack) (stored : Option StackExecutionStatus)
    (now : Nat) : StackExecutionStatus :=
  setStackRunning stored stack.stackName (stack.plans.map (·.planId)) true now

/-- The executor's state just before the loop over the execution order:
the run-start status, the stack's plans, no results, and the satisfied
set seeded with every plan whose persisted status is `completed`. -/
def runInitState (stack : Stack) (stored : Option StackExecutionStatus)
    (now : Nat) : ExecState :=
  { status := runStartStatus stack stored now
    stackPlans := stack.plans
    results := []
    completedPlanIds := stack.plans.filterMap (fun sp =>
      match alistGet (loadStackStatus (some (runStartStatus stack stored now))
          stack.stackName (stack.plans.map (·.planId))).planStatuses
          sp.planId with
      | some ps =>
        if ps.executionStatus = ExecutionStatus.completed then some sp.planId
        else none
      | none => none) }

/-- The executor's state after the loop over `order`. -/
def runFinalState (stack : Stack) (stored : Option StackExecutionStatus)
    (worker : String → ExecutePlanResult) (order : List String) (now : Nat) :
    ExecState :=
  execLoop stack worker stack.stackName (stack.plans.map (·.planId)) now
    order (runInitState stack stored now)

theorem execStatusOf_setStackRunning (stored : Option StackExecutionStatus)
    (sn : String) (pids : List String) (b : Bool) (now : Nat) (x : String) :
    execStatusOf (setStackRunning stored sn pids b now) x =
      execStatusOf (loadStackStatus stored sn pids) x := rfl

theorem executeStack_run (stack : Stack)
    (stored : Option StackExecutionStatus)
    (worker : String → ExecutePlanResult) (now : Nat)
    (hnc : (getExecutionOrder stack.plans).hasCycle = false) :
    executeStack (some stack) stored worker false none now =
      Except.ok
        { results := (runFinalState stack stored worker
            (getExecutionOrder stack.plans).sortedPlanIds now).results
          executionOrder := (getExecutionOrder stack.plans).sortedPlanIds
          finalStatus := some (setStackRunning
            (some (runFinalState stack stored worker
              (getExecutionOrder stack.plans).sortedPlanIds now).status)
            stack.stackName (stack.plans.map (·.planId)) false now)
          finalStackPlans := (runFinalState stack stored worker
            (getExecutionOrder stack.plans).sortedPlanIds now).stackPlans } := by
  simp only [executeStack]
  rw [if_neg (show ¬ (getExecutionOrder stack.plans).hasCycle = true by
    simp [hnc])]
  rw [if_neg (show ¬ optTruthy none = true by decide)]
  rw [if_neg (show ¬ false = true by decide)]
  rfl

theorem runInitState_completed (stack : Stack)
    (stored : Option StackExecutionStatus) (now : Nat) (x : String) :
    x ∈ (runInitState stack stored now).completedPlanIds ↔
      (x ∈ stack.plans.map (·.planId) ∧
       execStatusOf (runStartStatus stack stored now) x =
         ExecutionStatus.completed) := by
  have hload : ∀ y, execStatusOf (loadStackStatus
      (some (runStartStatus stack stored now)) stack.stackName
      (stack.plans.map (·.planId))) y =
      execStatusOf (runStartStatus stack stored now) y := fun y =>
    execStatusOf_load _ _ _ y
  show x ∈ stack.plans.filterMap _ ↔ _
  rw [List.mem_filterMap]
  constructor
  · rintro ⟨sp, hsp, hf⟩
    cases hget : alistGet (loadStackStatus
        (some (runStartStatus stack stored now)) stack.stackName
        (stack.plans.map (·.planId))).planStatuses sp.planId with
    | none => simp only [hget] at hf; cases hf
    | some ps =>
      simp only [hget] at hf
      by_cases hc : ps.executionStatus = ExecutionStatus.completed
      · rw [if_pos hc] at hf
        have hx : sp.planId = x := by simpa using hf
        subst hx
        refine ⟨List.mem_map.mpr ⟨sp, hsp, rfl⟩, ?_⟩
        rw [← hload sp.planId]
        unfold execStatusOf
        rw [hget]
        exact hc
      · rw [if_neg hc] at hf; cases hf
  · rintro ⟨hmem, hst⟩
    obtain ⟨sp, hsp, hx⟩ := List.mem_map.mp hmem
    refine ⟨sp, hsp, ?_⟩
    rw [hx]
    have hst' : execStatusOf (loadStackStatus
        (some (runStartStatus stack stored now)) stack.stackName
        (stack.plans.map (·.planId))) x = ExecutionStatus.completed := by
      rw [hload x]; exact hst
    cases hget : alistGet (loadStackStatus
        (some (runStartStatus stack stored now)) stack.stackName
        (stack.plans.map (·.planId))).planStatuses x with
    | none =>
      exfalso
      unfold execStatusOf at hst'
      simp only [hget] at hst'
      cases hst'
    | some ps =>
      unfold execStatusOf at hst'
      simp only [hget] at hst'
      simp only [hget, if_pos hst']

theorem setStackRunning_false_lastRunAt (st : StackExecutionStatus)
    (sn : String) (pids : List String) (now : Nat) :
    (setStackRunning (some st) sn pids false now).lastRunAt = st.lastRunAt := by
  rw [(setStackRunning_fields st sn pids false now).2.1]
  simp

/-! ## Claim C3 -/

/-- C3 (amended): a normal non-dry run ends with the persisted `isRunning`
flag false, and `lastRunAt` carries the run's timestamp because it was
stamped at the run-start write and on every per-task write — the run-end
`setStackRunning(false)` transition itself leaves `lastRunAt` untouched;
a run aborted on cycle detection throws without producing any final
status. -/
theorem c3_run_end_flags (stack : Stack)
    (stored : Option StackExecutionStatus)
    (worker : String → ExecutePlanResult) (now : Nat) :
    ((getExecutionOrder stack.plans).hasCycle = false →
      ∃ out, executeStack (some stack) stored worker false none now =
          Except.ok out ∧
        ∃ st2, out.finalStatus = some st2 ∧
          st2.isRunning = false ∧ st2.lastRunAt = some now) ∧
    ((getExecutionOrder stack.plans).hasCycle = true →
      ∃ e, executeStack (some stack) stored worker false none now =
        Except.error e) ∧
    (∀ st : StackExecutionStatus,
      (setStackRunning (some st) stack.stackName
        (stack.plans.map (·.planId)) false now).lastRunAt = st.lastRunAt) := by
  refine ⟨?_, ?_, ?_⟩
  · intro hnc
    refine ⟨_, executeStack_run stack stored worker now hnc, _, rfl, rfl, ?_⟩
    have h1 : (runFinalState stack stored worker
        (getExecutionOrder stack.plans).sortedPlanIds now).status.lastRunAt =
        some now := by
      refine execLoop_lastRunAt stack worker stack.stackName
        (stack.plans.map (·.planId)) now _ _ ?_
      rfl
    rw [setStackRunning_false_lastRunAt]
    exact h1
  · intro hc
    refine ⟨"Dependency cycle detected: " ++
      (match (getExecutionOrder stack.plans).cycleNodes with
       | some c => String.intercalate " -> " c
       | none => "unknown"), ?_⟩
    simp only [executeStack]
    rw [if_pos hc]
  · intro st
    exact setStackRunning_false_lastRunAt st _ _ now

/-- Witness for C3: a two-plan acyclic stack run at time 5 ends not
running with `lastRunAt = some 5`; the self-cycle stack throws; the
run-end transition alone preserves a stored `lastRunAt`. -/
theorem c3_run_end_flags_witness :
    (∃ out, executeStack (some stkAB) none workerOk false none 5 =
        Except.ok out ∧
      ∃ st2, out.finalStatus = some st2 ∧
        st2.isRunning = false ∧ st2.lastRunAt = some 5) ∧
    (∃ e, executeStack (some stkSelfCycle) none workerOk false none 5 =
      Except.error e) ∧
    ((setStackRunning (some stBusy) stkAB.stackName
      (stkAB.plans.map (·.planId)) false 5).lastRunAt = stBusy.lastRunAt) :=
  ⟨(c3_run_end_flags stkAB none workerOk 5).1 (by decide),
   (c3_run_end_flags stkSelfCycle none workerOk 5).2.1 (by decide),
   (c3_run_end_flags stkAB none workerOk 5).2.2 stBusy⟩

/-! ## Claim C2 -/

/-- C2 (amended): the single-run guard lives in the CLI `runCommand`
— with the persisted `isRunning` flag true it returns "already running"
leaving the stored status untouched and producing no results — while
`executeStack` itself has no guard: invoked directly on an acyclic stack
it proceeds regardless of the flag, and its run-start write
(`setStackRunning(..., true)`) persists `isRunning = true` and stamps
`lastRunAt` before any task is processed. -/
theorem c2_guard_location (stack : Stack) (st : StackExecutionStatus)
    (opts : RunOptions) (worker : String → ExecutePlanResult) (now : Nat) :
    (st.isRunning = true →
      runCommand (some stack) (some st) opts worker now =
        (RunOutcome.alreadyRunning, some st, [])) ∧
    ((getExecutionOrder stack.plans).hasCycle = false →
      ∃ out, executeStack (some stack) (some st) worker false none now =
        Except.ok out) ∧
    (runStartStatus stack (some st) now).isRunning = true ∧
    (runStartStatus stack (some st) now).lastRunAt = some now := by
  refine ⟨?_, ?_, rfl, rfl⟩
  · intro hrun
    simp only [runCommand, getStackExecutionStatus]
    have hcond : (Option.map (fun x => x.isRunning)
        (some (loadStackStatus (some st) stack.stackName
          (stack.plans.map (·.planId))))).getD false = true := by
      show (loadStackStatus (some st) stack.stackName
        (stack.plans.map (·.planId))).isRunning = true
      rw [(load_fields st stack.stackName (stack.plans.map (·.planId))).2]
      exact hrun
    rw [if_pos hcond]
  · intro hnc
    exact ⟨_, executeStack_run stack (some st) worker now hnc⟩

/-- Witness for C2: with the busy stored record, `runCommand` refuses but
a direct `executeStack` succeeds, and the run-start write flags the
status running with `lastRunAt = some 5`. -/
theorem c2_guard_location_witness :
    (runCommand (some stkAB) (some stBusy)
        { dryRun := false, fromPlan := none, reset := false } workerOk 5 =
      (RunOutcome.alreadyRunning, some stBusy, [])) ∧
    (∃ out, executeStack (some stkAB) (some stBusy) workerOk false none 5 =
      Except.ok out) ∧
    (runStartStatus stkAB (some stBusy) 5).isRunning = true ∧
    (runStartStatus stkAB (some stBusy) 5).lastRunAt = some 5 :=
  ⟨(c2_guard_location stkAB stBusy
      { dryRun := false, fromPlan := none, reset := false } workerOk 5).1
      (by decide),
   (c2_guard_location stkAB stBusy
      { dryRun := false, fromPlan := none, reset := false } workerOk 5).2.1
      (by decide),
   (c2_guard_location stkAB stBusy
      { dryRun := false, fromPlan := none, reset := false } workerOk 5).2.2.1,
   (c2_guard_location stkAB stBusy
      { dryRun := false, fromPlan := none, reset := false } workerOk 5).2.2.2⟩

/-! ## Claim C10 -/

theorem drop_length_sub_one {α : Type} :
    ∀ (l : List α) (x : α), l.getLast? = some x →
    l.drop (l.length - 1) = [x] := by
  intro l
  induction l with
  | nil => intro x h; cases h
  | cons a t ih =>
    intro x h
    cases t with
    | nil =>
      have : a = x := by simpa using h
      subst this
      rfl
    | cons b t' =>
      have hlen : (a :: b :: t').length - 1 = (b :: t').length - 1 + 1 := by
        simp
      rw [hlen]
      rw [List.drop_succ_cons]
      refine ih x ?_
      rw [← List.getLast?_cons_cons]
      exact h

theorem jsSlice_neg_one {α : Type} (l : List α) (x : α)
    (h : l.getLast? = some x) : jsSlice l (-1) = [x] := by
  have hne : l ≠ [] := by
    intro hc; subst hc; cases h
  have hlen : 1 ≤ l.length := List.length_pos.mpr hne
  unfold jsSlice
  rw [if_pos (by decide)]
  have hmax : (max ((l.length : Int) + -1) 0).toNat = l.length - 1 := by
    omega
  rw [hmax]
  exact drop_length_sub_one l x h

theorem jsIndexOf_neg (l : List String) (x : String) (h : x ∉ l) :
    jsIndexOf l x = -1 := by
  unfold jsIndexOf
  rw [if_neg h]

/-- C10 (amended): a nonempty `fromPlanId` absent from the sorted order
truncates the execution order to exactly the final element of the sorted
order (`indexOf` gives `-1` and `slice(-1)` keeps the last element), while
an empty-string `fromPlanId` is falsy and the run is identical to one with
no `fromPlanId` at all. -/
theorem c10_from_not_found (stack : Stack)
    (stored : Option StackExecutionStatus)
    (worker : String → ExecutePlanResult) (now : Nat) (f x : String)
    (hnc : (getExecutionOrder stack.plans).hasCycle = false)
    (hf : f ≠ "")
    (hmem : f ∉ (getExecutionOrder stack.plans).sortedPlanIds)
    (hlast : (getExecutionOrder stack.plans).sortedPlanIds.getLast? =
      some x) :
    (∃ out, executeStack (some stack) stored worker false (some f) now =
      Except.ok out ∧ out.executionOrder = [x]) ∧
    executeStack (some stack) stored worker false (some "") now =
      executeStack (some stack) stored worker false none now := by
  constructor
  · have htr : optTruthy (some f) = true := by
      simp [optTruthy, hf]
    simp only [executeStack]
    rw [if_neg (show ¬ (getExecutionOrder stack.plans).hasCycle = true by
      simp [hnc])]
    rw [if_pos htr]
    simp only [Option.getD_some]
    rw [jsIndexOf_neg _ _ hmem]
    rw [jsSlice_neg_one _ x hlast]
    rw [if_neg (show ¬ false = true by decide)]
    exact ⟨_, rfl, rfl⟩
  · rfl

/-- Witness for C10: with plans `a`, `b` and the absent plan id `zz`, the
run attempts exactly `["b"]`, while `fromPlanId = ""` behaves like no
`fromPlanId`. -/
theorem c10_from_not_found_witness :
    ((getExecutionOrder stkAB.plans).hasCycle = false ∧
     ("zz" : String) ≠ "" ∧
     "zz" ∉ (getExecutionOrder stkAB.plans).sortedPlanIds ∧
     (getExecutionOrder stkAB.plans).sortedPlanIds.getLast? = some "b") ∧
    ((∃ out, executeStack (some stkAB) none workerOk false (some "zz") 5 =
        Except.ok out ∧ out.executionOrder = ["b"]) ∧
     executeStack (some stkAB) none workerOk false (some "") 5 =
       executeStack (some stkAB) none workerOk false none 5) :=
  ⟨⟨by decide, by decide, by decide, by decide⟩,
   c10_from_not_found stkAB none workerOk 5 "zz" "b" (by decide) (by decide)
     (by decide) (by decide)⟩

/-! ## Claims C6 and C7: run-level helpers -/

theorem execStatusOf_setStackRunning_some (st : StackExecutionStatus)
    (sn : String) (pids : List String) (b : Bool) (now : Nat) (x : String) :
    execStatusOf (setStackRunning (some st) sn pids b now) x =
      execStatusOf st x := by
  rw [execStatusOf_setStackRunning, execStatusOf_load]

theorem errMsgOf_setStackRunning_some (st : StackExecutionStatus)
    (sn : String) (pids : List String) (b : Bool) (now : Nat) (x : String) :
    errMsgOf (setStackRunning (some st) sn pids b now) x = errMsgOf st x := by
  have h : errMsgOf (setStackRunning (some st) sn pids b now) x =
      errMsgOf (loadStackStatus (some st) sn pids) x := rfl
  rw [h, errMsgOf_load]

theorem run_order_facts (sps : List StackPlan) (hwf : StackPlansWF sps)
    (hacyc : ¬ Cyclic (execGraph sps)) :
    (getExecutionOrder sps).hasCycle = false ∧
    (getExecutionOrder sps).sortedPlanIds.Nodup ∧
    (∀ x, x ∈ (getExecutionOrder sps).sortedPlanIds ↔
      x ∈ sps.map (·.planId)) := by
  obtain ⟨h1, h2, h3, _⟩ :=
    topologicalSort_correct (execGraph sps) (execGraph_wf sps hwf) hacyc
  have hge : getExecutionOrder sps = topologicalSort (execGraph sps) := rfl
  rw [hge]
  refine ⟨h1, h2, fun x => ?_⟩
  rw [h3 x, execGraph_keys]

/-! ## Claim C6 -/

/-- C6: in any run of a well-formed acyclic stack whose final status marks
task `a` failed, a task `B` whose only dependency is `a` ends `skipped`
(never added to the satisfied set) with the unmet-dependency message, a
task `C` whose only dependency is `B` is skipped transitively with the same
message, and a task `D` with no dependencies is still executed, its worker
result recorded. -/
theorem c6_failure_skips_dependents (stack : Stack)
    (stored : Option StackExecutionStatus)
    (worker : String → ExecutePlanResult) (now : Nat)
    (hwf : StackPlansWF stack.plans)
    (hacyc : ¬ Cyclic (execGraph stack.plans))
    (a : String) (ha : a ∈ stack.plans.map (·.planId))
    (spB spC spD : StackPlan)
    (hBmem : spB ∈ stack.plans) (hCmem : spC ∈ stack.plans)
    (hDmem : spD ∈ stack.plans)
    (hBdep : spB.dependsOnPlanIds = [a])
    (hCdep : spC.dependsOnPlanIds = [spB.planId])
    (hDdep : spD.dependsOnPlanIds = [])
    (hB0 : execStatusOf (loadStackStatus stored stack.stackName
      (stack.plans.map (·.planId))) spB.planId ≠ ExecutionStatus.completed)
    (hC0 : execStatusOf (loadStackStatus stored stack.stackName
      (stack.plans.map (·.planId))) spC.planId ≠ ExecutionStatus.completed)
    (hD0 : execStatusOf (loadStackStatus stored stack.stackName
      (stack.plans.map (·.planId))) spD.planId ≠ ExecutionStatus.completed) :
    ∃ out, executeStack (some stack) stored worker false none now =
      Except.ok out ∧
    ∃ st2, out.finalStatus = some st2 ∧
    (execStatusOf st2 a = ExecutionStatus.failed →
      execStatusOf st2 spB.planId = ExecutionStatus.skipped ∧
      errMsgOf st2 spB.planId = some "Skipped due to failed dependencies." ∧
      execStatusOf st2 spC.planId = ExecutionStatus.skipped ∧
      errMsgOf st2 spC.planId = some "Skipped due to failed dependencies." ∧
      worker spD.planId ∈ out.results ∧
      execStatusOf st2 spD.planId = (worker spD.planId).executionStatus) := by
  obtain ⟨hnc, hnd, hiff⟩ := run_order_facts stack.plans hwf hacyc
  refine ⟨_, executeStack_run stack stored worker now hnc, _, rfl, ?_⟩
  intro hA
  rw [execStatusOf_setStackRunning_some] at hA
  have hinv : ∀ x, x ∈ stack.plans.map (·.planId) →
      (x ∈ (runFinalState stack stored worker
          (getExecutionOrder stack.plans).sortedPlanIds now).completedPlanIds ↔
        execStatusOf (runFinalState stack stored worker
          (getExecutionOrder stack.plans).sortedPlanIds now).status x =
          ExecutionStatus.completed) := by
    intro x hx
    refine execLoop_inv stack worker stack.stackName
      (stack.plans.map (·.planId)) now
      (getExecutionOrder stack.plans).sortedPlanIds
      (runInitState stack stored now) x ?_
    constructor
    · intro hseed
      exact ((runInitState_completed stack stored now x).mp hseed).2
    · intro hst
      exact (runInitState_completed stack stored now x).mpr ⟨hx, hst⟩
  have hAnot : a ∉ (runFinalState stack stored worker
      (getExecutionOrder stack.plans).sortedPlanIds now).completedPlanIds := by
    intro hc
    exact absurd (hA.symm.trans ((hinv a ha).mp hc)) (by decide)
  have hBnotseed : spB.planId ∉
      (runInitState stack stored now).completedPlanIds := by
    intro hc
    exact hB0 ((runInitState_completed stack stored now spB.planId).mp hc).2
  have hCnotseed : spC.planId ∉
      (runInitState stack stored now).completedPlanIds := by
    intro hc
    exact hC0 ((runInitState_completed stack stored now spC.planId).mp hc).2
  have hDnotseed : spD.planId ∉
      (runInitState stack stored now).completedPlanIds := by
    intro hc
    exact hD0 ((runInitState_completed stack stored now spD.planId).mp hc).2
  have hBorder : spB.planId ∈ (getExecutionOrder stack.plans).sortedPlanIds :=
    (hiff spB.planId).mpr (List.mem_map.mpr ⟨spB, hBmem, rfl⟩)
  have hCorder : spC.planId ∈ (getExecutionOrder stack.plans).sortedPlanIds :=
    (hiff spC.planId).mpr (List.mem_map.mpr ⟨spC, hCmem, rfl⟩)
  have hDorder : spD.planId ∈ (getExecutionOrder stack.plans).sortedPlanIds :=
    (hiff spD.planId).mpr (List.mem_map.mpr ⟨spD, hDmem, rfl⟩)
  have hskipB := execLoop_skip stack worker stack.stackName
    (stack.plans.map (·.planId)) now
    (getExecutionOrder stack.plans).sortedPlanIds
    (runInitState stack stored now) spB.planId spB hnd hBorder hBnotseed
    (stackPlan_find_of_nodup stack.plans hwf.1 spB hBmem)
    ⟨a, by rw [hBdep]; exact List.mem_singleton.mpr rfl, by exact hAnot⟩
  have hskipC := execLoop_skip stack worker stack.stackName
    (stack.plans.map (·.planId)) now
    (getExecutionOrder stack.plans).sortedPlanIds
    (runInitState stack stored now) spC.planId spC hnd hCorder hCnotseed
    (stackPlan_find_of_nodup stack.plans hwf.1 spC hCmem)
    ⟨spB.planId, by rw [hCdep]; exact List.mem_singleton.mpr rfl,
      by exact hskipB.2.2⟩
  have hinvD := execLoop_invoke stack worker stack.stackName
    (stack.plans.map (·.planId)) now
    (getExecutionOrder stack.plans).sortedPlanIds
    (runInitState stack stored now) spD.planId spD hnd hDorder hDnotseed
    (stackPlan_find_of_nodup stack.plans hwf.1 spD hDmem)
    (by rw [hDdep]; intro d hd; cases hd)
  refine ⟨?_, ?_, ?_, ?_, ?_, ?_⟩
  · rw [execStatusOf_setStackRunning_some]
    exact hskipB.1
  · rw [errMsgOf_setStackRunning_some]
    exact hskipB.2.1
  · rw [execStatusOf_setStackRunning_some]
    exact hskipC.1
  · rw [errMsgOf_setStackRunning_some]
    exact hskipC.2.1
  · exact hinvD.1
  · rw [execStatusOf_setStackRunning_some]
    exact hinvD.2.1

/-- Plans `a`, `b` (needs `a`), `c` (needs `b`), `d` (independent). -/
def failPlans : List StackPlan :=
  [mkStackPlan "a" [], mkStackPlan "b" ["a"], mkStackPlan "c" ["b"],
   mkStackPlan "d" []]

/-- The stack over `failPlans`. -/
def stkFail : Stack := mkStack failPlans

/-- A worker that fails plan `a` (exit 1) and completes everything else. -/
def workerFailA : String → ExecutePlanResult := fun p =>
  if p = "a" then
    { planId := p
      executionStatus := ExecutionStatus.failed
      exitCode := some 1
      errorMessage := some "Process exited with code 1"
      executionDurationMs := 1
      output := "" }
  else
    { planId := p
      executionStatus := ExecutionStatus.completed
      exitCode := some 0
      errorMessage := none
      executionDurationMs := 1
      output := "" }

/-- Witness for C6: with `a` failing, `b` and (transitively) `c` end
skipped with the unmet-dependency message while the independent `d` is
executed. -/
theorem c6_failure_skips_dependents_witness :
    StackPlansWF stkFail.plans ∧
    (∃ out, executeStack (some stkFail) none workerFailA false none 5 =
        Except.ok out ∧
      ∃ st2, out.finalStatus = some st2 ∧
      (execStatusOf st2 "a" = ExecutionStatus.failed →
        execStatusOf st2 "b" = ExecutionStatus.skipped ∧
        errMsgOf st2 "b" = some "Skipped due to failed dependencies." ∧
        execStatusOf st2 "c" = ExecutionStatus.skipped ∧
        errMsgOf st2 "c" = some "Skipped due to failed dependencies." ∧
        workerFailA "d" ∈ out.results ∧
        execStatusOf st2 "d" = (workerFailA "d").executionStatus)) :=
  ⟨by decide,
   c6_failure_skips_dependents stkFail none workerFailA 5 (by decide)
     (not_cyclic_of_flag_false _ (by decide)) "a" (by decide)
     (mkStackPlan "b" ["a"]) (mkStackPlan "c" ["b"]) (mkStackPlan "d" [])
     (by decide) (by decide) (by decide) rfl rfl rfl
     (by decide) (by decide) (by decide)⟩

/-! ## Claim C7 -/

/-- C7: resuming over persisted statuses, a task whose persisted status is
`completed` is seeded into the satisfied set, never re-invoked (no worker
result carries its id), and its stored status entry is byte-for-byte
unchanged after the run; a task previously `failed` or `skipped` all of
whose dependencies are persisted `completed` is invoked again and its
final status is whatever the worker returns. -/
theorem c7_resume_semantics (stack : Stack)
    (stored : Option StackExecutionStatus)
    (worker : String → ExecutePlanResult) (now : Nat)
    (hwf : StackPlansWF stack.plans)
    (hacyc : ¬ Cyclic (execGraph stack.plans))
    (hw : ∀ p, (worker p).planId = p)
    (spT : StackPlan) (hTmem : spT ∈ stack.plans) :
    ∃ out, executeStack (some stack) stored worker false none now =
      Except.ok out ∧
    ∃ st2, out.finalStatus = some st2 ∧
    ((execStatusOf (loadStackStatus stored stack.stackName
        (stack.plans.map (·.planId))) spT.planId =
          ExecutionStatus.completed →
      spT.planId ∈ (runInitState stack stored now).completedPlanIds ∧
      (∀ r ∈ out.results, r.planId ≠ spT.planId) ∧
      (∃ e, alistGet (loadStackStatus stored stack.stackName
          (stack.plans.map (·.planId))).planStatuses spT.planId = some e ∧
        alistGet st2.planStatuses spT.planId = some e)) ∧
     ((execStatusOf (loadStackStatus stored stack.stackName
         (stack.plans.map (·.planId))) spT.planId =
           ExecutionStatus.failed ∨
       execStatusOf (loadStackStatus stored stack.stackName
         (stack.plans.map (·.planId))) spT.planId =
           ExecutionStatus.skipped) →
      (∀ d ∈ spT.dependsOnPlanIds, d ∈ stack.plans.map (·.planId) ∧
        execStatusOf (loadStackStatus stored stack.stackName
          (stack.plans.map (·.planId))) d = ExecutionStatus.completed) →
      worker spT.planId ∈ out.results ∧
      execStatusOf st2 spT.planId = (worker spT.planId).executionStatus)) := by
  obtain ⟨hnc, hnd, hiff⟩ := run_order_facts stack.plans hwf hacyc
  refine ⟨_, executeStack_run stack stored worker now hnc, _, rfl, ?_, ?_⟩
  · intro hcomp
    have hTid : spT.planId ∈ stack.plans.map (·.planId) :=
      List.mem_map.mpr ⟨spT, hTmem, rfl⟩
    have hseed : spT.planId ∈
        (runInitState stack stored now).completedPlanIds :=
      (runInitState_completed stack stored now spT.planId).mpr
        ⟨hTid, hcomp⟩
    refine ⟨hseed, ?_, ?_⟩
    · intro r hr
      rcases execLoop_not_reinvoked stack worker stack.stackName
        (stack.plans.map (·.planId)) now hw
        (getExecutionOrder stack.plans).sortedPlanIds
        (runInitState stack stored now) spT.planId hseed r (by exact hr)
        with hin | hne
      · have hnil : (runInitState stack stored now).results = [] := rfl
        rw [hnil] at hin
        cases hin
      · exact hne
    · have hentry : ∃ e, alistGet (loadStackStatus stored stack.stackName
          (stack.plans.map (·.planId))).planStatuses spT.planId = some e := by
        cases hget : alistGet (loadStackStatus stored stack.stackName
            (stack.plans.map (·.planId))).planStatuses spT.planId with
        | none =>
          exfalso
          unfold execStatusOf at hcomp
          rw [hget] at hcomp
          cases hcomp
        | some e => exact ⟨e, rfl⟩
      obtain ⟨e, hget⟩ := hentry
      refine ⟨e, hget, ?_⟩
      have hkeep := execLoop_entry_keep stack worker stack.stackName
        (stack.plans.map (·.planId)) now
        (getExecutionOrder stack.plans).sortedPlanIds
        (runInitState stack stored now) spT.planId e hseed (by exact hget)
      have hst2 : alistGet (setStackRunning
          (some (runFinalState stack stored worker
            (getExecutionOrder stack.plans).sortedPlanIds now).status)
          stack.stackName (stack.plans.map (·.planId))
          false now).planStatuses spT.planId =
          alistGet (loadStackStatus
            (some (runFinalState stack stored worker
              (getExecutionOrder stack.plans).sortedPlanIds now).status)
            stack.stackName (stack.plans.map (·.planId))).planStatuses
            spT.planId := rfl
      rw [hst2]
      exact get_load_some _ _ _ _ _ (by exact hkeep)
  · intro hprev hdeps
    have hTid : spT.planId ∈ stack.plans.map (·.planId) :=
      List.mem_map.mpr ⟨spT, hTmem, rfl⟩
    have hTorder : spT.planId ∈
        (getExecutionOrder stack.plans).sortedPlanIds :=
      (hiff spT.planId).mpr hTid
    have hTnotseed : spT.planId ∉
        (runInitState stack stored now).completedPlanIds := by
      intro hc
      have hcomp : execStatusOf (loadStackStatus stored stack.stackName
          (stack.plans.map (·.planId))) spT.planId =
          ExecutionStatus.completed :=
        ((runInitState_completed stack stored now spT.planId).mp hc).2
      rcases hprev with h | h
      · exact absurd (h.symm.trans hcomp) (by decide)
      · exact absurd (h.symm.trans hcomp) (by decide)
    have hdeps' : ∀ d ∈ spT.dependsOnPlanIds,
        d ∈ (runInitState stack stored now).completedPlanIds := by
      intro d hd
      exact (runInitState_completed stack stored now d).mpr
        ⟨(hdeps d hd).1, (hdeps d hd).2⟩
    have hinvT := execLoop_invoke stack worker stack.stackName
      (stack.plans.map (·.planId)) now
      (getExecutionOrder stack.plans).sortedPlanIds
      (runInitState stack stored now) spT.planId spT hnd hTorder hTnotseed
      (stackPlan_find_of_nodup stack.plans hwf.1 spT hTmem)
      (by exact hdeps')
    refine ⟨hinvT.1, ?_⟩
    rw [execStatusOf_setStackRunning_some]
    exact hinvT.2.1

/-- A stack where `b` depends on `a`. -/
def stkResume : Stack := mkStack [mkStackPlan "a" [], mkStackPlan "b" ["a"]]

/-- A persisted record from a prior partial run: `a` completed, `b`
failed. -/
def stResume : StackExecutionStatus :=
  { stackName := "s"
    planStatuses :=
      [("a", { planId := "a"
               executionStatus := ExecutionStatus.completed
               lastExecutedAt := some 1
               executionDurationMs := some 2
               errorMessage := none
               exitCode := some 0 }),
       ("b", { planId := "b"
               executionStatus := ExecutionStatus.failed
               lastExecutedAt := some 1
               executionDurationMs := some 2
               errorMessage := some "Process exited with code 1"
               exitCode := some 1 })]
    lastRunAt := some 1
    isRunning := false }

/-- Witness for C7: resuming `stkResume` over `stResume`, the completed
`a` is seeded, never re-invoked and its entry survives unchanged, while
the previously failed `b` (its one dependency `a` persisted completed) is
invoked again. -/
theorem c7_resume_semantics_witness :
    (∃ out, executeStack (some stkResume) (some stResume) workerOk false
        none 5 = Except.ok out ∧
      ∃ st2, out.finalStatus = some st2 ∧
      ((execStatusOf (loadStackStatus (some stResume) stkResume.stackName
          (stkResume.plans.map (·.planId))) "a" =
            ExecutionStatus.completed →
        "a" ∈ (runInitState stkResume (some stResume) 5).completedPlanIds ∧
        (∀ r ∈ out.results, r.planId ≠ "a") ∧
        (∃ e, alistGet (loadStackStatus (some stResume) stkResume.stackName
            (stkResume.plans.map (·.planId))).planStatuses "a" = some e ∧
          alistGet st2.planStatuses "a" = some e)) ∧
       ((execStatusOf (loadStackStatus (some stResume) stkResume.stackName
           (stkResume.plans.map (·.planId))) "a" =
             ExecutionStatus.failed ∨
         execStatusOf (loadStackStatus (some stResume) stkResume.stackName
           (stkResume.plans.map (·.planId))) "a" =
             ExecutionStatus.skipped) →
        (∀ d ∈ (mkStackPlan "a" []).dependsOnPlanIds,
          d ∈ stkResume.plans.map (·.planId) ∧
          execStatusOf (loadStackStatus (some stResume) stkResume.stackName
            (stkResume.plans.map (·.planId))) d =
              ExecutionStatus.completed) →
        workerOk "a" ∈ out.results ∧
        execStatusOf st2 "a" = (workerOk "a").executionStatus))) ∧
    (∃ out, executeStack (some stkResume) (some stResume) workerOk false
        none 5 = Except.ok out ∧
      ∃ st2, out.finalStatus = some st2 ∧
      ((execStatusOf (loadStackStatus (some stResume) stkResume.stackName
          (stkResume.plans.map (·.planId))) "b" =
            ExecutionStatus.completed →
        "b" ∈ (runInitState stkResume (some stResume) 5).completedPlanIds ∧
        (∀ r ∈ out.results, r.planId ≠ "b") ∧
        (∃ e, alistGet (loadStackStatus (some stResume) stkResume.stackName
            (stkResume.plans.map (·.planId))).planStatuses "b" = some e ∧
          alistGet st2.planStatuses "b" = some e)) ∧
       ((execStatusOf (loadStackStatus (some stResume) stkResume.stackName
           (stkResume.plans.map (·.planId))) "b" =
             ExecutionStatus.failed ∨
         execStatusOf (loadStackStatus (some stResume) stkResume.stackName
           (stkResume.plans.map (·.planId))) "b" =
             ExecutionStatus.skipped) →
        (∀ d ∈ (mkStackPlan "b" ["a"]).dependsOnPlanIds,
          d ∈ stkResume.plans.map (·.planId) ∧
          execStatusOf (loadStackStatus (some stResume) stkResume.stackName
            (stkResume.plans.map (·.planId))) d =
              ExecutionStatus.completed) →
        workerOk "b" ∈ out.results ∧
        execStatusOf st2 "b" = (workerOk "b").executionStatus))) :=
  ⟨c7_resume_semantics stkResume (some stResume) workerOk 5 (by decide)
     (not_cyclic_of_flag_false _ (by decide)) (fun p => rfl)
     (mkStackPlan "a" []) (by decide),
   c7_resume_semantics stkResume (some stResume) workerOk 5 (by decide)
     (not_cyclic_of_flag_false _ (by decide)) (fun p => rfl)
     (mkStackPlan "b" ["a"]) (by decide)⟩
